import Mathlib

/-!
# SingleLinkedList: a shallow embedding of `single-linked-list.h`

The header implements a singly linked list whose nodes live on the free store
and whose sentinel node `head_` is a member of the list object.  The embedding
keeps that structure:

* a `Store` is a finite map from addresses to cells;
* `State.heap` holds the nodes created by `new Node(...)`;
* `State.objs` holds the live `SingleLinkedList` objects (sentinel link and
  `size_`), keyed by the identity (address) of the object;
* a `NodePtr` is a `Node*`: null, the address of the sentinel of some list
  object, or the address of a heap node;
* every member function is a function from a state to an `Outcome`, which
  records a normal return, a propagated `std::bad_alloc`, a failed `assert`,
  undefined behaviour (a null or dangling dereference), or exhausted fuel for
  the loops that follow `next_node` links of an arbitrary chain.

`size_t` is 64 bits wide: `++size_` and `--size_` are taken modulo `2 ^ 64`.
-/

namespace SLL

/-! ## Finite stores -/

/-- Finite map from addresses to cells, as an association list. -/
abbrev Store (β : Type) := List (Nat × β)

/-- Cell stored at address `k`, if any. -/
def Store.get {β : Type} : Store β → Nat → Option β
  | [], _ => none
  | (k', v) :: m, k => if k' = k then some v else Store.get m k

/-- Remove the cell at address `k`. -/
def Store.del {β : Type} : Store β → Nat → Store β
  | [], _ => []
  | (k', v) :: m, k => if k' = k then Store.del m k else (k', v) :: Store.del m k

/-- Write `v` at address `k`. -/
def Store.set {β : Type} (m : Store β) (k : Nat) (v : β) : Store β :=
  (k, v) :: Store.del m k

/-- An address above every address in use. -/
def Store.fresh {β : Type} : Store β → Nat
  | [] => 0
  | (k, _) :: m => max (k + 1) (Store.fresh m)

/-! ## Data model -/

/-- Number of values of `size_t` (64-bit). -/
def SIZE_MOD : Nat := 18446744073709551616

/-- Number of distinct non-null addresses a 64-bit `Node*` can hold. -/
def ADDR_LIMIT : Nat := 18446744073709551615

/-- A value of type `Node*`. -/
inductive NodePtr where
  | null : NodePtr
  | head (l : Nat) : NodePtr
  | node (a : Nat) : NodePtr
  deriving DecidableEq, Repr

/-- The struct `Node`: a value and the link `next_node`. -/
structure Node (α : Type) where
  value : α
  next_node : NodePtr
  deriving DecidableEq, Repr

/-- The data members of a `SingleLinkedList` object: `head_.next_node` and
`size_` (the sentinel `head_` holds no meaningful value). -/
structure ListObj where
  head_next : NodePtr
  size_ : Nat
  deriving DecidableEq, Repr

/-- Program state: the free store and the live list objects. -/
structure State (α : Type) where
  heap : Store (Node α)
  objs : Store ListObj
  deriving DecidableEq

/-- Result of running a member function. -/
inductive Outcome (α ρ : Type) where
  | ret (r : ρ) (st : State α) : Outcome α ρ
  | bad_alloc (st : State α) : Outcome α ρ
  | assert_fail : Outcome α ρ
  | undefined : Outcome α ρ
  | out_of_fuel : Outcome α ρ
  deriving DecidableEq

/-- The allocation function behind `new Node(...)`: the address it returns for
a given free store, or `none` when it throws `std::bad_alloc`. -/
abbrev Allocator (α : Type) := Store (Node α) → Option Nat

/-- Allocator that always succeeds, with an address above those in use. -/
def bumpAlloc {α : Type} : Allocator α := fun h => some (Store.fresh h)

/-- Allocator for a free store of `cap` node slots: fails once the fresh
address reaches `cap`. -/
def boundedAlloc {α : Type} (cap : Nat) : Allocator α :=
  fun h => if Store.fresh h < cap then some (Store.fresh h) else none

/-- The increment `++size_` on a `size_t`. -/
def sizeInc (n : Nat) : Nat := (n + 1) % SIZE_MOD

/-- The decrement `--size_` on a `size_t`. -/
def sizeDec (n : Nat) : Nat := (n + (SIZE_MOD - 1)) % SIZE_MOD

/-! ## Memory accesses through a `Node*` -/

/-- Read `p->next_node`; `none` is a null or dangling dereference. -/
def loadNext {α : Type} (st : State α) : NodePtr → Option NodePtr
  | .null => none
  | .head l => (Store.get st.objs l).map ListObj.head_next
  | .node a => (Store.get st.heap a).map Node.next_node

/-- Read `p->value` of a list node.  The `value` member of the sentinel `head_`
is default-initialised and no member function reads or writes it; the state
keeps no value for it, so a read through the sentinel has no result here. -/
def loadValue {α : Type} (st : State α) : NodePtr → Option α
  | .node a => (Store.get st.heap a).map Node.value
  | _ => none

/-- Write `p->next_node = q`. -/
def storeNext {α : Type} (st : State α) (p q : NodePtr) : Option (State α) :=
  match p with
  | .null => none
  | .head l =>
    match Store.get st.objs l with
    | none => none
    | some o => some ⟨st.heap, Store.set st.objs l ⟨q, o.size_⟩⟩
  | .node a =>
    match Store.get st.heap a with
    | none => none
    | some n => some ⟨Store.set st.heap a ⟨n.value, q⟩, st.objs⟩

/-- The expression `delete p` for a pointer obtained from `new`. -/
def deleteNode {α : Type} (st : State α) : NodePtr → Option (State α)
  | .null => some st
  | .head _ => none
  | .node a =>
    match Store.get st.heap a with
    | none => none
    | some _ => some ⟨Store.del st.heap a, st.objs⟩

/-- Write the member `size_` of list object `l`. -/
def setSize {α : Type} (st : State α) (l : Nat) (f : Nat → Nat) : Option (State α) :=
  match Store.get st.objs l with
  | none => none
  | some o => some ⟨st.heap, Store.set st.objs l ⟨o.head_next, f o.size_⟩⟩

/-! ## Iterators -/

/-- The iterator `begin()` / `cbegin()`: `head_.next_node`. -/
def begin_ {α : Type} (st : State α) (l : Nat) : Option NodePtr :=
  (Store.get st.objs l).map ListObj.head_next

/-- The iterator `end()` / `cend()`. -/
def end_ : NodePtr := .null

/-- The iterator `before_begin()`: the address of the sentinel. -/
def before_begin (l : Nat) : NodePtr := .head l

/-- Iterator `operator++`: `assert(node_); node_ = node_->next_node`. -/
def Iterator_incr {α : Type} (st : State α) (it : NodePtr) : Outcome α NodePtr :=
  if it = .null then .assert_fail
  else match loadNext st it with
    | none => .undefined
    | some q => .ret q st

/-- Iterator `operator*`: `assert(node_); return node_->value`. -/
def Iterator_deref {α : Type} (st : State α) (it : NodePtr) : Outcome α α :=
  if it = .null then .assert_fail
  else match loadValue st it with
    | none => .undefined
    | some v => .ret v st

/-! ## Member functions -/

/-- The member `GetSize()`. -/
def GetSize {α : Type} (st : State α) (l : Nat) : Option Nat :=
  (Store.get st.objs l).map ListObj.size_

/-- The member `IsEmpty()`: `size_ == 0`. -/
def IsEmpty {α : Type} (st : State α) (l : Nat) : Option Bool :=
  (Store.get st.objs l).map (fun o => decide (o.size_ = 0))

/-- The default constructor, run on storage `l`. -/
def ctor_default {α : Type} (st : State α) (l : Nat) : State α :=
  ⟨st.heap, Store.set st.objs l ⟨.null, 0⟩⟩

/-- The member `swap(other)`: exchanges `size_` and `head_.next_node`. -/
def swap {α : Type} (st : State α) (l other : Nat) : Outcome α Unit :=
  match Store.get st.objs l, Store.get st.objs other with
  | some a, some b =>
    let objs1 := Store.set st.objs l ⟨a.head_next, b.size_⟩
    let objs2 := Store.set objs1 other ⟨b.head_next, a.size_⟩
    match Store.get objs2 l, Store.get objs2 other with
    | some a2, some b2 =>
      let objs3 := Store.set objs2 l ⟨b2.head_next, a2.size_⟩
      .ret () ⟨st.heap, Store.set objs3 other ⟨a2.head_next, b2.size_⟩⟩
    | _, _ => .undefined
  | _, _ => .undefined

/-- The member `PushFront(value)`. -/
def PushFront {α : Type} (alloc : Allocator α) (st : State α) (l : Nat) (value : α) :
    Outcome α Unit :=
  match Store.get st.objs l with
  | none => .undefined
  | some o =>
    match alloc st.heap with
    | none => .bad_alloc st
    | some a =>
      .ret () ⟨Store.set st.heap a ⟨value, o.head_next⟩,
               Store.set st.objs l ⟨.node a, sizeInc o.size_⟩⟩

/-- The member `InsertAfter(pos, value)`. -/
def InsertAfter {α : Type} (alloc : Allocator α) (st : State α) (l : Nat) (pos : NodePtr)
    (value : α) : Outcome α NodePtr :=
  if pos = .null then .assert_fail
  else match loadNext st pos with
    | none => .undefined
    | some nx =>
      match alloc st.heap with
      | none => .bad_alloc st
      | some a =>
        match storeNext ⟨Store.set st.heap a ⟨value, nx⟩, st.objs⟩ pos (.node a) with
        | none => .undefined
        | some st2 =>
          match setSize st2 l sizeInc with
          | none => .undefined
          | some st3 =>
            match loadNext st3 pos with
            | none => .undefined
            | some r => .ret r st3

/-- The member `PopFront()`. -/
def PopFront {α : Type} (st : State α) (l : Nat) : Outcome α Unit :=
  match Store.get st.objs l with
  | none => .undefined
  | some o =>
    if o.size_ = 0 then .assert_fail
    else match loadNext st o.head_next with
      | none => .undefined
      | some nx =>
        match setSize ⟨st.heap, Store.set st.objs l ⟨nx, o.size_⟩⟩ l sizeDec with
        | none => .undefined
        | some st2 =>
          match deleteNode st2 o.head_next with
          | none => .undefined
          | some st3 => .ret () st3

/-- The member `EraseAfter(pos)`. -/
def EraseAfter {α : Type} (st : State α) (l : Nat) (pos : NodePtr) : Outcome α NodePtr :=
  if pos = .null then .assert_fail
  else match loadNext st pos with
    | none => .undefined
    | some nx =>
      if nx = .null then .assert_fail
      else match Store.get st.objs l with
        | none => .undefined
        | some o =>
          if o.size_ = 0 then .assert_fail
          else match loadNext st nx with
            | none => .undefined
            | some nn =>
              match storeNext st pos nn with
              | none => .undefined
              | some st1 =>
                match deleteNode st1 nx with
                | none => .undefined
                | some st2 =>
                  match setSize st2 l sizeDec with
                  | none => .undefined
                  | some st3 =>
                    match loadNext st3 pos with
                    | none => .undefined
                    | some r => .ret r st3

/-- The loop of `Clear()`: `while (!IsEmpty()) PopFront();`.  Every iteration
that returns has decremented `size_`, so the counter `n`, started at `size_`,
bounds the number of iterations. -/
def ClearLoop {α : Type} : Nat → State α → Nat → Outcome α Unit
  | 0, st, l =>
    match IsEmpty st l with
    | none => .undefined
    | some true => .ret () st
    | some false => .out_of_fuel
  | k + 1, st, l =>
    match IsEmpty st l with
    | none => .undefined
    | some true => .ret () st
    | some false =>
      match PopFront st l with
      | .ret _ st1 => ClearLoop k st1 l
      | .bad_alloc s => .bad_alloc s
      | .assert_fail => .assert_fail
      | .undefined => .undefined
      | .out_of_fuel => .out_of_fuel

/-- The member `Clear()`. -/
def Clear {α : Type} (st : State α) (l : Nat) : Outcome α Unit :=
  match GetSize st l with
  | none => .undefined
  | some n => ClearLoop n st l

/-- The destructor followed by the end of the lifetime of object `l`. -/
def dtor {α : Type} (st : State α) (l : Nat) : Outcome α Unit :=
  match Clear st l with
  | .ret _ st1 => .ret () ⟨st1.heap, Store.del st1.objs l⟩
  | .bad_alloc s => .bad_alloc s
  | .assert_fail => .assert_fail
  | .undefined => .undefined
  | .out_of_fuel => .out_of_fuel

/-- Destroy the local object `t` while an outcome propagates out of its scope. -/
def unwind {α ρ : Type} (st : State α) (t : Nat) : Outcome α ρ :=
  match dtor st t with
  | .ret _ st1 => .bad_alloc st1
  | .bad_alloc s => .bad_alloc s
  | .assert_fail => .assert_fail
  | .undefined => .undefined
  | .out_of_fuel => .out_of_fuel

/-- The loop of `Construct` over an initializer list:
`for (const auto& val : values) it = tmp.InsertAfter(it, val);`. -/
def ConstructLoop {α : Type} (alloc : Allocator α) :
    List α → State α → Nat → NodePtr → Outcome α NodePtr
  | [], st, _, it => .ret it st
  | val :: rest, st, t, it =>
    match InsertAfter alloc st t it val with
    | .ret it1 st1 => ConstructLoop alloc rest st1 t it1
    | .bad_alloc s => .bad_alloc s
    | .assert_fail => .assert_fail
    | .undefined => .undefined
    | .out_of_fuel => .out_of_fuel

/-- The tail of `Construct`, shared by both containers: `swap(tmp)` and the
destruction of `tmp` at the end of the scope, on the normal and on the
exceptional path. -/
def ConstructFinish {α : Type} (l t : Nat) : Outcome α NodePtr → Outcome α Unit
  | .ret _ st1 =>
    match swap st1 l t with
    | .ret _ st2 => dtor st2 t
    | .bad_alloc s => .bad_alloc s
    | .assert_fail => .assert_fail
    | .undefined => .undefined
    | .out_of_fuel => .out_of_fuel
  | .bad_alloc s => unwind s t
  | .assert_fail => .assert_fail
  | .undefined => .undefined
  | .out_of_fuel => .out_of_fuel

/-- The private member `Construct(values)` for an initializer list.  The local
`tmp` is a list object at a fresh identity. -/
def Construct {α : Type} (alloc : Allocator α) (st : State α) (l : Nat) (values : List α) :
    Outcome α Unit :=
  let t := Store.fresh st.objs
  ConstructFinish l t (ConstructLoop alloc values (ctor_default st t) t (before_begin t))

/-- The loop of `Construct` over another list: the range-for walks `values`
from `begin()` to `end()` by `operator*` and `operator++`. -/
def ConstructFromLoop {α : Type} (alloc : Allocator α) :
    Nat → State α → Nat → NodePtr → NodePtr → Outcome α NodePtr
  | fuel, st, t, it, jt =>
    if jt = end_ then .ret it st
    else match fuel with
      | 0 => .out_of_fuel
      | f + 1 =>
        match Iterator_deref st jt with
        | .ret val _ =>
          match InsertAfter alloc st t it val with
          | .ret it1 st1 =>
            match Iterator_incr st1 jt with
            | .ret jt1 _ => ConstructFromLoop alloc f st1 t it1 jt1
            | .bad_alloc s => .bad_alloc s
            | .assert_fail => .assert_fail
            | .undefined => .undefined
            | .out_of_fuel => .out_of_fuel
          | .bad_alloc s => .bad_alloc s
          | .assert_fail => .assert_fail
          | .undefined => .undefined
          | .out_of_fuel => .out_of_fuel
        | .bad_alloc s => .bad_alloc s
        | .assert_fail => .assert_fail
        | .undefined => .undefined
        | .out_of_fuel => .out_of_fuel

/-- The private member `Construct(values)` for another list `other`. -/
def ConstructFrom {α : Type} (alloc : Allocator α) (fuel : Nat) (st : State α) (l other : Nat) :
    Outcome α Unit :=
  let t := Store.fresh st.objs
  let st0 := ctor_default st t
  match begin_ st0 other with
  | none => .undefined
  | some jt => ConstructFinish l t (ConstructFromLoop alloc fuel st0 t (before_begin t) jt)

/-- Leave a constructor of the object at `l` by an exception: the object never
comes to life. -/
def ctorExit {α : Type} (l : Nat) : Outcome α Unit → Outcome α Unit
  | .ret r st => .ret r st
  | .bad_alloc s => .bad_alloc ⟨s.heap, Store.del s.objs l⟩
  | .assert_fail => .assert_fail
  | .undefined => .undefined
  | .out_of_fuel => .out_of_fuel

/-- The constructor from `std::initializer_list<Type>`, run on storage `l`:
the members are default-initialised, then `Construct(values)`. -/
def ctor_init {α : Type} (alloc : Allocator α) (st : State α) (l : Nat) (values : List α) :
    Outcome α Unit :=
  ctorExit l (Construct alloc (ctor_default st l) l values)

/-- The copy constructor, run on storage `l`. -/
def ctor_copy {α : Type} (alloc : Allocator α) (fuel : Nat) (st : State α) (l other : Nat) :
    Outcome α Unit :=
  ctorExit l (ConstructFrom alloc fuel (ctor_default st l) l other)

/-- The copy assignment `*this = rhs`:
`SingleLinkedList tmp(rhs); swap(tmp); return *this;`. -/
def operator_assign {α : Type} (alloc : Allocator α) (fuel : Nat) (st : State α) (l rhs : Nat) :
    Outcome α Unit :=
  let t := Store.fresh st.objs
  match ctor_copy alloc fuel st t rhs with
  | .ret _ st1 =>
    match swap st1 l t with
    | .ret _ st2 => dtor st2 t
    | .bad_alloc s => .bad_alloc s
    | .assert_fail => .assert_fail
    | .undefined => .undefined
    | .out_of_fuel => .out_of_fuel
  | .bad_alloc s => .bad_alloc s
  | .assert_fail => .assert_fail
  | .undefined => .undefined
  | .out_of_fuel => .out_of_fuel

/-- The free function `swap(lhs, rhs)`. -/
def swap_free {α : Type} (st : State α) (lhs rhs : Nat) : Outcome α Unit :=
  swap st lhs rhs

/-! ## Iteration and comparisons -/

/-- The client loop `for (auto it = first; it != end(); ++it) out.push_back(*it);`. -/
def iterate {α : Type} (st : State α) : Nat → NodePtr → Outcome α (List α)
  | fuel, it =>
    if it = end_ then .ret [] st
    else match fuel with
      | 0 => .out_of_fuel
      | f + 1 =>
        match Iterator_deref st it with
        | .ret v _ =>
          match Iterator_incr st it with
          | .ret it1 _ =>
            match iterate st f it1 with
            | .ret vs _ => .ret (v :: vs) st
            | .bad_alloc s => .bad_alloc s
            | .assert_fail => .assert_fail
            | .undefined => .undefined
            | .out_of_fuel => .out_of_fuel
          | .bad_alloc s => .bad_alloc s
          | .assert_fail => .assert_fail
          | .undefined => .undefined
          | .out_of_fuel => .out_of_fuel
        | .bad_alloc s => .bad_alloc s
        | .assert_fail => .assert_fail
        | .undefined => .undefined
        | .out_of_fuel => .out_of_fuel

/-- The elements of list `l` in iteration order, from `begin()` to `end()`. -/
def elements {α : Type} (fuel : Nat) (st : State α) (l : Nat) : Outcome α (List α) :=
  match begin_ st l with
  | none => .undefined
  | some it => iterate st fuel it

/-- The standard algorithm `std::equal(first1, last1, first2, last2)` on forward
iterators with both `last` iterators equal to `end()`:
`for (; first1 != last1 && first2 != last2; ++first1, ++first2)
   if (!(*first1 == *first2)) return false;
 return first1 == last1 && first2 == last2;`. -/
def std_equal {α : Type} (eq : α → α → Bool) (st : State α) :
    Nat → NodePtr → NodePtr → Outcome α Bool
  | fuel, p, q =>
    if p = end_ ∨ q = end_ then .ret (decide (p = end_ ∧ q = end_)) st
    else match fuel with
      | 0 => .out_of_fuel
      | f + 1 =>
        match loadValue st p, loadValue st q with
        | some x, some y =>
          if eq x y then
            match loadNext st p, loadNext st q with
            | some p1, some q1 => std_equal eq st f p1 q1
            | _, _ => .undefined
          else .ret false st
        | _, _ => .undefined

/-- The standard algorithm `std::lexicographical_compare(first1, last1, first2,
last2)` with both `last` iterators equal to `end()`:
`for (; first1 != last1 && first2 != last2; ++first1, ++first2) {
   if (*first1 < *first2) return true;
   if (*first2 < *first1) return false; }
 return first1 == last1 && first2 != last2;`. -/
def std_lexicographical_compare {α : Type} (lt : α → α → Bool) (st : State α) :
    Nat → NodePtr → NodePtr → Outcome α Bool
  | fuel, p, q =>
    if p = end_ ∨ q = end_ then .ret (decide (p = end_ ∧ q ≠ end_)) st
    else match fuel with
      | 0 => .out_of_fuel
      | f + 1 =>
        match loadValue st p, loadValue st q with
        | some x, some y =>
          if lt x y then .ret true st
          else if lt y x then .ret false st
          else
            match loadNext st p, loadNext st q with
            | some p1, some q1 => std_lexicographical_compare lt st f p1 q1
            | _, _ => .undefined
        | _, _ => .undefined

/-- Map the returned value of an outcome. -/
def Outcome.mapRet {α ρ τ : Type} (f : ρ → τ) : Outcome α ρ → Outcome α τ
  | .ret r st => .ret (f r) st
  | .bad_alloc s => .bad_alloc s
  | .assert_fail => .assert_fail
  | .undefined => .undefined
  | .out_of_fuel => .out_of_fuel

/-- The free function `operator==`. -/
def operator_eq {α : Type} (eq : α → α → Bool) (fuel : Nat) (st : State α) (lhs rhs : Nat) :
    Outcome α Bool :=
  if lhs = rhs then .ret true st
  else match Store.get st.objs lhs, Store.get st.objs rhs with
    | some a, some b =>
      if a.size_ ≠ b.size_ then .ret false st
      else std_equal eq st fuel a.head_next b.head_next
    | _, _ => .undefined

/-- The free function `operator!=`. -/
def operator_ne {α : Type} (eq : α → α → Bool) (fuel : Nat) (st : State α) (lhs rhs : Nat) :
    Outcome α Bool :=
  (operator_eq eq fuel st lhs rhs).mapRet (fun b => !b)

/-- The free function `operator<`. -/
def operator_lt {α : Type} (lt : α → α → Bool) (fuel : Nat) (st : State α) (lhs rhs : Nat) :
    Outcome α Bool :=
  match Store.get st.objs lhs, Store.get st.objs rhs with
  | some a, some b => std_lexicographical_compare lt st fuel a.head_next b.head_next
  | _, _ => .undefined

/-- The free function `operator<=`. -/
def operator_le {α : Type} (lt : α → α → Bool) (fuel : Nat) (st : State α) (lhs rhs : Nat) :
    Outcome α Bool :=
  (operator_lt lt fuel st rhs lhs).mapRet (fun b => !b)

/-- The free function `operator>`. -/
def operator_gt {α : Type} (lt : α → α → Bool) (fuel : Nat) (st : State α) (lhs rhs : Nat) :
    Outcome α Bool :=
  (operator_le lt fuel st lhs rhs).mapRet (fun b => !b)

/-- The free function `operator>=`. -/
def operator_ge {α : Type} (lt : α → α → Bool) (fuel : Nat) (st : State α) (lhs rhs : Nat) :
    Outcome α Bool :=
  (operator_lt lt fuel st lhs rhs).mapRet (fun b => !b)
end SLL

namespace SLL

/-! ## Representation predicates -/

/-- The chain that starts at pointer `p` visits exactly the heap nodes `cs`
(address and value, in order) and then continues with pointer `q`. -/
def Seg {α : Type} (h : Store (Node α)) : NodePtr → List (Nat × α) → NodePtr → Prop
  | p, [], q => p = q
  | p, c :: cs, q =>
    p = .node c.1 ∧ ∃ nx, Store.get h c.1 = some ⟨c.2, nx⟩ ∧ Seg h nx cs q

/-- The chain that starts at `p` visits exactly the nodes `cs` and reaches null. -/
def Cells {α : Type} (h : Store (Node α)) (p : NodePtr) (cs : List (Nat × α)) : Prop :=
  Seg h p cs .null

/-- The size invariant of list object `l`, with the nodes of the list made
explicit: the chain from `head_.next_node` visits exactly the nodes `cs` and
reaches null, and `size_`, a `size_t`, is their number. -/
def Owns {α : Type} (st : State α) (l : Nat) (cs : List (Nat × α)) : Prop :=
  ∃ p, Store.get st.objs l = some ⟨p, cs.length⟩ ∧ Cells st.heap p cs ∧ cs.length < SIZE_MOD

/-- The pointer to the first node of `cs`, null when there is none. -/
def firstPtr {α : Type} : List (Nat × α) → NodePtr
  | [] => .null
  | c :: _ => .node c.1

/-- The position with index `i` of a list with nodes `cs`: index `0` is the
sentinel, index `i + 1` is the node `cs[i]`. -/
def posAt {α : Type} (l : Nat) (cs : List (Nat × α)) : Nat → NodePtr
  | 0 => .head l
  | i + 1 =>
    match cs[i]? with
    | some c => .node c.1
    | none => .null

/-- An allocator only hands out addresses that are not in use. -/
def AllocOk {α : Type} (alloc : Allocator α) : Prop :=
  ∀ h a, alloc h = some a → Store.get h a = none

/-- An allocator only hands out addresses a 64-bit pointer can hold. -/
def AllocInSpace {α : Type} (alloc : Allocator α) : Prop :=
  ∀ h a, alloc h = some a → a < ADDR_LIMIT

/-- An allocator never throws. -/
def AllocTotal {α : Type} (alloc : Allocator α) : Prop :=
  ∀ h, alloc h ≠ none

end SLL

namespace SLL

/-- Footprint of a member call on list `l` whose nodes change from `cs` to
`cs2`: other list objects are untouched, heap cells outside the two node lists
are untouched, a node of `cs2` that is not a node of `cs` was free, and no
other cell was allocated. -/
structure Mut {α : Type} (st st2 : State α) (l : Nat) (cs cs2 : List (Nat × α)) : Prop where
  objs_other : ∀ l2, l2 ≠ l → Store.get st2.objs l2 = Store.get st.objs l2
  heap_other : ∀ b, (∀ c ∈ cs, c.1 ≠ b) → (∀ c ∈ cs2, c.1 ≠ b) →
    Store.get st2.heap b = Store.get st.heap b
  fresh_new : ∀ c ∈ cs2, (∃ d ∈ cs, d.1 = c.1) ∨ Store.get st.heap c.1 = none
  heap_dom : ∀ b, Store.get st2.heap b ≠ none →
    Store.get st.heap b ≠ none ∨ ∃ c ∈ cs2, c.1 = b

end SLL

namespace SLL

/-! ## The global invariant and the reachable states -/

/-- Every allocated node has an address a 64-bit pointer can hold. -/
def InSpace {α : Type} (h : Store (Node α)) : Prop :=
  ∀ a n, Store.get h a = some n → a < ADDR_LIMIT

/-- Well-formed state: every live list object satisfies the size invariant and
no node belongs to two list objects. -/
def WF {α : Type} (st : State α) : Prop :=
  InSpace st.heap ∧
  (∀ l o, Store.get st.objs l = some o → ∃ cs, Owns st l cs) ∧
  (∀ l1 l2 cs1 cs2, l1 ≠ l2 → Owns st l1 cs1 → Owns st l2 cs2 →
    ∀ c ∈ cs1, ∀ d ∈ cs2, c.1 ≠ d.1)

/-- The position `pos` references the sentinel of list `l` or a node of `l`. -/
def OwnPos {α : Type} (st : State α) (l : Nat) (pos : NodePtr) : Prop :=
  ∃ cs i, Owns st l cs ∧ i ≤ cs.length ∧ pos = posAt l cs i

/-- The state in which a call leaves the program when it returns or throws. -/
def Outcome.final {α ρ : Type} : Outcome α ρ → Option (State α)
  | .ret _ st => some st
  | .bad_alloc st => some st
  | .assert_fail => none
  | .undefined => none
  | .out_of_fuel => none

/-- One call of a public operation, within its precondition: the positions
handed to `InsertAfter` and `EraseAfter` reference the sentinel or a node of
the list they are called on.  (`PopFront` on an empty list and `EraseAfter` at
a position without a next node stop at an assertion and have no final state.) -/
inductive Step {α : Type} (alloc : Allocator α) : State α → State α → Prop where
  | ctor_default (st : State α) (l : Nat) : Step alloc st (ctor_default st l)
  | ctor_init (st st2 : State α) (l : Nat) (values : List α) :
      (ctor_init alloc st l values).final = some st2 → Step alloc st st2
  | ctor_copy (st st2 : State α) (fuel l other : Nat) :
      (ctor_copy alloc fuel st l other).final = some st2 → Step alloc st st2
  | assign (st st2 : State α) (fuel l rhs : Nat) :
      (operator_assign alloc fuel st l rhs).final = some st2 → Step alloc st st2
  | dtor (st st2 : State α) (l : Nat) :
      (dtor st l).final = some st2 → Step alloc st st2
  | swap (st st2 : State α) (l other : Nat) :
      (swap st l other).final = some st2 → Step alloc st st2
  | PushFront (st st2 : State α) (l : Nat) (value : α) :
      (PushFront alloc st l value).final = some st2 → Step alloc st st2
  | InsertAfter (st st2 : State α) (l : Nat) (pos : NodePtr) (value : α) :
      OwnPos st l pos → (InsertAfter alloc st l pos value).final = some st2 →
      Step alloc st st2
  | PopFront (st st2 : State α) (l : Nat) :
      (PopFront st l).final = some st2 → Step alloc st st2
  | EraseAfter (st st2 : State α) (l : Nat) (pos : NodePtr) :
      OwnPos st l pos → (EraseAfter st l pos).final = some st2 → Step alloc st st2
  | Clear (st st2 : State α) (l : Nat) :
      (Clear st l).final = some st2 → Step alloc st st2

/-- The states a program reaches from the empty state by public operations. -/
inductive Reachable {α : Type} (alloc : Allocator α) : State α → Prop where
  | init : Reachable alloc ⟨[], []⟩
  | step (st st2 : State α) : Reachable alloc st → Step alloc st st2 → Reachable alloc st2

end SLL

namespace SLL

/-- The loop of `std::lexicographical_compare` run on two value sequences. -/
def lexSeq {α : Type} (lt : α → α → Bool) : List α → List α → Bool
  | [], [] => false
  | [], _ :: _ => true
  | _ :: _, [] => false
  | x :: xs, y :: ys => if lt x y then true else if lt y x then false else lexSeq lt xs ys

end SLL

namespace SLL

/-- A concrete state with three lists of natural numbers: object 0 is
`1, 2`, object 1 is `1, 2, 3` and object 2 is `1, 3`. -/
def demoState : State Nat :=
  ⟨[(0, ⟨1, .node 1⟩), (1, ⟨2, .null⟩),
    (2, ⟨1, .node 3⟩), (3, ⟨2, .node 4⟩), (4, ⟨3, .null⟩),
    (5, ⟨1, .node 6⟩), (6, ⟨3, .null⟩)],
   [(0, ⟨.node 0, 2⟩), (1, ⟨.node 2, 3⟩), (2, ⟨.node 5, 2⟩)]⟩

/-- The order of natural numbers as an element `operator<`. -/
def natLt : Nat → Nat → Bool := fun x y => decide (x < y)

/-- The equality of natural numbers as an element `operator==`. -/
def natEq : Nat → Nat → Bool := fun x y => decide (x = y)

end SLL

namespace SLL

/-- The scenario of the specification, step 0: a default-constructed list. -/
def scen0 : State Nat := ⟨[], [(0, ⟨.null, 0⟩)]⟩

/-- The scenario, after `PushFront(1)`. -/
def scen1 : State Nat := ⟨[(0, ⟨1, .null⟩)], [(0, ⟨.node 0, 1⟩)]⟩

/-- The scenario, after `PushFront(2)`. -/
def scen2 : State Nat := ⟨[(1, ⟨2, .node 0⟩), (0, ⟨1, .null⟩)], [(0, ⟨.node 1, 2⟩)]⟩

/-- The scenario, after `InsertAfter(before_begin(), 3)`. -/
def scen3 : State Nat :=
  ⟨[(2, ⟨3, .node 1⟩), (1, ⟨2, .node 0⟩), (0, ⟨1, .null⟩)], [(0, ⟨.node 2, 3⟩)]⟩

end SLL

namespace SLL

/-- The run of the loop of `Clear()` on list `l`, `while (!IsEmpty()) PopFront();`,
from state `st` to state `st2` with exactly `n` calls of `PopFront`: before
every call the loop condition holds (`IsEmpty()` is false) and so does the
precondition of `PopFront` (`size_ > 0` and a non-null first node); the loop
stops in the first state in which `IsEmpty()` is true. -/
inductive ClearTrace {α : Type} (l : Nat) : Nat → State α → State α → Prop where
  | done (st : State α) : IsEmpty st l = some true → ClearTrace l 0 st st
  | pop (st st1 st2 : State α) (n : Nat) :
      IsEmpty st l = some false →
      (∃ o, Store.get st.objs l = some o ∧ 0 < o.size_ ∧ o.head_next ≠ .null) →
      PopFront st l = .ret () st1 → ClearTrace l n st1 st2 → ClearTrace l (n + 1) st st2

/-- A finite sequence of `PushFront`, `PopFront`, `InsertAfter`, `EraseAfter`
and `Clear` calls on the one list `c`, each within its precondition (the
positions reference the sentinel or a node of `c`), leading from the first
state to the second; a call may also end by a propagated `std::bad_alloc`. -/
inductive MutatesOnly {α : Type} (alloc : Allocator α) (c : Nat) : State α → State α → Prop where
  | refl (st : State α) : MutatesOnly alloc c st st
  | PushFront (st st1 st2 : State α) (value : α) :
      (PushFront alloc st c value).final = some st1 → MutatesOnly alloc c st1 st2 →
      MutatesOnly alloc c st st2
  | PopFront (st st1 st2 : State α) :
      (PopFront st c).final = some st1 → MutatesOnly alloc c st1 st2 →
      MutatesOnly alloc c st st2
  | InsertAfter (st st1 st2 : State α) (pos : NodePtr) (value : α) :
      OwnPos st c pos → (InsertAfter alloc st c pos value).final = some st1 →
      MutatesOnly alloc c st1 st2 → MutatesOnly alloc c st st2
  | EraseAfter (st st1 st2 : State α) (pos : NodePtr) :
      OwnPos st c pos → (EraseAfter st c pos).final = some st1 →
      MutatesOnly alloc c st1 st2 → MutatesOnly alloc c st st2
  | Clear (st st1 st2 : State α) :
      (Clear st c).final = some st1 → MutatesOnly alloc c st1 st2 →
      MutatesOnly alloc c st st2

end SLL

namespace SLL

/-- The two states hold the same list objects and the same heap cells. -/
def SameContent {α : Type} (st st2 : State α) : Prop :=
  (∀ x, Store.get st2.objs x = Store.get st.objs x) ∧
  (∀ b, Store.get st2.heap b = Store.get st.heap b)

end SLL

namespace SLL

/-- The state reached by constructing the list `1, 2, 3` as object 0 in the
empty state with an allocator for eight node slots. -/
def oneList : State Nat :=
  ⟨[(1, ⟨2, .node 2⟩), (2, ⟨3, .null⟩), (0, ⟨1, .node 1⟩)], [(0, ⟨.node 0, 3⟩)]⟩

end SLL

namespace SLL

/-- The identity of the local list `tmp` of `Construct` when a constructor runs
on the storage `l` in state `st`: the first unused object identity once the
members of `l` are default-initialised. -/
def buildTmp {α : Type} (st : State α) (l : Nat) : Nat :=
  Store.fresh (ctor_default st l).objs

/-- The state in which the build loop of `Construct` starts when a constructor
runs on the storage `l` in state `st`: the members of `l` are
default-initialised and `SingleLinkedList tmp;` is default-constructed. -/
def buildStart {α : Type} (st : State α) (l : Nat) : State α :=
  ctor_default (ctor_default st l) (buildTmp st l)

/-- The allocation of iteration `k` (counted from 0) fails in the build loop of
a constructor that runs on the storage `l` in state `st` and inserts the
values `vs`: there is an iteration `k`, the first `k` iterations of the loop
`it = tmp.InsertAfter(it, val)` return, and in the state `s` they reach
`new Node` has no address to hand out. -/
def AllocFailsAt {α : Type} (alloc : Allocator α) (st : State α) (l : Nat) (vs : List α)
    (k : Nat) : Prop :=
  k < vs.length ∧
  ∃ it s, ConstructLoop alloc (vs.take k) (buildStart st l) (buildTmp st l)
      (before_begin (buildTmp st l)) = .ret it s ∧ alloc s.heap = none

end SLL

namespace SLL

/-! ## Store lemmas -/

theorem Store.get_del {β : Type} (m : Store β) (k k2 : Nat) :
    Store.get (Store.del m k) k2 = if k = k2 then none else Store.get m k2 := by
  induction m with
  | nil => simp [Store.del, Store.get]
  | cons e m ih =>
    obtain ⟨k1, v⟩ := e
    by_cases h1 : k1 = k
    · subst h1
      simp only [Store.del, if_true, ih, Store.get]
      by_cases h2 : k1 = k2 <;> simp [h2]
    · simp only [Store.del, h1, if_false, Store.get, ih]
      by_cases h2 : k1 = k2
      · subst h2
        simp [Ne.symm h1]
      · simp [h2]

theorem Store.get_set {β : Type} (m : Store β) (k k2 : Nat) (v : β) :
    Store.get (Store.set m k v) k2 = if k = k2 then some v else Store.get m k2 := by
  by_cases h : k = k2
  · simp [Store.set, Store.get, h]
  · simp [Store.set, Store.get, h, Store.get_del]

theorem Store.get_set_self {β : Type} (m : Store β) (k : Nat) (v : β) :
    Store.get (Store.set m k v) k = some v := by
  simp [Store.get_set]

theorem Store.get_set_ne {β : Type} (m : Store β) {k k2 : Nat} (v : β) (h : k ≠ k2) :
    Store.get (Store.set m k v) k2 = Store.get m k2 := by
  simp [Store.get_set, h]

theorem Store.del_del {β : Type} (m : Store β) (k : Nat) :
    Store.del (Store.del m k) k = Store.del m k := by
  induction m with
  | nil => rfl
  | cons e m ih =>
    obtain ⟨k1, v⟩ := e
    by_cases h1 : k1 = k
    · simp [Store.del, h1, ih]
    · simp [Store.del, h1, ih]

theorem Store.set_set {β : Type} (m : Store β) (k : Nat) (v w : β) :
    Store.set (Store.set m k v) k w = Store.set m k w := by
  simp [Store.set, Store.del, Store.del_del]

theorem Store.lt_fresh {β : Type} (m : Store β) (k : Nat) (v : β)
    (h : Store.get m k = some v) : k < Store.fresh m := by
  induction m with
  | nil => simp [Store.get] at h
  | cons e m ih =>
    obtain ⟨k1, v1⟩ := e
    simp only [Store.get] at h
    simp only [Store.fresh]
    by_cases h1 : k1 = k
    · subst h1
      exact lt_of_lt_of_le (Nat.lt_succ_self _) (le_max_left _ _)
    · rw [if_neg h1] at h
      exact lt_of_lt_of_le (ih h) (le_max_right _ _)

theorem Store.get_fresh {β : Type} (m : Store β) : Store.get m (Store.fresh m) = none := by
  cases h : Store.get m (Store.fresh m) with
  | none => rfl
  | some v => exact absurd (Store.lt_fresh m _ v h) (lt_irrefl _)

end SLL

namespace SLL

/-! ## Chains -/

theorem Seg_append {α : Type} (h : Store (Node α)) (xs ys : List (Nat × α)) (p q : NodePtr) :
    Seg h p (xs ++ ys) q ↔ ∃ m, Seg h p xs m ∧ Seg h m ys q := by
  induction xs generalizing p with
  | nil => simp [Seg]
  | cons c xs ih =>
    constructor
    · rintro ⟨hp, nx, hget, hrest⟩
      obtain ⟨m, h1, h2⟩ := (ih nx).1 hrest
      exact ⟨m, ⟨hp, nx, hget, h1⟩, h2⟩
    · rintro ⟨m, ⟨hp, nx, hget, h1⟩, h2⟩
      exact ⟨hp, nx, hget, (ih nx).2 ⟨m, h1, h2⟩⟩

theorem Seg_frame {α : Type} {h h2 : Store (Node α)} {cs : List (Nat × α)} {p q : NodePtr}
    (hs : Seg h p cs q) (hf : ∀ c ∈ cs, Store.get h2 c.1 = Store.get h c.1) :
    Seg h2 p cs q := by
  induction cs generalizing p with
  | nil => exact hs
  | cons c cs ih =>
    obtain ⟨hp, nx, hget, hrest⟩ := hs
    refine ⟨hp, nx, ?_, ih hrest (fun d hd => hf d (List.mem_cons_of_mem _ hd))⟩
    rw [hf c (List.mem_cons_self _ _)]
    exact hget

theorem Cells_functional {α : Type} {h : Store (Node α)} {p : NodePtr}
    {cs ds : List (Nat × α)} (h1 : Cells h p cs) (h2 : Cells h p ds) : cs = ds := by
  induction cs generalizing p ds with
  | nil =>
    cases ds with
    | nil => rfl
    | cons d ds =>
      have e1 : p = .null := h1
      have e2 : p = .node d.1 := h2.1
      rw [e1] at e2
      cases e2
  | cons c cs ih =>
    obtain ⟨hp, nx, hget, hrest⟩ := h1
    cases ds with
    | nil =>
      have e2 : p = .null := h2
      rw [hp] at e2
      cases e2
    | cons d ds =>
      obtain ⟨hp2, nx2, hget2, hrest2⟩ := h2
      rw [hp] at hp2
      have hcd : c.1 = d.1 := by injection hp2
      rw [← hcd, hget] at hget2
      have hn : (⟨c.2, nx⟩ : Node α) = ⟨d.2, nx2⟩ := by injection hget2
      have hv : c.2 = d.2 := by injection hn
      have hx : nx = nx2 := by injection hn
      rw [← hx] at hrest2
      rw [ih hrest hrest2]
      congr 1
      exact Prod.ext hcd hv

theorem Cells_mem_get {α : Type} {h : Store (Node α)} {p q : NodePtr} {cs : List (Nat × α)}
    (hs : Seg h p cs q) {c : Nat × α} (hc : c ∈ cs) :
    ∃ nx, Store.get h c.1 = some ⟨c.2, nx⟩ := by
  induction cs generalizing p with
  | nil => cases hc
  | cons d cs ih =>
    obtain ⟨_, nx, hget, hrest⟩ := hs
    rcases List.mem_cons.1 hc with rfl | hc
    · exact ⟨nx, hget⟩
    · exact ih hrest hc

theorem Cells_split {α : Type} {h : Store (Node α)} {p : NodePtr}
    {pre post : List (Nat × α)} {c : Nat × α} (hs : Cells h p (pre ++ c :: post)) :
    ∃ nx, Seg h p pre (.node c.1) ∧ Store.get h c.1 = some ⟨c.2, nx⟩ ∧ Cells h nx post := by
  obtain ⟨m, h1, hm, nx, hget, h2⟩ := (Seg_append h pre (c :: post) p .null).1 hs
  subst hm
  exact ⟨nx, h1, hget, h2⟩

theorem Cells_head_not_mem {α : Type} {h : Store (Node α)} {cs : List (Nat × α)}
    {c : Nat × α} (hs : Cells h (.node c.1) (c :: cs)) : ∀ d ∈ cs, d.1 ≠ c.1 := by
  intro d hd hdc
  obtain ⟨pre, post, rfl⟩ := List.append_of_mem hd
  obtain ⟨_, nx, hget, hrest⟩ := hs
  obtain ⟨nx2, _, hget2, hpost⟩ := Cells_split hrest
  have hd' : Cells h (.node c.1) (d :: post) := ⟨by rw [hdc], nx2, hget2, hpost⟩
  have hc' : Cells h (.node c.1) (c :: (pre ++ d :: post)) := ⟨rfl, nx, hget, hrest⟩
  have := congrArg List.length (Cells_functional hc' hd')
  simp at this
  omega

theorem Cells_nodup {α : Type} {h : Store (Node α)} {p : NodePtr} {cs : List (Nat × α)}
    (hs : Cells h p cs) : (cs.map Prod.fst).Nodup := by
  induction cs generalizing p with
  | nil => simp
  | cons c cs ih =>
    have hs2 := hs
    obtain ⟨hp, nx, hget, hrest⟩ := hs
    subst hp
    rw [List.map_cons, List.nodup_cons]
    refine ⟨?_, ih hrest⟩
    intro hmem
    obtain ⟨d, hd, hdc⟩ := List.mem_map.1 hmem
    exact Cells_head_not_mem hs2 d hd hdc

end SLL

namespace SLL

/-! ## Specifications of the single-list members -/

theorem sizeInc_eq {n : Nat} (h : n + 1 < SIZE_MOD) : sizeInc n = n + 1 := by
  unfold sizeInc
  exact Nat.mod_eq_of_lt h

theorem sizeDec_succ {n : Nat} (h : n + 1 < SIZE_MOD) : sizeDec (n + 1) = n := by
  unfold sizeDec SIZE_MOD at *
  omega

theorem Cells_firstPtr {α : Type} {h : Store (Node α)} {p : NodePtr} {cs : List (Nat × α)}
    (hs : Cells h p cs) : p = firstPtr cs := by
  cases cs with
  | nil => exact hs
  | cons c cs => exact hs.1

theorem nodup_mid {α : Type} {pre post : List (Nat × α)} {c : Nat × α}
    (hnd : (List.map Prod.fst (pre ++ c :: post)).Nodup) :
    (∀ d ∈ pre, d.1 ≠ c.1) ∧ (∀ d ∈ post, d.1 ≠ c.1) := by
  rw [List.map_append, List.map_cons, List.nodup_append, List.nodup_cons] at hnd
  constructor
  · intro d hd hdc
    exact hnd.2.2 (List.mem_map_of_mem _ hd) (by rw [hdc]; exact List.mem_cons_self _ _)
  · intro d hd hdc
    exact hnd.2.1.1 (by rw [← hdc]; exact List.mem_map_of_mem _ hd)

theorem InsertAfter_head {α : Type} (alloc : Allocator α) (st : State α) (l : Nat)
    (cs : List (Nat × α)) (v : α) (a : Nat)
    (hown : Owns st l cs) (ha : alloc st.heap = some a) (hfresh : Store.get st.heap a = none)
    (hroom : cs.length + 1 < SIZE_MOD) :
    ∃ st2, InsertAfter alloc st l (.head l) v = .ret (.node a) st2 ∧
      Owns st2 l ((a, v) :: cs) ∧ Mut st st2 l cs ((a, v) :: cs) := by
  obtain ⟨p, hobj, hcells, _⟩ := hown
  have hne : ∀ c ∈ cs, c.1 ≠ a := by
    intro c hc hca
    obtain ⟨nx, hget⟩ := Cells_mem_get hcells hc
    rw [hca, hfresh] at hget
    cases hget
  refine ⟨⟨Store.set st.heap a ⟨v, p⟩,
    Store.set (Store.set st.objs l ⟨.node a, cs.length⟩) l ⟨.node a, cs.length + 1⟩⟩, ?_, ?_, ?_⟩
  · simp [InsertAfter, loadNext, hobj, ha, storeNext, setSize, Store.get_set, sizeInc_eq hroom]
  · refine ⟨.node a, by simp [Store.get_set], ⟨rfl, p, by simp [Store.get_set], ?_⟩,
      by simpa using hroom⟩
    apply Seg_frame hcells
    intro c hc
    simp [Store.get_set, Ne.symm (hne c hc)]
  · refine ⟨?_, ?_, ?_, ?_⟩
    · intro l2 h2
      simp [Store.get_set, Ne.symm h2]
    · intro b _ hb
      have : a ≠ b := hb (a, v) (List.mem_cons_self _ _)
      simp [Store.get_set, this]
    · intro c hc
      rcases List.mem_cons.1 hc with rfl | hc
      · exact Or.inr hfresh
      · exact Or.inl ⟨c, hc, rfl⟩
    · intro b hb
      by_cases hab : a = b
      · exact Or.inr ⟨(a, v), List.mem_cons_self _ _, hab⟩
      · left
        simpa [Store.get_set, hab] using hb

theorem InsertAfter_node {α : Type} (alloc : Allocator α) (st : State α) (l : Nat)
    (pre post : List (Nat × α)) (c : Nat × α) (v : α) (a : Nat)
    (hown : Owns st l (pre ++ c :: post)) (ha : alloc st.heap = some a)
    (hfresh : Store.get st.heap a = none)
    (hroom : (pre ++ c :: post).length + 1 < SIZE_MOD) :
    ∃ st2, InsertAfter alloc st l (.node c.1) v = .ret (.node a) st2 ∧
      Owns st2 l (pre ++ c :: (a, v) :: post) ∧
      Mut st st2 l (pre ++ c :: post) (pre ++ c :: (a, v) :: post) := by
  obtain ⟨p, hobj, hcells, _⟩ := hown
  have hne : ∀ d ∈ pre ++ c :: post, d.1 ≠ a := by
    intro d hd hda
    obtain ⟨nx, hget⟩ := Cells_mem_get hcells hd
    rw [hda, hfresh] at hget
    cases hget
  have hca : c.1 ≠ a := hne c (by simp)
  have hnd := Cells_nodup hcells
  obtain ⟨nx, hpre, hget, hpost⟩ := Cells_split hcells
  have hprec : ∀ d ∈ pre, d.1 ≠ c.1 := by
    intro d hd hdc
    rw [List.map_append, List.map_cons, List.nodup_append] at hnd
    exact hnd.2.2 (List.mem_map_of_mem _ hd) (by rw [hdc]; exact List.mem_cons_self _ _)
  have hpostc : ∀ d ∈ post, d.1 ≠ c.1 := by
    intro d hd hdc
    rw [List.map_append, List.map_cons, List.nodup_append, List.nodup_cons] at hnd
    exact hnd.2.1.1 (by rw [← hdc]; exact List.mem_map_of_mem _ hd)
  refine ⟨⟨Store.set (Store.set st.heap a ⟨v, nx⟩) c.1 ⟨c.2, .node a⟩,
    Store.set st.objs l ⟨p, (pre ++ c :: post).length + 1⟩⟩, ?_, ?_, ?_⟩
  · have hroom2 : pre.length + (post.length + 1) + 1 < SIZE_MOD := by simpa using hroom
    simp [InsertAfter, loadNext, hget, ha, storeNext, setSize, Store.get_set, hobj,
      Ne.symm hca, sizeInc_eq hroom2]
  · refine ⟨p, by simp [Store.get_set]; omega, ?_, by simp at hroom ⊢; omega⟩
    apply (Seg_append _ pre _ p .null).2
    refine ⟨.node c.1, ?_, rfl, .node a, by simp [Store.get_set], rfl, nx, ?_, ?_⟩
    · apply Seg_frame hpre
      intro d hd
      have h1 : d.1 ≠ a := hne d (by simp [hd])
      simp [Store.get_set, Ne.symm h1, Ne.symm (hprec d hd)]
    · simp [Store.get_set, Ne.symm hca, hca, hget]
    · apply Seg_frame hpost
      intro d hd
      have h1 : d.1 ≠ a := hne d (by simp [hd])
      simp [Store.get_set, Ne.symm h1, Ne.symm (hpostc d hd)]
  · refine ⟨?_, ?_, ?_, ?_⟩
    · intro l2 h2
      simp [Store.get_set, Ne.symm h2]
    · intro b hb1 hb2
      have h1 : a ≠ b := hb2 (a, v) (by simp)
      have h2 : c.1 ≠ b := hb1 c (by simp)
      simp [Store.get_set, h1, h2]
    · intro d hd
      rcases List.mem_append.1 hd with hd | hd
      · exact Or.inl ⟨d, by simp [hd], rfl⟩
      · rcases List.mem_cons.1 hd with rfl | hd
        · exact Or.inl ⟨d, by simp, rfl⟩
        · rcases List.mem_cons.1 hd with rfl | hd
          · exact Or.inr hfresh
          · exact Or.inl ⟨d, by simp [hd], rfl⟩
    · intro b hb
      by_cases hab : a = b
      · exact Or.inr ⟨(a, v), by simp, hab⟩
      · by_cases hcb : c.1 = b
        · exact Or.inr ⟨c, by simp, hcb⟩
        · left
          simpa [Store.get_set, hab, hcb] using hb

end SLL

namespace SLL

theorem PushFront_spec {α : Type} (alloc : Allocator α) (st : State α) (l : Nat)
    (cs : List (Nat × α)) (v : α) (a : Nat)
    (hown : Owns st l cs) (ha : alloc st.heap = some a) (hfresh : Store.get st.heap a = none)
    (hroom : cs.length + 1 < SIZE_MOD) :
    ∃ st2, PushFront alloc st l v = .ret () st2 ∧
      Owns st2 l ((a, v) :: cs) ∧ Mut st st2 l cs ((a, v) :: cs) := by
  obtain ⟨p, hobj, hcells, _⟩ := hown
  have hne : ∀ c ∈ cs, c.1 ≠ a := by
    intro c hc hca
    obtain ⟨nx, hget⟩ := Cells_mem_get hcells hc
    rw [hca, hfresh] at hget
    cases hget
  refine ⟨⟨Store.set st.heap a ⟨v, p⟩, Store.set st.objs l ⟨.node a, cs.length + 1⟩⟩, ?_, ?_, ?_⟩
  · simp [PushFront, hobj, ha, sizeInc_eq hroom]
  · refine ⟨.node a, by simp [Store.get_set], ⟨rfl, p, by simp [Store.get_set], ?_⟩,
      by simpa using hroom⟩
    apply Seg_frame hcells
    intro c hc
    simp [Store.get_set, Ne.symm (hne c hc)]
  · refine ⟨?_, ?_, ?_, ?_⟩
    · intro l2 h2
      simp [Store.get_set, Ne.symm h2]
    · intro b _ hb
      have : a ≠ b := hb (a, v) (List.mem_cons_self _ _)
      simp [Store.get_set, this]
    · intro c hc
      rcases List.mem_cons.1 hc with rfl | hc
      · exact Or.inr hfresh
      · exact Or.inl ⟨c, hc, rfl⟩
    · intro b hb
      by_cases hab : a = b
      · exact Or.inr ⟨(a, v), List.mem_cons_self _ _, hab⟩
      · left
        simpa [Store.get_set, hab] using hb

theorem PopFront_spec {α : Type} (st : State α) (l : Nat) (c : Nat × α) (cs : List (Nat × α))
    (hown : Owns st l (c :: cs)) :
    ∃ st2, PopFront st l = .ret () st2 ∧ Owns st2 l cs ∧ Mut st st2 l (c :: cs) cs := by
  obtain ⟨p, hobj, hcells, hlt⟩ := hown
  have hnd := Cells_head_not_mem (by
    have := hcells
    rw [hcells.1] at this
    exact this)
  obtain ⟨hp, nx, hget, hrest⟩ := hcells
  subst hp
  have hlt2 : cs.length + 1 < SIZE_MOD := by simpa using hlt
  refine ⟨⟨Store.del st.heap c.1, Store.set st.objs l ⟨nx, cs.length⟩⟩, ?_, ?_, ?_⟩
  · simp [PopFront, hobj, loadNext, hget, setSize, Store.get_set, deleteNode,
      sizeDec_succ hlt2, Store.set_set]
  · refine ⟨nx, by simp [Store.get_set], ?_, by omega⟩
    apply Seg_frame hrest
    intro d hd
    simp [Store.get_del, Ne.symm (hnd d hd)]
  · refine ⟨?_, ?_, ?_, ?_⟩
    · intro l2 h2
      simp [Store.get_set, Ne.symm h2]
    · intro b hb _
      have : c.1 ≠ b := hb c (List.mem_cons_self _ _)
      simp [Store.get_del, this]
    · intro d hd
      exact Or.inl ⟨d, List.mem_cons_of_mem _ hd, rfl⟩
    · intro b hb
      left
      by_cases hcb : c.1 = b
      · rw [← hcb, hget]
        simp
      · simpa [Store.get_del, hcb] using hb

theorem EraseAfter_head {α : Type} (st : State α) (l : Nat) (c : Nat × α)
    (cs : List (Nat × α)) (hown : Owns st l (c :: cs)) :
    ∃ st2, EraseAfter st l (.head l) = .ret (firstPtr cs) st2 ∧ Owns st2 l cs ∧
      Mut st st2 l (c :: cs) cs := by
  obtain ⟨p, hobj, hcells, hlt⟩ := hown
  have hnd := Cells_head_not_mem (by
    have := hcells
    rw [hcells.1] at this
    exact this)
  obtain ⟨hp, nx, hget, hrest⟩ := hcells
  subst hp
  have hlt2 : cs.length + 1 < SIZE_MOD := by simpa using hlt
  have hnx := Cells_firstPtr hrest
  refine ⟨⟨Store.del st.heap c.1, Store.set st.objs l ⟨nx, cs.length⟩⟩, ?_, ?_, ?_⟩
  · simp [EraseAfter, hobj, loadNext, hget, setSize, Store.get_set, deleteNode, storeNext,
      sizeDec_succ hlt2, hnx, Store.set_set]
  · refine ⟨nx, by simp [Store.get_set], ?_, by omega⟩
    apply Seg_frame hrest
    intro d hd
    simp [Store.get_del, Ne.symm (hnd d hd)]
  · refine ⟨?_, ?_, ?_, ?_⟩
    · intro l2 h2
      simp [Store.get_set, Ne.symm h2]
    · intro b hb _
      have : c.1 ≠ b := hb c (List.mem_cons_self _ _)
      simp [Store.get_del, this]
    · intro d hd
      exact Or.inl ⟨d, List.mem_cons_of_mem _ hd, rfl⟩
    · intro b hb
      left
      by_cases hcb : c.1 = b
      · rw [← hcb, hget]
        simp
      · simpa [Store.get_del, hcb] using hb

theorem EraseAfter_node {α : Type} (st : State α) (l : Nat) (pre post : List (Nat × α))
    (c d : Nat × α) (hown : Owns st l (pre ++ c :: d :: post)) :
    ∃ st2, EraseAfter st l (.node c.1) = .ret (firstPtr post) st2 ∧
      Owns st2 l (pre ++ c :: post) ∧
      Mut st st2 l (pre ++ c :: d :: post) (pre ++ c :: post) := by
  obtain ⟨p, hobj, hcells, hlt⟩ := hown
  have hnd := Cells_nodup hcells
  obtain ⟨h1, h2⟩ := nodup_mid hnd
  have hnd2 : (List.map Prod.fst ((pre ++ [c]) ++ d :: post)).Nodup := by
    simpa using hnd
  obtain ⟨h3, h4⟩ := nodup_mid hnd2
  have hdc : d.1 ≠ c.1 := h2 d (List.mem_cons_self _ _)
  obtain ⟨nx, hpre, hget, hrest⟩ := Cells_split hcells
  obtain ⟨hnxd, nn, hgetd, hpost⟩ := hrest
  subst hnxd
  have hnn := Cells_firstPtr hpost
  have hlen : (pre ++ c :: d :: post).length = (pre ++ c :: post).length + 1 := by
    simp only [List.length_append, List.length_cons]
    omega
  have hlt2 : (pre ++ c :: post).length + 1 < SIZE_MOD := by omega
  refine ⟨⟨Store.del (Store.set st.heap c.1 ⟨c.2, nn⟩) d.1,
    Store.set st.objs l ⟨p, (pre ++ c :: post).length⟩⟩, ?_, ?_, ?_⟩
  · have hne0 : (pre ++ c :: d :: post).length ≠ 0 := by simp
    rw [hlen] at hobj hne0
    have hlt3 : pre.length + (post.length + 1) + 1 < SIZE_MOD := by simpa using hlt2
    simp [EraseAfter, loadNext, hget, hobj, hgetd, storeNext, deleteNode, setSize,
      Store.get_set, Store.get_del, Ne.symm hdc, hdc, sizeDec_succ hlt3, hnn,
      Store.set_set]
  · refine ⟨p, by simp [Store.get_set], ?_, by omega⟩
    apply (Seg_append _ pre _ p .null).2
    refine ⟨.node c.1, ?_, rfl, nn, ?_, ?_⟩
    · apply Seg_frame hpre
      intro e he
      have e1 : e.1 ≠ c.1 := h1 e he
      have e2 : e.1 ≠ d.1 := h3 e (by simp [he])
      simp [Store.get_set, Store.get_del, Ne.symm e1, Ne.symm e2]
    · simp [Store.get_set, Store.get_del, hdc]
    · apply Seg_frame hpost
      intro e he
      have e1 : e.1 ≠ c.1 := h2 e (List.mem_cons_of_mem _ he)
      have e2 : e.1 ≠ d.1 := h4 e he
      simp [Store.get_set, Store.get_del, Ne.symm e1, Ne.symm e2]
  · refine ⟨?_, ?_, ?_, ?_⟩
    · intro l2 h2
      simp [Store.get_set, Ne.symm h2]
    · intro b hb _
      have e1 : c.1 ≠ b := hb c (by simp)
      have e2 : d.1 ≠ b := hb d (by simp)
      simp [Store.get_set, Store.get_del, e1, e2]
    · intro e he
      refine Or.inl ⟨e, ?_, rfl⟩
      rcases List.mem_append.1 he with he | he
      · simp [he]
      · rcases List.mem_cons.1 he with rfl | he
        · simp
        · simp [he]
    · intro b hb
      left
      by_cases hcb : c.1 = b
      · rw [← hcb, hget]
        simp
      · by_cases hdb : d.1 = b
        · rw [← hdb, hgetd]
          simp
        · simpa [Store.get_set, Store.get_del, hcb, hdb] using hb

end SLL

namespace SLL

/-! ## Iteration over a well-formed list, positions by index -/

theorem iterate_cells {α : Type} (st : State α) (cs : List (Nat × α)) (p : NodePtr)
    (fuel : Nat) (h : Cells st.heap p cs) (hf : cs.length ≤ fuel) :
    iterate st fuel p = .ret (cs.map Prod.snd) st := by
  induction cs generalizing p fuel with
  | nil =>
    have hp : p = .null := h
    subst hp
    unfold iterate
    simp [end_]
  | cons c cs ih =>
    obtain ⟨hp, nx, hget, hrest⟩ := h
    subst hp
    cases fuel with
    | zero => simp at hf
    | succ f =>
      have hf2 : cs.length ≤ f := by simpa using hf
      unfold iterate
      simp [end_, Iterator_deref, Iterator_incr, loadValue, loadNext, hget, ih nx f hrest hf2]

theorem elements_owns {α : Type} {st : State α} {l : Nat} {cs : List (Nat × α)}
    (h : Owns st l cs) (fuel : Nat) (hf : cs.length ≤ fuel) :
    elements fuel st l = .ret (cs.map Prod.snd) st := by
  obtain ⟨p, hobj, hcells, _⟩ := h
  simp [elements, begin_, hobj, iterate_cells st cs p fuel hcells hf]

theorem GetSize_owns {α : Type} {st : State α} {l : Nat} {cs : List (Nat × α)}
    (h : Owns st l cs) : GetSize st l = some cs.length := by
  obtain ⟨p, hobj, _, _⟩ := h
  simp [GetSize, hobj]

theorem begin_owns {α : Type} {st : State α} {l : Nat} {cs : List (Nat × α)}
    (h : Owns st l cs) : begin_ st l = some (firstPtr cs) := by
  obtain ⟨p, hobj, hcells, _⟩ := h
  simp [begin_, hobj, Cells_firstPtr hcells]

theorem Owns_functional {α : Type} {st : State α} {l : Nat} {cs ds : List (Nat × α)}
    (h1 : Owns st l cs) (h2 : Owns st l ds) : cs = ds := by
  obtain ⟨p, hobj, hcells, _⟩ := h1
  obtain ⟨q, hobj2, hcells2, _⟩ := h2
  rw [hobj] at hobj2
  have hpq : p = q := by
    have := Option.some.inj hobj2
    exact congrArg ListObj.head_next this
  subst hpq
  exact Cells_functional hcells hcells2

theorem posAt_succ {α : Type} (l : Nat) (cs : List (Nat × α)) (i : Nat) (hi : i < cs.length) :
    posAt l cs (i + 1) = .node (cs[i]).1 := by
  simp [posAt, List.getElem?_eq_getElem hi]

theorem split_at {α : Type} (cs : List α) (i : Nat) (hi : i < cs.length) :
    cs = cs.take i ++ cs[i] :: cs.drop (i + 1) := by
  rw [← List.drop_eq_getElem_cons hi, List.take_append_drop]

theorem take_succ_at {α : Type} (cs : List α) (i : Nat) (hi : i < cs.length) :
    cs.take (i + 1) = cs.take i ++ [cs[i]] := by
  rw [List.take_succ, List.getElem?_eq_getElem hi]
  rfl

theorem InsertAfter_at {α : Type} (alloc : Allocator α) (st : State α) (l : Nat)
    (cs : List (Nat × α)) (i : Nat) (v : α) (a : Nat)
    (hown : Owns st l cs) (hi : i ≤ cs.length) (ha : alloc st.heap = some a)
    (hfresh : Store.get st.heap a = none) (hroom : cs.length + 1 < SIZE_MOD) :
    ∃ st2, InsertAfter alloc st l (posAt l cs i) v = .ret (.node a) st2 ∧
      Owns st2 l (cs.take i ++ (a, v) :: cs.drop i) ∧
      Mut st st2 l cs (cs.take i ++ (a, v) :: cs.drop i) := by
  cases i with
  | zero =>
    simpa [posAt] using InsertAfter_head alloc st l cs v a hown ha hfresh hroom
  | succ k =>
    have hk : k < cs.length := hi
    have hsplit := split_at cs k hk
    have hown2 : Owns st l (cs.take k ++ cs[k] :: cs.drop (k + 1)) := by
      rw [← hsplit]; exact hown
    have hroom2 : (cs.take k ++ cs[k] :: cs.drop (k + 1)).length + 1 < SIZE_MOD := by
      rw [← hsplit]; exact hroom
    obtain ⟨st2, hret, hown3, hmut⟩ :=
      InsertAfter_node alloc st l (cs.take k) (cs.drop (k + 1)) cs[k] v a hown2 ha hfresh hroom2
    rw [← hsplit] at hmut
    have hlist : cs.take (k + 1) ++ (a, v) :: cs.drop (k + 1) =
        cs.take k ++ cs[k] :: (a, v) :: cs.drop (k + 1) := by
      rw [take_succ_at cs k hk, List.append_assoc]
      rfl
    refine ⟨st2, ?_, ?_, ?_⟩
    · rw [posAt_succ l cs k hk]; exact hret
    · rw [hlist]; exact hown3
    · rw [hlist]; exact hmut

theorem EraseAfter_at {α : Type} (st : State α) (l : Nat) (cs : List (Nat × α)) (i : Nat)
    (hown : Owns st l cs) (hi : i < cs.length) :
    ∃ st2, EraseAfter st l (posAt l cs i) = .ret (firstPtr (cs.drop (i + 1))) st2 ∧
      Owns st2 l (cs.take i ++ cs.drop (i + 1)) ∧
      Mut st st2 l cs (cs.take i ++ cs.drop (i + 1)) := by
  cases i with
  | zero =>
    cases cs with
    | nil => simp at hi
    | cons c cs => simpa [posAt] using EraseAfter_head st l c cs hown
  | succ k =>
    have hk : k < cs.length := by omega
    have hsplit := split_at cs k hk
    have hdrop : cs.drop (k + 1) = cs[k + 1] :: cs.drop (k + 1 + 1) :=
      List.drop_eq_getElem_cons hi
    have hcs : cs = cs.take k ++ cs[k] :: cs[k + 1] :: cs.drop (k + 1 + 1) := by
      rw [← hdrop]; exact hsplit
    have hown2 : Owns st l (cs.take k ++ cs[k] :: cs[k + 1] :: cs.drop (k + 1 + 1)) := by
      rw [← hcs]; exact hown
    obtain ⟨st2, hret, hown3, hmut⟩ :=
      EraseAfter_node st l (cs.take k) (cs.drop (k + 1 + 1)) cs[k] cs[k + 1] hown2
    rw [← hcs] at hmut
    have hlist : cs.take (k + 1) ++ cs.drop (k + 1 + 1) =
        cs.take k ++ cs[k] :: cs.drop (k + 1 + 1) := by
      rw [take_succ_at cs k hk, List.append_assoc]
      rfl
    refine ⟨st2, ?_, ?_, ?_⟩
    · rw [posAt_succ l cs k hk]; exact hret
    · rw [hlist]; exact hown3
    · rw [hlist]; exact hmut

end SLL

namespace SLL

/-! ## Footprints, swap, Clear, destructor -/

theorem Owns_mem_get {α : Type} {st : State α} {l : Nat} {cs : List (Nat × α)}
    (h : Owns st l cs) {c : Nat × α} (hc : c ∈ cs) : Store.get st.heap c.1 ≠ none := by
  obtain ⟨p, _, hcells, _⟩ := h
  obtain ⟨nx, hget⟩ := Cells_mem_get hcells hc
  rw [hget]
  simp

theorem Owns_transport {α : Type} {st st2 : State α} {l l2 : Nat} {cs : List (Nat × α)}
    (h : Owns st l cs) (hobj : Store.get st2.objs l2 = Store.get st.objs l)
    (hheap : ∀ c ∈ cs, Store.get st2.heap c.1 = Store.get st.heap c.1) : Owns st2 l2 cs := by
  obtain ⟨p, ho, hcells, hlt⟩ := h
  exact ⟨p, by rw [hobj, ho], Seg_frame hcells hheap, hlt⟩

theorem Mut.refl {α : Type} (st : State α) (l : Nat) (cs : List (Nat × α)) :
    Mut st st l cs cs :=
  ⟨fun _ _ => rfl, fun _ _ _ => rfl, fun c hc => Or.inl ⟨c, hc, rfl⟩, fun _ hb => Or.inl hb⟩

theorem Mut.trans {α : Type} {st st1 st2 : State α} {l : Nat} {cs cs1 cs2 : List (Nat × α)}
    (h1 : Mut st st1 l cs cs1) (h2 : Mut st1 st2 l cs1 cs2)
    (hcs : ∀ c ∈ cs, Store.get st.heap c.1 ≠ none)
    (hmid : ∀ c ∈ cs1, (∃ d ∈ cs, d.1 = c.1) ∨ (∃ d ∈ cs2, d.1 = c.1)) :
    Mut st st2 l cs cs2 := by
  have hout : ∀ b, (∀ c ∈ cs, c.1 ≠ b) → (∀ c ∈ cs2, c.1 ≠ b) → ∀ c ∈ cs1, c.1 ≠ b := by
    intro b hb1 hb2 c hc hcb
    rcases hmid c hc with ⟨d, hd, hdc⟩ | ⟨d, hd, hdc⟩
    · exact hb1 d hd (hdc.trans hcb)
    · exact hb2 d hd (hdc.trans hcb)
  refine ⟨?_, ?_, ?_, ?_⟩
  · intro l2 hl
    rw [h2.objs_other l2 hl, h1.objs_other l2 hl]
  · intro b hb1 hb2
    rw [h2.heap_other b (hout b hb1 hb2) hb2, h1.heap_other b hb1 (hout b hb1 hb2)]
  · intro c hc
    rcases h2.fresh_new c hc with ⟨d, hd, hdc⟩ | hfree
    · rcases h1.fresh_new d hd with ⟨e, he, hed⟩ | hfree
      · exact Or.inl ⟨e, he, hed.trans hdc⟩
      · exact Or.inr (by rw [← hdc]; exact hfree)
    · by_cases hin : ∃ d ∈ cs, d.1 = c.1
      · exact Or.inl hin
      · right
        by_cases hin1 : ∃ d ∈ cs1, d.1 = c.1
        · obtain ⟨d, hd, hdc⟩ := hin1
          rcases h1.fresh_new d hd with ⟨e, he, hed⟩ | hfree1
          · exact absurd ⟨e, he, hed.trans hdc⟩ hin
          · rw [← hdc]; exact hfree1
        · rw [← h1.heap_other c.1 (fun d hd hdc => hin ⟨d, hd, hdc⟩)
            (fun d hd hdc => hin1 ⟨d, hd, hdc⟩)]
          exact hfree
  · intro b hb
    rcases h2.heap_dom b hb with hb1 | hin2
    · rcases h1.heap_dom b hb1 with hb0 | ⟨c, hc, hcb⟩
      · exact Or.inl hb0
      · rcases hmid c hc with ⟨d, hd, hdc⟩ | ⟨d, hd, hdc⟩
        · left
          rw [← hcb, ← hdc]
          exact hcs d hd
        · exact Or.inr ⟨d, hd, hdc.trans hcb⟩
    · exact Or.inr hin2

theorem Mut.owns_other {α : Type} {st st2 : State α} {l l2 : Nat}
    {cs cs2 ds : List (Nat × α)} (hm : Mut st st2 l cs cs2) (hl : l2 ≠ l)
    (hown : Owns st l2 ds) (hdisj : ∀ c ∈ cs, ∀ d ∈ ds, c.1 ≠ d.1) : Owns st2 l2 ds := by
  apply Owns_transport hown (hm.objs_other l2 hl)
  intro d hd
  apply hm.heap_other d.1 (fun c hc => hdisj c hc d hd)
  intro c hc hcd
  rcases hm.fresh_new c hc with ⟨e, he, hec⟩ | hfree
  · exact hdisj e he d hd (hec.trans hcd)
  · rw [hcd] at hfree
    exact Owns_mem_get hown hd hfree

theorem swap_spec {α : Type} (st : State α) (l t : Nat) (a b : ListObj)
    (ha : Store.get st.objs l = some a) (hb : Store.get st.objs t = some b) :
    ∃ st2, swap st l t = .ret () st2 ∧ st2.heap = st.heap ∧
      Store.get st2.objs l = some b ∧ Store.get st2.objs t = some a ∧
      ∀ l2, l2 ≠ l → l2 ≠ t → Store.get st2.objs l2 = Store.get st.objs l2 := by
  by_cases hlt : l = t
  · subst hlt
    rw [ha] at hb
    cases hb
    have h : swap st l l = .ret () ⟨st.heap, Store.set st.objs l a⟩ := by
      simp [swap, ha, Store.get_set, Store.set_set]
    refine ⟨_, h, rfl, ?_, ?_, ?_⟩
    · simp [Store.get_set]
    · simp [Store.get_set]
    · intro l2 h1 _
      simp [Store.get_set, Ne.symm h1]
  · have hlt2 : ¬ t = l := fun h => hlt h.symm
    have h : swap st l t = .ret () ⟨st.heap,
        Store.set (Store.set (Store.set (Store.set st.objs l ⟨a.head_next, b.size_⟩) t
          ⟨b.head_next, a.size_⟩) l ⟨b.head_next, b.size_⟩) t ⟨a.head_next, a.size_⟩⟩ := by
      simp [swap, ha, hb, Store.get_set, hlt, hlt2]
    refine ⟨_, h, rfl, ?_, ?_, ?_⟩
    · simp [Store.get_set, hlt, hlt2]
    · simp [Store.get_set, hlt, hlt2]
    · intro l2 h1 h2
      simp [Store.get_set, Ne.symm h1, Ne.symm h2]

theorem ClearLoop_spec {α : Type} (st : State α) (l : Nat) (cs : List (Nat × α))
    (hown : Owns st l cs) (n : Nat) (hn : cs.length ≤ n) :
    ∃ st2, ClearLoop n st l = .ret () st2 ∧ Owns st2 l [] ∧ Mut st st2 l cs [] := by
  induction cs generalizing st n with
  | nil =>
    refine ⟨st, ?_, hown, Mut.refl st l []⟩
    obtain ⟨p, hobj, _, _⟩ := hown
    cases n <;> simp [ClearLoop, IsEmpty, hobj]
  | cons c cs ih =>
    cases n with
    | zero => simp at hn
    | succ k =>
      obtain ⟨st1, hpop, hown1, hmut1⟩ := PopFront_spec st l c cs hown
      obtain ⟨st2, hclr, hown2, hmut2⟩ := ih st1 hown1 k (by simpa using hn)
      refine ⟨st2, ?_, hown2, ?_⟩
      · obtain ⟨p, hobj, _, _⟩ := hown
        simp [ClearLoop, IsEmpty, hobj, hpop, hclr]
      · exact Mut.trans hmut1 hmut2 (fun d hd => Owns_mem_get hown hd)
          (fun d hd => Or.inl ⟨d, List.mem_cons_of_mem _ hd, rfl⟩)

theorem Clear_spec {α : Type} (st : State α) (l : Nat) (cs : List (Nat × α))
    (hown : Owns st l cs) :
    ∃ st2, Clear st l = .ret () st2 ∧ Owns st2 l [] ∧ Mut st st2 l cs [] := by
  obtain ⟨st2, h1, h2, h3⟩ := ClearLoop_spec st l cs hown cs.length le_rfl
  exact ⟨st2, by simp [Clear, GetSize_owns hown, h1], h2, h3⟩

theorem dtor_spec {α : Type} (st : State α) (l : Nat) (cs : List (Nat × α))
    (hown : Owns st l cs) :
    ∃ st2, dtor st l = .ret () st2 ∧ Store.get st2.objs l = none ∧ Mut st st2 l cs [] := by
  obtain ⟨st1, h1, _, h3⟩ := Clear_spec st l cs hown
  refine ⟨⟨st1.heap, Store.del st1.objs l⟩, by simp [dtor, h1], by simp [Store.get_del], ?_⟩
  refine ⟨?_, h3.heap_other, h3.fresh_new, h3.heap_dom⟩
  intro l2 hl
  simp [Store.get_del, Ne.symm hl, h3.objs_other l2 hl]

end SLL

namespace SLL

/-! ## Construction from a sequence -/

theorem posAt_ne_null {α : Type} (l : Nat) (cs : List (Nat × α)) (i : Nat)
    (hi : i ≤ cs.length) : posAt l cs i ≠ .null := by
  cases i with
  | zero => simp [posAt]
  | succ k => rw [posAt_succ l cs k hi]; simp

theorem loadNext_posAt {α : Type} {st : State α} {l : Nat} {cs : List (Nat × α)}
    (hown : Owns st l cs) (i : Nat) (hi : i ≤ cs.length) :
    loadNext st (posAt l cs i) = some (firstPtr (cs.drop i)) := by
  cases i with
  | zero =>
    obtain ⟨p, hobj, hcells, _⟩ := hown
    simp [posAt, loadNext, hobj, Cells_firstPtr hcells]
  | succ k =>
    have hk : k < cs.length := hi
    obtain ⟨p, hobj, hcells, _⟩ := hown
    rw [split_at cs k hk] at hcells
    obtain ⟨nx, _, hget, hpost⟩ := Cells_split hcells
    rw [posAt_succ l cs k hk]
    simp [loadNext, hget, Cells_firstPtr hpost]

theorem InsertAfter_fail {α : Type} (alloc : Allocator α) (st : State α) (l : Nat)
    (cs : List (Nat × α)) (i : Nat) (v : α) (hown : Owns st l cs) (hi : i ≤ cs.length)
    (ha : alloc st.heap = none) :
    InsertAfter alloc st l (posAt l cs i) v = .bad_alloc st := by
  simp [InsertAfter, posAt_ne_null l cs i hi, loadNext_posAt hown i hi, ha]

theorem posAt_last_snoc {α : Type} (l : Nat) (cs : List (Nat × α)) (c : Nat × α) :
    posAt l (cs ++ [c]) (cs ++ [c]).length = .node c.1 := by
  have h : (cs ++ [c]).length = cs.length + 1 := by simp
  rw [h, posAt_succ l (cs ++ [c]) cs.length (by simp)]
  simp

theorem ConstructLoop_spec {α : Type} (alloc : Allocator α) (hok : AllocOk alloc)
    (vs : List α) (st : State α) (t : Nat) (cs : List (Nat × α)) (hown : Owns st t cs)
    (hroom : cs.length + vs.length < SIZE_MOD) :
    (∃ st2 new, ConstructLoop alloc vs st t (posAt t cs cs.length) =
        .ret (posAt t (cs ++ new) (cs ++ new).length) st2 ∧ new.map Prod.snd = vs ∧
        Owns st2 t (cs ++ new) ∧ Mut st st2 t cs (cs ++ new)) ∨
    (∃ st2 new, ConstructLoop alloc vs st t (posAt t cs cs.length) = .bad_alloc st2 ∧
        alloc st2.heap = none ∧ Owns st2 t (cs ++ new) ∧ Mut st st2 t cs (cs ++ new)) := by
  induction vs generalizing st cs with
  | nil =>
    left
    exact ⟨st, [], by simp [ConstructLoop], rfl, by simpa using hown,
      by simpa using Mut.refl st t cs⟩
  | cons v rest ih =>
    cases ha : alloc st.heap with
    | none =>
      right
      refine ⟨st, [], ?_, ha, by simpa using hown, by simpa using Mut.refl st t cs⟩
      simp [ConstructLoop, InsertAfter_fail alloc st t cs cs.length v hown le_rfl ha]
    | some a =>
      have hroom1 : cs.length + 1 < SIZE_MOD := by
        simp only [List.length_cons] at hroom
        omega
      obtain ⟨st1, hins, hown1, hmut1⟩ :=
        InsertAfter_at alloc st t cs cs.length v a hown le_rfl ha (hok _ _ ha) hroom1
      simp only [List.take_length, List.drop_length] at hown1 hmut1
      have hroom2 : (cs ++ [(a, v)]).length + rest.length < SIZE_MOD := by
        simp only [List.length_cons, List.length_append, List.length_nil] at hroom ⊢
        omega
      have hstep : ConstructLoop alloc (v :: rest) st t (posAt t cs cs.length) =
          ConstructLoop alloc rest st1 t (posAt t (cs ++ [(a, v)]) (cs ++ [(a, v)]).length) := by
        rw [posAt_last_snoc]
        simp [ConstructLoop, hins]
      have hmid : ∀ new : List (Nat × α), ∀ c ∈ cs ++ [(a, v)],
          (∃ d ∈ cs, d.1 = c.1) ∨ (∃ d ∈ cs ++ (a, v) :: new, d.1 = c.1) := by
        intro new c hc
        right
        refine ⟨c, ?_, rfl⟩
        rcases List.mem_append.1 hc with hc | hc
        · simp [hc]
        · simp at hc
          simp [hc]
      rcases ih st1 (cs ++ [(a, v)]) hown1 hroom2 with
        ⟨st2, new, hret, hvals, hown2, hmut2⟩ | ⟨st2, new, hret, hnone, hown2, hmut2⟩
      · left
        rw [List.append_assoc] at hret hown2 hmut2
        refine ⟨st2, (a, v) :: new, ?_, by simp [hvals], hown2, ?_⟩
        · rw [hstep]; exact hret
        · exact Mut.trans hmut1 hmut2 (fun d hd => Owns_mem_get hown hd) (hmid new)
      · right
        rw [List.append_assoc] at hown2 hmut2
        refine ⟨st2, (a, v) :: new, ?_, hnone, hown2, ?_⟩
        · rw [hstep]; exact hret
        · exact Mut.trans hmut1 hmut2 (fun d hd => Owns_mem_get hown hd) (hmid new)

theorem Owns_ctor_default {α : Type} (st : State α) (l : Nat) :
    Owns (ctor_default st l) l ([] : List (Nat × α)) :=
  ⟨.null, by simp [ctor_default, Store.get_set], rfl, by simp [SIZE_MOD]⟩

theorem Construct_spec {α : Type} (alloc : Allocator α) (hok : AllocOk alloc)
    (st : State α) (l : Nat) (S : List α) (hS : S.length < SIZE_MOD)
    (hl : Owns st l ([] : List (Nat × α))) :
    (∃ st2 cs, Construct alloc st l S = .ret () st2 ∧ cs.map Prod.snd = S ∧ Owns st2 l cs) ∨
    (∃ st2, Construct alloc st l S = .bad_alloc st2 ∧ ∃ h, alloc h = none) := by
  have hfr : Store.get st.objs (Store.fresh st.objs) = none := Store.get_fresh _
  have hlt : l ≠ Store.fresh st.objs := by
    intro h
    obtain ⟨p, hobj, _, _⟩ := hl
    rw [← h, hobj] at hfr
    cases hfr
  have hroom : ([] : List (Nat × α)).length + S.length < SIZE_MOD := by simpa using hS
  rcases ConstructLoop_spec alloc hok S (ctor_default st (Store.fresh st.objs))
      (Store.fresh st.objs) [] (Owns_ctor_default st _) hroom with
    ⟨st1, new, hret, hvals, hown1, hmut1⟩ | ⟨st1, new, hret, hnone, hown1, hmut1⟩
  · left
    simp only [List.nil_append] at hret hown1 hmut1
    have hl0 : Owns (ctor_default st (Store.fresh st.objs)) l ([] : List (Nat × α)) :=
      Owns_transport hl (by simp [ctor_default, Store.get_set, Ne.symm hlt]) (by simp)
    have hl1 : Owns st1 l ([] : List (Nat × α)) :=
      hmut1.owns_other hlt hl0 (by simp)
    obtain ⟨p, hobjl, _, _⟩ := hl1
    obtain ⟨q, hobjt, hcellst, hltt⟩ := hown1
    obtain ⟨st2, hswap, hheap, hgl, hgt, _⟩ := swap_spec st1 l _ _ _ hobjl hobjt
    have hownt2 : Owns st2 (Store.fresh st.objs) ([] : List (Nat × α)) := by
      have hp : p = .null := by assumption
      subst hp
      exact ⟨.null, hgt, rfl, by simp [SIZE_MOD]⟩
    have hownl2 : Owns st2 l new := ⟨q, hgl, by rw [hheap]; exact hcellst, hltt⟩
    obtain ⟨st3, hd, _, hmut3⟩ := dtor_spec st2 _ [] hownt2
    refine ⟨st3, new, ?_, hvals, hmut3.owns_other hlt hownl2 (by simp)⟩
    have hret2 : ConstructLoop alloc S (ctor_default st (Store.fresh st.objs))
        (Store.fresh st.objs) (.head (Store.fresh st.objs)) = .ret _ st1 := hret
    simp [Construct, before_begin, hret2, ConstructFinish, hswap, hd]
  · right
    obtain ⟨st2, hd, _, _⟩ := dtor_spec st1 _ _ hown1
    refine ⟨st2, ?_, st1.heap, hnone⟩
    have hret2 : ConstructLoop alloc S (ctor_default st (Store.fresh st.objs))
        (Store.fresh st.objs) (.head (Store.fresh st.objs)) = .bad_alloc st1 := hret
    simp [Construct, before_begin, hret2, ConstructFinish, unwind, hd]

end SLL

namespace SLL

/-! ## Concrete allocators -/

theorem bumpAlloc_ok {α : Type} : AllocOk (bumpAlloc : Allocator α) := by
  intro h a ha
  have : Store.fresh h = a := by simpa [bumpAlloc] using ha
  rw [← this]
  exact Store.get_fresh h

theorem bumpAlloc_total {α : Type} : AllocTotal (bumpAlloc : Allocator α) := by
  intro h
  simp [bumpAlloc]

theorem boundedAlloc_ok {α : Type} (cap : Nat) : AllocOk (boundedAlloc cap : Allocator α) := by
  intro h a ha
  unfold boundedAlloc at ha
  split at ha
  · have : Store.fresh h = a := by simpa using ha
    rw [← this]
    exact Store.get_fresh h
  · cases ha

theorem boundedAlloc_inSpace {α : Type} (cap : Nat) (hcap : cap ≤ ADDR_LIMIT) :
    AllocInSpace (boundedAlloc cap : Allocator α) := by
  intro h a ha
  unfold boundedAlloc at ha
  split at ha
  · have : Store.fresh h = a := by simpa using ha
    omega
  · cases ha

/-! ## C1: construction from a sequence -/

theorem ctor_init_spec {α : Type} (alloc : Allocator α) (hok : AllocOk alloc)
    (st : State α) (l : Nat) (S : List α) (hS : S.length < SIZE_MOD) :
    (∃ st2 cs, ctor_init alloc st l S = .ret () st2 ∧ cs.map Prod.snd = S ∧ Owns st2 l cs) ∨
    (∃ st2, ctor_init alloc st l S = .bad_alloc st2 ∧ ∃ h, alloc h = none) := by
  rcases Construct_spec alloc hok (ctor_default st l) l S hS (Owns_ctor_default st l) with
    ⟨st2, cs, hret, hvals, hown⟩ | ⟨st2, hret, hnone⟩
  · exact Or.inl ⟨st2, cs, by simp [ctor_init, hret, ctorExit], hvals, hown⟩
  · exact Or.inr ⟨_, by simp [ctor_init, hret, ctorExit]; rfl, hnone⟩

/-- C1: the list built by the initializer-list constructor from a sequence `S`
(whose length is a `size_t`) iterates from `begin()` to `end()` as exactly `S`,
in order, and `GetSize()` returns the length of `S`.  The only other outcome of
the constructor is a propagated `std::bad_alloc`, which needs an allocation
that fails; with an allocator that never fails the constructor returns. -/
theorem C1_ctor_init_iterates_as_sequence {α : Type} (alloc : Allocator α) (st : State α)
    (l : Nat) (S : List α) (hok : AllocOk alloc) (hS : S.length < SIZE_MOD) :
    ((∃ st2, ctor_init alloc st l S = .ret () st2 ∧
        (∀ fuel, S.length ≤ fuel → elements fuel st2 l = .ret S st2) ∧
        GetSize st2 l = some S.length) ∨
      (∃ st2, ctor_init alloc st l S = .bad_alloc st2 ∧ ∃ h, alloc h = none)) ∧
    (AllocTotal alloc →
      ∃ st2, ctor_init alloc st l S = .ret () st2 ∧
        (∀ fuel, S.length ≤ fuel → elements fuel st2 l = .ret S st2) ∧
        GetSize st2 l = some S.length) := by
  have key : (∃ st2, ctor_init alloc st l S = .ret () st2 ∧
        (∀ fuel, S.length ≤ fuel → elements fuel st2 l = .ret S st2) ∧
        GetSize st2 l = some S.length) ∨
      (∃ st2, ctor_init alloc st l S = .bad_alloc st2 ∧ ∃ h, alloc h = none) := by
    rcases ctor_init_spec alloc hok st l S hS with
      ⟨st2, cs, hret, hvals, hown⟩ | hbad
    · left
      have hlen : cs.length = S.length := by rw [← hvals]; simp
      refine ⟨st2, hret, ?_, by rw [GetSize_owns hown, hlen]⟩
      intro fuel hf
      rw [elements_owns hown fuel (by omega), hvals]
    · exact Or.inr hbad
  refine ⟨key, fun htot => ?_⟩
  rcases key with h | ⟨_, _, h, hnone⟩
  · exact h
  · exact absurd hnone (htot h)

/-- Witness for C1: the sequence `1, 2, 3`, built in the empty state with the
bump allocator. -/
theorem C1_ctor_init_iterates_as_sequence_witness :
    AllocOk (bumpAlloc : Allocator Nat) ∧ [1, 2, 3].length < SIZE_MOD ∧
    ∃ st2, ctor_init bumpAlloc (⟨[], []⟩ : State Nat) 0 [1, 2, 3] = .ret () st2 ∧
      elements 3 st2 0 = .ret [1, 2, 3] st2 ∧ GetSize st2 0 = some 3 := by
  refine ⟨bumpAlloc_ok, by decide, ?_⟩
  obtain ⟨st2, h1, h2, h3⟩ :=
    (C1_ctor_init_iterates_as_sequence bumpAlloc (⟨[], []⟩ : State Nat) 0 [1, 2, 3]
      bumpAlloc_ok (by decide)).2 bumpAlloc_total
  exact ⟨st2, h1, h2 3 (by decide), h3⟩

end SLL

namespace SLL

/-! ## Preservation of the global invariant -/

theorem room_of_inSpace {α : Type} {h : Store (Node α)} {p : NodePtr} {cs : List (Nat × α)}
    (hsp : InSpace h) (hcells : Cells h p cs) (a : Nat) (hfree : Store.get h a = none)
    (ha : a < ADDR_LIMIT) : cs.length + 1 < SIZE_MOD := by
  have hnd : (a :: cs.map Prod.fst).Nodup := by
    rw [List.nodup_cons]
    refine ⟨?_, Cells_nodup hcells⟩
    intro hmem
    obtain ⟨c, hc, hca⟩ := List.mem_map.1 hmem
    obtain ⟨nx, hget⟩ := Cells_mem_get hcells hc
    rw [hca, hfree] at hget
    cases hget
  have hsub : (a :: cs.map Prod.fst).toFinset ⊆ Finset.range ADDR_LIMIT := by
    intro b hb
    rw [List.mem_toFinset, List.mem_cons] at hb
    rw [Finset.mem_range]
    rcases hb with rfl | hb
    · exact ha
    · obtain ⟨c, hc, hcb⟩ := List.mem_map.1 hb
      obtain ⟨nx, hget⟩ := Cells_mem_get hcells hc
      rw [← hcb]
      exact hsp _ _ hget
  have hcard := Finset.card_le_card hsub
  rw [List.toFinset_card_of_nodup hnd, Finset.card_range] at hcard
  simp only [List.length_cons, List.length_map] at hcard
  unfold ADDR_LIMIT at hcard
  unfold SIZE_MOD
  omega

theorem WF.step {α : Type} {st st2 : State α} {l : Nat} {cs2 : List (Nat × α)}
    (hwf : WF st) (hown2 : Owns st2 l cs2)
    (hobjs : ∀ l2, l2 ≠ l → Store.get st2.objs l2 = Store.get st.objs l2)
    (hkept : ∀ l2 ds, l2 ≠ l → Owns st l2 ds →
      ∀ d ∈ ds, Store.get st2.heap d.1 = Store.get st.heap d.1)
    (hdisj : ∀ l2 ds, l2 ≠ l → Owns st l2 ds → ∀ c ∈ cs2, ∀ d ∈ ds, c.1 ≠ d.1)
    (hsp : InSpace st2.heap) : WF st2 := by
  obtain ⟨_, hlive, hsep⟩ := hwf
  have hold : ∀ l2 ds, l2 ≠ l → Owns st2 l2 ds → Owns st l2 ds := by
    intro l2 ds hl hown
    obtain ⟨p, hobj, _, _⟩ := id hown
    rw [hobjs l2 hl] at hobj
    obtain ⟨es, hes⟩ := hlive l2 _ hobj
    have hes2 : Owns st2 l2 es := Owns_transport hes (hobjs l2 hl) (hkept l2 es hl hes)
    rw [Owns_functional hown hes2]
    exact hes
  refine ⟨hsp, ?_, ?_⟩
  · intro l2 o ho
    by_cases hl : l2 = l
    · subst hl
      exact ⟨cs2, hown2⟩
    · rw [hobjs l2 hl] at ho
      obtain ⟨ds, hds⟩ := hlive l2 o ho
      exact ⟨ds, Owns_transport hds (hobjs l2 hl) (hkept l2 ds hl hds)⟩
  · intro l1 l2 cs1 ds hne h1 h2 c hc d hd
    by_cases hl1 : l1 = l
    · subst hl1
      rw [Owns_functional h1 hown2] at hc
      exact hdisj l2 ds (Ne.symm hne) (hold l2 ds (Ne.symm hne) h2) c hc d hd
    · by_cases hl2 : l2 = l
      · subst hl2
        rw [Owns_functional h2 hown2] at hd
        exact Ne.symm (hdisj l1 cs1 hl1 (hold l1 cs1 hl1 h1) d hd c hc)
      · exact hsep l1 l2 cs1 ds hne (hold l1 cs1 hl1 h1) (hold l2 ds hl2 h2) c hc d hd

theorem Mut.keeps_wf {α : Type} {st st2 : State α} {l : Nat} {cs cs2 : List (Nat × α)}
    (hm : Mut st st2 l cs cs2) (hwf : WF st) (hown : Owns st l cs) (hown2 : Owns st2 l cs2)
    (hnew : ∀ c ∈ cs2, c.1 < ADDR_LIMIT) : WF st2 := by
  have hdisj : ∀ l2 ds, l2 ≠ l → Owns st l2 ds → ∀ c ∈ cs2, ∀ d ∈ ds, c.1 ≠ d.1 := by
    intro l2 ds hl hds c hc d hd hcd
    rcases hm.fresh_new c hc with ⟨e, he, hec⟩ | hfree
    · exact hwf.2.2 l l2 cs ds (Ne.symm hl) hown hds e he d hd (hec.trans hcd)
    · rw [hcd] at hfree
      exact Owns_mem_get hds hd hfree
  refine WF.step hwf hown2 hm.objs_other ?_ hdisj ?_
  · intro l2 ds hl hds d hd
    apply hm.heap_other d.1
    · intro c hc
      exact hwf.2.2 l l2 cs ds (Ne.symm hl) hown hds c hc d hd
    · intro c hc
      exact hdisj l2 ds hl hds c hc d hd
  · intro b n hb
    rcases hm.heap_dom b (by rw [hb]; simp) with hb0 | ⟨c, hc, hcb⟩
    · cases hn : Store.get st.heap b with
      | none => exact absurd hn hb0
      | some m => exact hwf.1 b m hn
    · rw [← hcb]
      exact hnew c hc

theorem WF.rename {α : Type} {st st2 : State α} (hwf : WF st) (f : Nat → Nat)
    (hf : Function.Injective f) (hheap : st2.heap = st.heap)
    (hobjs : ∀ x, Store.get st2.objs x = Store.get st.objs (f x)) : WF st2 := by
  have hto : ∀ x cs, Owns st2 x cs → Owns st (f x) cs := by
    intro x cs h
    exact Owns_transport h (hobjs x).symm (fun c _ => by rw [hheap])
  have hfrom : ∀ x cs, Owns st (f x) cs → Owns st2 x cs := by
    intro x cs h
    exact Owns_transport h (hobjs x) (fun c _ => by rw [hheap])
  refine ⟨by rw [hheap]; exact hwf.1, ?_, ?_⟩
  · intro x o ho
    rw [hobjs x] at ho
    obtain ⟨cs, hcs⟩ := hwf.2.1 (f x) o ho
    exact ⟨cs, hfrom x cs hcs⟩
  · intro l1 l2 cs1 cs2 hne h1 h2
    exact hwf.2.2 (f l1) (f l2) cs1 cs2 (fun h => hne (hf h)) (hto l1 cs1 h1) (hto l2 cs2 h2)

theorem WF.remove {α : Type} {st : State α} (hwf : WF st) (l : Nat) :
    WF (⟨st.heap, Store.del st.objs l⟩ : State α) := by
  have hto : ∀ x cs, Owns (⟨st.heap, Store.del st.objs l⟩ : State α) x cs → Owns st x cs := by
    intro x cs h
    obtain ⟨p, hobj, hcells, hlt⟩ := h
    by_cases hx : l = x
    · simp [Store.get_del, hx] at hobj
    · exact ⟨p, by simpa [Store.get_del, hx] using hobj, hcells, hlt⟩
  refine ⟨hwf.1, ?_, ?_⟩
  · intro x o ho
    by_cases hx : l = x
    · simp [Store.get_del, hx] at ho
    · have ho2 : Store.get st.objs x = some o := by simpa [Store.get_del, hx] using ho
      obtain ⟨cs, hcs⟩ := hwf.2.1 x o ho2
      exact ⟨cs, Owns_transport hcs (by simp [Store.get_del, hx]) (fun _ _ => rfl)⟩
  · intro l1 l2 cs1 cs2 hne h1 h2
    exact hwf.2.2 l1 l2 cs1 cs2 hne (hto l1 cs1 h1) (hto l2 cs2 h2)

theorem WF_empty {α : Type} : WF (⟨[], []⟩ : State α) := by
  refine ⟨?_, ?_, ?_⟩
  · intro a n h
    simp [Store.get] at h
  · intro l o h
    simp [Store.get] at h
  · intro l1 l2 cs1 cs2 _ h1
    obtain ⟨p, hobj, _, _⟩ := h1
    simp [Store.get] at hobj

theorem ctor_default_wf {α : Type} {st : State α} (hwf : WF st) (l : Nat) :
    WF (ctor_default st l) := by
  refine WF.step hwf (Owns_ctor_default st l) ?_ ?_ ?_ hwf.1
  · intro l2 hl
    simp [ctor_default, Store.get_set, Ne.symm hl]
  · intro l2 ds _ _ d _
    rfl
  · intro l2 ds _ _ c hc
    cases hc

end SLL

namespace SLL

/-! ## Every public operation preserves the global invariant -/

theorem WF.cells_inSpace {α : Type} {st : State α} (hwf : WF st) {l : Nat}
    {cs : List (Nat × α)} (hown : Owns st l cs) : ∀ c ∈ cs, c.1 < ADDR_LIMIT := by
  intro c hc
  obtain ⟨p, _, hcells, _⟩ := hown
  obtain ⟨nx, hget⟩ := Cells_mem_get hcells hc
  exact hwf.1 _ _ hget

theorem WF.room {α : Type} {st : State α} (hwf : WF st) {l : Nat} {cs : List (Nat × α)}
    (hown : Owns st l cs) {alloc : Allocator α} (hok : AllocOk alloc)
    (hsp : AllocInSpace alloc) {a : Nat} (ha : alloc st.heap = some a) :
    cs.length + 1 < SIZE_MOD := by
  obtain ⟨p, _, hcells, _⟩ := hown
  exact room_of_inSpace hwf.1 hcells a (hok _ _ ha) (hsp _ _ ha)

theorem OwnPos_of_mem {α : Type} {st : State α} {l : Nat} {cs : List (Nat × α)}
    (hown : Owns st l cs) {c : Nat × α} (hc : c ∈ cs) : OwnPos st l (.node c.1) := by
  obtain ⟨k, hk, hck⟩ := List.getElem_of_mem hc
  refine ⟨cs, k + 1, hown, hk, ?_⟩
  rw [posAt_succ l cs k hk, hck]

theorem final_ret {α ρ : Type} {o : Outcome α ρ} {r : ρ} {st1 st2 : State α}
    (ho : o = .ret r st1) (hf : o.final = some st2) : st2 = st1 := by
  subst ho
  simpa [Outcome.final] using hf.symm

theorem PushFront_wf {α : Type} {alloc : Allocator α} (hok : AllocOk alloc)
    (hsp : AllocInSpace alloc) {st st2 : State α} (hwf : WF st) (l : Nat) (v : α)
    (hf : (PushFront alloc st l v).final = some st2) : WF st2 := by
  cases hobj : Store.get st.objs l with
  | none => simp [PushFront, hobj, Outcome.final] at hf
  | some o =>
    obtain ⟨cs, hown⟩ := hwf.2.1 l o hobj
    cases ha : alloc st.heap with
    | none =>
      simp [PushFront, hobj, ha, Outcome.final] at hf
      rw [← hf]; exact hwf
    | some a =>
      obtain ⟨st1, hret, hown1, hmut⟩ :=
        PushFront_spec alloc st l cs v a hown ha (hok _ _ ha) (hwf.room hown hok hsp ha)
      rw [final_ret hret hf]
      refine hmut.keeps_wf hwf hown hown1 ?_
      intro c hc
      rcases List.mem_cons.1 hc with rfl | hc
      · exact hsp _ _ ha
      · exact hwf.cells_inSpace hown c hc

theorem InsertAfter_ret_wf {α : Type} {alloc : Allocator α} (hok : AllocOk alloc)
    (hsp : AllocInSpace alloc) {st st2 : State α} (hwf : WF st) {l : Nat} {pos : NodePtr}
    (hpos : OwnPos st l pos) (v : α) {r : NodePtr}
    (hf : InsertAfter alloc st l pos v = .ret r st2) : WF st2 ∧ OwnPos st2 l r := by
  obtain ⟨cs, i, hown, hi, rfl⟩ := hpos
  cases ha : alloc st.heap with
  | none =>
    rw [InsertAfter_fail alloc st l cs i v hown hi ha] at hf
    cases hf
  | some a =>
    obtain ⟨st1, hret, hown1, hmut⟩ :=
      InsertAfter_at alloc st l cs i v a hown hi ha (hok _ _ ha) (hwf.room hown hok hsp ha)
    rw [hret] at hf
    injection hf with hr hst
    subst hr hst
    refine ⟨hmut.keeps_wf hwf hown hown1 ?_, OwnPos_of_mem hown1 (c := (a, v)) (by simp)⟩
    intro c hc
    rcases List.mem_append.1 hc with hc | hc
    · exact hwf.cells_inSpace hown c (List.mem_of_mem_take hc)
    · rcases List.mem_cons.1 hc with rfl | hc
      · exact hsp _ _ ha
      · exact hwf.cells_inSpace hown c (List.mem_of_mem_drop hc)

theorem InsertAfter_throw {α : Type} {alloc : Allocator α} {st st2 : State α} {l : Nat}
    {pos : NodePtr} {v : α} (hf : InsertAfter alloc st l pos v = .bad_alloc st2) :
    st2 = st := by
  unfold InsertAfter at hf
  split at hf
  · cases hf
  · split at hf
    · cases hf
    · split at hf
      · injection hf with h; exact h.symm
      · split at hf
        · cases hf
        · split at hf
          · cases hf
          · split at hf <;> cases hf

theorem InsertAfter_wf {α : Type} {alloc : Allocator α} (hok : AllocOk alloc)
    (hsp : AllocInSpace alloc) {st st2 : State α} (hwf : WF st) {l : Nat} {pos : NodePtr}
    (hpos : OwnPos st l pos) (v : α)
    (hf : (InsertAfter alloc st l pos v).final = some st2) : WF st2 := by
  cases ho : InsertAfter alloc st l pos v with
  | ret r s =>
    rw [ho] at hf
    have : s = st2 := by simpa [Outcome.final] using hf
    subst this
    exact (InsertAfter_ret_wf hok hsp hwf hpos v ho).1
  | bad_alloc s =>
    rw [ho] at hf
    have : s = st2 := by simpa [Outcome.final] using hf
    subst this
    rw [InsertAfter_throw ho]; exact hwf
  | assert_fail => rw [ho] at hf; cases hf
  | undefined => rw [ho] at hf; cases hf
  | out_of_fuel => rw [ho] at hf; cases hf

theorem PopFront_wf {α : Type} {st st2 : State α} (hwf : WF st) (l : Nat)
    (hf : (PopFront st l).final = some st2) : WF st2 := by
  cases hobj : Store.get st.objs l with
  | none => simp [PopFront, hobj, Outcome.final] at hf
  | some o =>
    obtain ⟨cs, hown⟩ := hwf.2.1 l o hobj
    cases cs with
    | nil =>
      obtain ⟨p, hobj2, _, _⟩ := hown
      simp [PopFront, hobj2, Outcome.final] at hf
    | cons c cs =>
      obtain ⟨st1, hret, hown1, hmut⟩ := PopFront_spec st l c cs hown
      rw [final_ret hret hf]
      exact hmut.keeps_wf hwf hown hown1
        (fun d hd => hwf.cells_inSpace hown d (List.mem_cons_of_mem _ hd))

theorem EraseAfter_last {α : Type} {st : State α} {l : Nat} {cs : List (Nat × α)}
    (hown : Owns st l cs) : EraseAfter st l (posAt l cs cs.length) = .assert_fail := by
  simp [EraseAfter, posAt_ne_null l cs cs.length le_rfl, loadNext_posAt hown cs.length le_rfl,
    firstPtr]

theorem EraseAfter_wf {α : Type} {st st2 : State α} (hwf : WF st) {l : Nat} {pos : NodePtr}
    (hpos : OwnPos st l pos) (hf : (EraseAfter st l pos).final = some st2) : WF st2 := by
  obtain ⟨cs, i, hown, hi, rfl⟩ := hpos
  rcases Nat.lt_or_ge i cs.length with hlt | hge
  · obtain ⟨st1, hret, hown1, hmut⟩ := EraseAfter_at st l cs i hown hlt
    rw [final_ret hret hf]
    refine hmut.keeps_wf hwf hown hown1 ?_
    intro c hc
    rcases List.mem_append.1 hc with hc | hc
    · exact hwf.cells_inSpace hown c (List.mem_of_mem_take hc)
    · exact hwf.cells_inSpace hown c (List.mem_of_mem_drop hc)
  · have hil : i = cs.length := le_antisymm hi hge
    subst hil
    rw [EraseAfter_last hown] at hf
    cases hf

theorem Clear_wf {α : Type} {st st2 : State α} (hwf : WF st) (l : Nat)
    (hf : (Clear st l).final = some st2) : WF st2 ∧ Owns st2 l ([] : List (Nat × α)) := by
  cases hobj : Store.get st.objs l with
  | none => simp [Clear, GetSize, hobj, Outcome.final] at hf
  | some o =>
    obtain ⟨cs, hown⟩ := hwf.2.1 l o hobj
    obtain ⟨st1, hret, hown1, hmut⟩ := Clear_spec st l cs hown
    rw [final_ret hret hf]
    exact ⟨hmut.keeps_wf hwf hown hown1 (fun c hc => by cases hc), hown1⟩

theorem dtor_wf {α : Type} {st st2 : State α} (hwf : WF st) (l : Nat)
    (hf : (dtor st l).final = some st2) : WF st2 := by
  cases ho : Clear st l with
  | ret r s =>
    have hs := (Clear_wf hwf l (by rw [ho]; rfl)).1
    simp [dtor, ho, Outcome.final] at hf
    rw [← hf]
    exact hs.remove l
  | bad_alloc s =>
    obtain ⟨hs, _⟩ := Clear_wf hwf l (by rw [ho]; rfl)
    simp [dtor, ho, Outcome.final] at hf
    rw [← hf]; exact hs
  | assert_fail => simp [dtor, ho, Outcome.final] at hf
  | undefined => simp [dtor, ho, Outcome.final] at hf
  | out_of_fuel => simp [dtor, ho, Outcome.final] at hf

theorem swap_wf {α : Type} {st st2 : State α} (hwf : WF st) (l t : Nat)
    (hf : (swap st l t).final = some st2) : WF st2 := by
  cases ha : Store.get st.objs l with
  | none => simp [swap, ha, Outcome.final] at hf
  | some a =>
    cases hb : Store.get st.objs t with
    | none => simp [swap, ha, hb, Outcome.final] at hf
    | some b =>
      obtain ⟨st1, hret, hheap, hgl, hgt, hother⟩ := swap_spec st l t a b ha hb
      rw [final_ret hret hf]
      refine hwf.rename (Equiv.swap l t) (Equiv.swap l t).injective hheap ?_
      intro x
      by_cases hxl : x = l
      · subst hxl
        rw [Equiv.swap_apply_left, hgl, hb]
      · by_cases hxt : x = t
        · subst hxt
          rw [Equiv.swap_apply_right, hgt, ha]
        · rw [Equiv.swap_apply_of_ne_of_ne hxl hxt]
          exact hother x hxl hxt

end SLL

namespace SLL

/-! ## Constructors, copy assignment and reachable states -/

theorem final_cases {α ρ : Type} {o : Outcome α ρ} {st2 : State α}
    (hf : o.final = some st2) : (∃ r, o = .ret r st2) ∨ o = .bad_alloc st2 := by
  cases o with
  | ret r s =>
    have : s = st2 := by simpa [Outcome.final] using hf
    subst this
    exact Or.inl ⟨r, rfl⟩
  | bad_alloc s =>
    have : s = st2 := by simpa [Outcome.final] using hf
    subst this
    exact Or.inr rfl
  | assert_fail => cases hf
  | undefined => cases hf
  | out_of_fuel => cases hf

theorem ConstructLoop_wf {α : Type} {alloc : Allocator α} (hok : AllocOk alloc)
    (hsp : AllocInSpace alloc) (t : Nat) (vs : List α) (st : State α) (it : NodePtr)
    (hwf : WF st) (hpos : OwnPos st t it) (st2 : State α)
    (hf : (ConstructLoop alloc vs st t it).final = some st2) : WF st2 := by
  induction vs generalizing st it with
  | nil =>
    have : st = st2 := by simpa [ConstructLoop, Outcome.final] using hf
    rw [← this]; exact hwf
  | cons v rest ih =>
    cases ho : InsertAfter alloc st t it v with
    | ret r s =>
      obtain ⟨hs, hposs⟩ := InsertAfter_ret_wf hok hsp hwf hpos v ho
      simp only [ConstructLoop, ho] at hf
      exact ih s r hs hposs hf
    | bad_alloc s =>
      simp only [ConstructLoop, ho, Outcome.final] at hf
      injection hf with hf
      rw [← hf, InsertAfter_throw ho]; exact hwf
    | assert_fail => simp [ConstructLoop, ho, Outcome.final] at hf
    | undefined => simp [ConstructLoop, ho, Outcome.final] at hf
    | out_of_fuel => simp [ConstructLoop, ho, Outcome.final] at hf

theorem Iterator_deref_state {α : Type} {st s : State α} {it : NodePtr} {v : α}
    (h : Iterator_deref st it = .ret v s) : s = st := by
  unfold Iterator_deref at h
  split at h
  · cases h
  · split at h
    · cases h
    · injection h with _ h2; exact h2.symm

theorem Iterator_deref_no_throw {α : Type} {st s : State α} {it : NodePtr}
    (h : Iterator_deref st it = .bad_alloc s) : False := by
  unfold Iterator_deref at h
  split at h
  · cases h
  · split at h <;> cases h

theorem Iterator_incr_no_throw {α : Type} {st s : State α} {it : NodePtr}
    (h : Iterator_incr st it = .bad_alloc s) : False := by
  unfold Iterator_incr at h
  split at h
  · cases h
  · split at h <;> cases h

theorem ConstructFromLoop_wf {α : Type} {alloc : Allocator α} (hok : AllocOk alloc)
    (hsp : AllocInSpace alloc) (t : Nat) (fuel : Nat) (st : State α) (it jt : NodePtr)
    (hwf : WF st) (hpos : OwnPos st t it) (st2 : State α)
    (hf : (ConstructFromLoop alloc fuel st t it jt).final = some st2) : WF st2 := by
  induction fuel generalizing st it jt with
  | zero =>
    unfold ConstructFromLoop at hf
    split at hf
    · have : st = st2 := by simpa [Outcome.final] using hf
      rw [← this]; exact hwf
    · cases hf
  | succ f ih =>
    unfold ConstructFromLoop at hf
    split at hf
    · have : st = st2 := by simpa [Outcome.final] using hf
      rw [← this]; exact hwf
    · cases hd : Iterator_deref st jt with
      | ret val s0 =>
        cases ho : InsertAfter alloc st t it val with
        | ret r s =>
          obtain ⟨hs, hposs⟩ := InsertAfter_ret_wf hok hsp hwf hpos val ho
          cases hi : Iterator_incr s jt with
          | ret jt1 s1 =>
            simp only [hd, ho, hi] at hf
            exact ih s r jt1 hs hposs hf
          | bad_alloc s1 => exact absurd hi (fun h => Iterator_incr_no_throw h)
          | assert_fail => simp [hd, ho, hi, Outcome.final] at hf
          | undefined => simp [hd, ho, hi, Outcome.final] at hf
          | out_of_fuel => simp [hd, ho, hi, Outcome.final] at hf
        | bad_alloc s =>
          simp only [hd, ho, Outcome.final] at hf
          injection hf with hf
          rw [← hf, InsertAfter_throw ho]; exact hwf
        | assert_fail => simp [hd, ho, Outcome.final] at hf
        | undefined => simp [hd, ho, Outcome.final] at hf
        | out_of_fuel => simp [hd, ho, Outcome.final] at hf
      | bad_alloc s => exact absurd hd (fun h => Iterator_deref_no_throw h)
      | assert_fail => simp [hd, Outcome.final] at hf
      | undefined => simp [hd, Outcome.final] at hf
      | out_of_fuel => simp [hd, Outcome.final] at hf

theorem ConstructFinish_wf {α : Type} (l t : Nat) (o : Outcome α NodePtr)
    (ho : ∀ s, o.final = some s → WF s) (st2 : State α)
    (hf : (ConstructFinish l t o).final = some st2) : WF st2 := by
  cases o with
  | ret r s =>
    have hs : WF s := ho s rfl
    cases hsw : swap s l t with
    | ret r1 s1 =>
      have hs1 : WF s1 := swap_wf hs l t (by rw [hsw]; rfl)
      simp only [ConstructFinish, hsw] at hf
      exact dtor_wf hs1 t hf
    | bad_alloc s1 =>
      have hs1 : WF s1 := swap_wf hs l t (by rw [hsw]; rfl)
      simp only [ConstructFinish, hsw, Outcome.final] at hf
      injection hf with hf
      rw [← hf]; exact hs1
    | assert_fail => simp [ConstructFinish, hsw, Outcome.final] at hf
    | undefined => simp [ConstructFinish, hsw, Outcome.final] at hf
    | out_of_fuel => simp [ConstructFinish, hsw, Outcome.final] at hf
  | bad_alloc s =>
    have hs : WF s := ho s rfl
    cases hd : dtor s t with
    | ret r1 s1 =>
      have hs1 : WF s1 := dtor_wf hs t (by rw [hd]; rfl)
      simp only [ConstructFinish, unwind, hd, Outcome.final] at hf
      injection hf with hf
      rw [← hf]; exact hs1
    | bad_alloc s1 =>
      have hs1 : WF s1 := dtor_wf hs t (by rw [hd]; rfl)
      simp only [ConstructFinish, unwind, hd, Outcome.final] at hf
      injection hf with hf
      rw [← hf]; exact hs1
    | assert_fail => simp [ConstructFinish, unwind, hd, Outcome.final] at hf
    | undefined => simp [ConstructFinish, unwind, hd, Outcome.final] at hf
    | out_of_fuel => simp [ConstructFinish, unwind, hd, Outcome.final] at hf
  | assert_fail => cases hf
  | undefined => cases hf
  | out_of_fuel => cases hf

theorem OwnPos_before_begin {α : Type} (st : State α) (t : Nat) :
    OwnPos (ctor_default st t) t (before_begin t) :=
  ⟨[], 0, Owns_ctor_default st t, le_rfl, rfl⟩

theorem Construct_wf {α : Type} {alloc : Allocator α} (hok : AllocOk alloc)
    (hsp : AllocInSpace alloc) {st st2 : State α} (hwf : WF st) (l : Nat) (vs : List α)
    (hf : (Construct alloc st l vs).final = some st2) : WF st2 := by
  refine ConstructFinish_wf l _ _ ?_ st2 hf
  intro s hs
  exact ConstructLoop_wf hok hsp _ vs _ _ (ctor_default_wf hwf _) (OwnPos_before_begin st _) s hs

theorem ConstructFrom_wf {α : Type} {alloc : Allocator α} (hok : AllocOk alloc)
    (hsp : AllocInSpace alloc) {st st2 : State α} (hwf : WF st) (fuel l other : Nat)
    (hf : (ConstructFrom alloc fuel st l other).final = some st2) : WF st2 := by
  unfold ConstructFrom at hf
  simp only at hf
  split at hf
  · cases hf
  · refine ConstructFinish_wf l _ _ ?_ st2 hf
    intro s hs
    exact ConstructFromLoop_wf hok hsp _ fuel _ _ _ (ctor_default_wf hwf _)
      (OwnPos_before_begin st _) s hs

theorem ctorExit_wf {α : Type} (l : Nat) (o : Outcome α Unit)
    (ho : ∀ s, o.final = some s → WF s) (st2 : State α)
    (hf : (ctorExit l o).final = some st2) : WF st2 := by
  cases o with
  | ret r s => exact ho st2 hf
  | bad_alloc s =>
    have hs : WF s := ho s rfl
    simp only [ctorExit, Outcome.final] at hf
    injection hf with hf
    rw [← hf]; exact hs.remove l
  | assert_fail => cases hf
  | undefined => cases hf
  | out_of_fuel => cases hf

theorem ctor_init_wf {α : Type} {alloc : Allocator α} (hok : AllocOk alloc)
    (hsp : AllocInSpace alloc) {st st2 : State α} (hwf : WF st) (l : Nat) (vs : List α)
    (hf : (ctor_init alloc st l vs).final = some st2) : WF st2 :=
  ctorExit_wf l _ (fun _ hs => Construct_wf hok hsp (ctor_default_wf hwf l) l vs hs) st2 hf

theorem ctor_copy_wf {α : Type} {alloc : Allocator α} (hok : AllocOk alloc)
    (hsp : AllocInSpace alloc) {st st2 : State α} (hwf : WF st) (fuel l other : Nat)
    (hf : (ctor_copy alloc fuel st l other).final = some st2) : WF st2 :=
  ctorExit_wf l _
    (fun _ hs => ConstructFrom_wf hok hsp (ctor_default_wf hwf l) fuel l other hs) st2 hf

theorem operator_assign_wf {α : Type} {alloc : Allocator α} (hok : AllocOk alloc)
    (hsp : AllocInSpace alloc) {st st2 : State α} (hwf : WF st) (fuel l rhs : Nat)
    (hf : (operator_assign alloc fuel st l rhs).final = some st2) : WF st2 := by
  unfold operator_assign at hf
  simp only at hf
  cases hc : ctor_copy alloc fuel st (Store.fresh st.objs) rhs with
  | ret r s =>
    have hs : WF s := ctor_copy_wf hok hsp hwf fuel _ rhs (by rw [hc]; rfl)
    cases hsw : swap s l (Store.fresh st.objs) with
    | ret r1 s1 =>
      have hs1 : WF s1 := swap_wf hs l _ (by rw [hsw]; rfl)
      simp only [hc, hsw] at hf
      exact dtor_wf hs1 _ hf
    | bad_alloc s1 =>
      have hs1 : WF s1 := swap_wf hs l _ (by rw [hsw]; rfl)
      simp only [hc, hsw, Outcome.final] at hf
      injection hf with hf
      rw [← hf]; exact hs1
    | assert_fail => simp [hc, hsw, Outcome.final] at hf
    | undefined => simp [hc, hsw, Outcome.final] at hf
    | out_of_fuel => simp [hc, hsw, Outcome.final] at hf
  | bad_alloc s =>
    have hs : WF s := ctor_copy_wf hok hsp hwf fuel _ rhs (by rw [hc]; rfl)
    simp only [hc, Outcome.final] at hf
    injection hf with hf
    rw [← hf]; exact hs
  | assert_fail => simp [hc, Outcome.final] at hf
  | undefined => simp [hc, Outcome.final] at hf
  | out_of_fuel => simp [hc, Outcome.final] at hf

theorem Step.preserves_wf {α : Type} {alloc : Allocator α} (hok : AllocOk alloc)
    (hsp : AllocInSpace alloc) {st st2 : State α} (hstep : Step alloc st st2) (hwf : WF st) :
    WF st2 := by
  cases hstep with
  | ctor_default l => exact ctor_default_wf hwf l
  | ctor_init _ l vs hf => exact ctor_init_wf hok hsp hwf l vs hf
  | ctor_copy _ fuel l other hf => exact ctor_copy_wf hok hsp hwf fuel l other hf
  | assign _ fuel l rhs hf => exact operator_assign_wf hok hsp hwf fuel l rhs hf
  | dtor _ l hf => exact dtor_wf hwf l hf
  | swap _ l other hf => exact swap_wf hwf l other hf
  | PushFront _ l v hf => exact PushFront_wf hok hsp hwf l v hf
  | InsertAfter _ l pos v hpos hf => exact InsertAfter_wf hok hsp hwf hpos v hf
  | PopFront _ l hf => exact PopFront_wf hwf l hf
  | EraseAfter _ l pos hpos hf => exact EraseAfter_wf hwf hpos hf
  | Clear _ l hf => exact (Clear_wf hwf l hf).1

theorem Reachable.all_wf {α : Type} {alloc : Allocator α} (hok : AllocOk alloc)
    (hsp : AllocInSpace alloc) {st : State α} (hr : Reachable alloc st) : WF st := by
  induction hr with
  | init => exact WF_empty
  | step st st2 _ hstep ih => exact hstep.preserves_wf hok hsp ih

end SLL

namespace SLL

/-! ## C2: the size invariant -/

/-- C2 (size invariant): in every state reachable from the empty program state
by constructors, `PushFront`, `InsertAfter`, `PopFront`, `EraseAfter`, `Clear`,
`swap`, copy assignment and destructors, with the positions handed to
`InsertAfter` and `EraseAfter` referencing the sentinel or a node of the list
itself, every live list object `l` satisfies: the chain from `head_.next_node`
visits pairwise distinct nodes `cs` (no cycle) and reaches null after exactly
`size_` steps, so `GetSize()` is the number of nodes reachable from the
sentinel and iterating from `begin()` to `end()` visits exactly these
nodes. -/
theorem C2_size_invariant_reachable {α : Type} (alloc : Allocator α) (hok : AllocOk alloc)
    (hsp : AllocInSpace alloc) (st : State α) (hreach : Reachable alloc st) (l : Nat)
    (o : ListObj) (hlive : Store.get st.objs l = some o) :
    ∃ cs : List (Nat × α), Cells st.heap o.head_next cs ∧ (cs.map Prod.fst).Nodup ∧
      o.size_ = cs.length ∧ GetSize st l = some cs.length ∧
      ∀ fuel, cs.length ≤ fuel → elements fuel st l = .ret (cs.map Prod.snd) st := by
  obtain ⟨cs, hown⟩ := (hreach.all_wf hok hsp).2.1 l o hlive
  have hown2 := hown
  obtain ⟨p, hobj, hcells, _⟩ := hown
  rw [hlive] at hobj
  injection hobj with hobj
  subst hobj
  exact ⟨cs, hcells, Cells_nodup hcells, rfl, GetSize_owns hown2,
    fun fuel hf => elements_owns hown2 fuel hf⟩

/-- Witness for C2: the state after constructing the list `1, 2, 3` and one
`PopFront`, with an allocator for eight node slots. -/
theorem C2_size_invariant_reachable_witness :
    AllocOk (boundedAlloc 8 : Allocator Nat) ∧ AllocInSpace (boundedAlloc 8 : Allocator Nat) ∧
    Reachable (boundedAlloc 8)
      (⟨[(1, ⟨2, .node 2⟩), (2, ⟨3, .null⟩)], [(0, ⟨.node 1, 2⟩)]⟩ : State Nat) ∧
    ∃ cs : List (Nat × Nat),
      Cells [(1, (⟨2, .node 2⟩ : Node Nat)), (2, ⟨3, .null⟩)] (.node 1) cs ∧
      (cs.map Prod.fst).Nodup ∧ 2 = cs.length := by
  have hsp : AllocInSpace (boundedAlloc 8 : Allocator Nat) :=
    boundedAlloc_inSpace 8 (by decide)
  have hreach : Reachable (boundedAlloc 8)
      (⟨[(1, ⟨2, .node 2⟩), (2, ⟨3, .null⟩)], [(0, ⟨.node 1, 2⟩)]⟩ : State Nat) := by
    refine Reachable.step
      (⟨[(1, ⟨2, .node 2⟩), (2, ⟨3, .null⟩), (0, ⟨1, .node 1⟩)], [(0, ⟨.node 0, 3⟩)]⟩ : State Nat)
      _ ?_ (Step.PopFront _ _ 0 rfl)
    exact Reachable.step _ _ Reachable.init (Step.ctor_init _ _ 0 [1, 2, 3] rfl)
  obtain ⟨cs, h1, h2, h3, _, _⟩ :=
    C2_size_invariant_reachable (boundedAlloc 8) (boundedAlloc_ok 8) hsp _ hreach 0
      ⟨.node 1, 2⟩ rfl
  exact ⟨boundedAlloc_ok 8, hsp, hreach, cs, h1, h2, h3⟩

end SLL

namespace SLL

/-! ## C3: equality -/

theorem std_equal_cells {α : Type} (eq : α → α → Bool) (st : State α)
    (cs ds : List (Nat × α)) (p q : NodePtr) (fuel : Nat)
    (hp : Cells st.heap p cs) (hq : Cells st.heap q ds)
    (hf : min cs.length ds.length ≤ fuel) :
    ∃ r : Bool, std_equal eq st fuel p q = .ret r st ∧
      (r = true ↔ List.Forall₂ (fun x y => eq x y = true) (cs.map Prod.snd) (ds.map Prod.snd)) := by
  induction cs generalizing ds p q fuel with
  | nil =>
    have hp0 : p = .null := hp
    subst hp0
    cases ds with
    | nil =>
      have hq0 : q = .null := hq
      subst hq0
      refine ⟨true, by unfold std_equal; simp [end_], by simp⟩
    | cons d ds =>
      obtain ⟨hq0, _⟩ := hq
      subst hq0
      refine ⟨false, by unfold std_equal; simp [end_], by simp⟩
  | cons c cs ih =>
    obtain ⟨hp0, nx, hget, hrest⟩ := hp
    subst hp0
    cases ds with
    | nil =>
      have hq0 : q = .null := hq
      subst hq0
      refine ⟨false, by unfold std_equal; simp [end_], by simp⟩
    | cons d ds =>
      obtain ⟨hq0, nx2, hget2, hrest2⟩ := hq
      subst hq0
      cases fuel with
      | zero => simp at hf
      | succ f =>
        have hf2 : min cs.length ds.length ≤ f := by
          simp only [List.length_cons] at hf
          omega
        obtain ⟨r, hr, hiff⟩ := ih ds nx nx2 f hrest hrest2 hf2
        cases hcd : eq c.2 d.2 with
        | false =>
          refine ⟨false, ?_, by simp [hcd]⟩
          unfold std_equal
          simp [end_, loadValue, hget, hget2, hcd]
        | true =>
          refine ⟨r, ?_, by simp [hcd, hiff]⟩
          unfold std_equal
          simp [end_, loadValue, loadNext, hget, hget2, hcd, hr]

theorem forall₂_iff_index {α : Type} (R : α → α → Prop) (xs ys : List α) :
    List.Forall₂ R xs ys ↔
      xs.length = ys.length ∧ ∀ (i : Nat) (x y : α), xs[i]? = some x → ys[i]? = some y → R x y := by
  induction xs generalizing ys with
  | nil =>
    cases ys with
    | nil => simp
    | cons y ys => simp
  | cons x xs ih =>
    cases ys with
    | nil => simp
    | cons y ys =>
      rw [List.forall₂_cons, ih]
      constructor
      · rintro ⟨hxy, hlen, hall⟩
        refine ⟨by simp [hlen], ?_⟩
        intro i a b ha hb
        cases i with
        | zero =>
          simp at ha hb
          subst ha hb
          exact hxy
        | succ k =>
          simp at ha hb
          exact hall k a b ha hb
      · rintro ⟨hlen, hall⟩
        refine ⟨hall 0 x y (by simp) (by simp), by simpa using hlen, ?_⟩
        intro i a b ha hb
        exact hall (i + 1) a b (by simpa using ha) (by simpa using hb)

theorem forall₂_refl_of {α : Type} (R : α → α → Prop) (hR : ∀ x, R x x) (xs : List α) :
    List.Forall₂ R xs xs := by
  induction xs with
  | nil => exact List.Forall₂.nil
  | cons x xs ih => exact List.Forall₂.cons (hR x) ih

theorem operator_eq_spec {α : Type} (eq : α → α → Bool) (st : State α) (a b : Nat)
    (A B : List (Nat × α)) (hA : Owns st a A) (hB : Owns st b B) (fuel : Nat)
    (hfuel : min A.length B.length ≤ fuel) :
    ∃ r : Bool, operator_eq eq fuel st a b = .ret r st ∧
      (a = b → r = true) ∧
      (a ≠ b → (r = true ↔
        List.Forall₂ (fun x y => eq x y = true) (A.map Prod.snd) (B.map Prod.snd))) := by
  by_cases hab : a = b
  · exact ⟨true, by simp [operator_eq, hab], fun _ => rfl, fun h => absurd hab h⟩
  · obtain ⟨p, hobjA, hcA, _⟩ := hA
    obtain ⟨q, hobjB, hcB, _⟩ := hB
    by_cases hlen : A.length = B.length
    · obtain ⟨r, hr, hiff⟩ := std_equal_cells eq st A B p q fuel hcA hcB hfuel
      exact ⟨r, by simp [operator_eq, hab, hobjA, hobjB, hlen, hr], fun h => absurd h hab,
        fun _ => hiff⟩
    · refine ⟨false, by simp [operator_eq, hab, hobjA, hobjB, hlen], fun h => absurd h hab, ?_⟩
      intro _
      constructor
      · intro h; cases h
      · intro h
        have := h.length_eq
        simp at this
        exact absurd this hlen

/-- C3: for lists `a` and `b` that satisfy the size invariant, with element
sequences `A` and `B`, `operator==` returns a boolean `r` and `operator!=`
returns its negation; `r` is true when `a` and `b` are the same list object;
and, when they are distinct objects or the element `==` is reflexive, `r` is
true exactly when the two lists have the same size and their elements are
pairwise equal (by the element `==`) in order. -/
theorem C3_operator_eq_iff_same_size_and_elements {α : Type} (eq : α → α → Bool)
    (st : State α) (a b : Nat) (A B : List (Nat × α)) (hA : Owns st a A) (hB : Owns st b B)
    (fuel : Nat) (hfuel : min A.length B.length ≤ fuel) :
    ∃ r : Bool, operator_eq eq fuel st a b = .ret r st ∧
      operator_ne eq fuel st a b = .ret (!r) st ∧
      (a = b → r = true) ∧
      ((a ≠ b ∨ ∀ x, eq x x = true) →
        (r = true ↔ (A.length = B.length ∧
          ∀ (i : Nat) (x y : α), (A.map Prod.snd)[i]? = some x → (B.map Prod.snd)[i]? = some y →
            eq x y = true))) := by
  obtain ⟨r, hr, hsame, hiff⟩ := operator_eq_spec eq st a b A B hA hB fuel hfuel
  refine ⟨r, hr, by simp [operator_ne, hr, Outcome.mapRet], hsame, ?_⟩
  intro hcase
  have hidx := forall₂_iff_index (fun x y => eq x y = true) (A.map Prod.snd) (B.map Prod.snd)
  simp only [List.length_map] at hidx
  rw [← hidx]
  by_cases hab : a = b
  · rcases hcase with hne | hrefl
    · exact absurd hab hne
    · subst hab
      rw [Owns_functional hA hB]
      exact ⟨fun _ => forall₂_refl_of _ hrefl _, fun _ => hsame rfl⟩
  · exact hiff hab

/-- Witness for C3: the lists `1, 2, 3` (object 0) and `1, 2, 4` (object 1)
compare unequal under the equality of natural numbers. -/
theorem C3_operator_eq_iff_same_size_and_elements_witness :
    Owns (⟨[(0, ⟨1, .node 1⟩), (1, ⟨2, .node 2⟩), (2, ⟨3, .null⟩),
            (3, ⟨1, .node 4⟩), (4, ⟨2, .node 5⟩), (5, ⟨4, .null⟩)],
           [(0, ⟨.node 0, 3⟩), (1, ⟨.node 3, 3⟩)]⟩ : State Nat) 0 [(0, 1), (1, 2), (2, 3)] ∧
    operator_eq (fun x y => decide (x = y)) 3
        (⟨[(0, ⟨1, .node 1⟩), (1, ⟨2, .node 2⟩), (2, ⟨3, .null⟩),
           (3, ⟨1, .node 4⟩), (4, ⟨2, .node 5⟩), (5, ⟨4, .null⟩)],
          [(0, ⟨.node 0, 3⟩), (1, ⟨.node 3, 3⟩)]⟩ : State Nat) 0 1 =
      .ret false ⟨[(0, ⟨1, .node 1⟩), (1, ⟨2, .node 2⟩), (2, ⟨3, .null⟩),
           (3, ⟨1, .node 4⟩), (4, ⟨2, .node 5⟩), (5, ⟨4, .null⟩)],
          [(0, ⟨.node 0, 3⟩), (1, ⟨.node 3, 3⟩)]⟩ ∧
    ∃ r : Bool, (r = true ↔ ((3 : Nat) = 3 ∧
      ∀ (i x y : Nat), ([1, 2, 3] : List Nat)[i]? = some x → ([1, 2, 4] : List Nat)[i]? = some y →
        decide (x = y) = true)) := by
  have hA : Owns (⟨[(0, ⟨1, .node 1⟩), (1, ⟨2, .node 2⟩), (2, ⟨3, .null⟩),
            (3, ⟨1, .node 4⟩), (4, ⟨2, .node 5⟩), (5, ⟨4, .null⟩)],
           [(0, ⟨.node 0, 3⟩), (1, ⟨.node 3, 3⟩)]⟩ : State Nat) 0 [(0, 1), (1, 2), (2, 3)] :=
    ⟨.node 0, rfl, ⟨rfl, _, rfl, rfl, _, rfl, rfl, _, rfl, rfl⟩, by decide⟩
  have hB : Owns (⟨[(0, ⟨1, .node 1⟩), (1, ⟨2, .node 2⟩), (2, ⟨3, .null⟩),
            (3, ⟨1, .node 4⟩), (4, ⟨2, .node 5⟩), (5, ⟨4, .null⟩)],
           [(0, ⟨.node 0, 3⟩), (1, ⟨.node 3, 3⟩)]⟩ : State Nat) 1 [(3, 1), (4, 2), (5, 4)] :=
    ⟨.node 3, rfl, ⟨rfl, _, rfl, rfl, _, rfl, rfl, _, rfl, rfl⟩, by decide⟩
  obtain ⟨r, _, _, _, h4⟩ :=
    C3_operator_eq_iff_same_size_and_elements (fun x y => decide (x = y)) _ 0 1 _ _ hA hB 3
      (by decide)
  exact ⟨hA, by decide, r, h4 (Or.inl (by decide))⟩

end SLL

namespace SLL

/-! ## C4: ordering -/

theorem lex_cells {α : Type} (lt : α → α → Bool) (st : State α)
    (cs ds : List (Nat × α)) (p q : NodePtr) (fuel : Nat)
    (hp : Cells st.heap p cs) (hq : Cells st.heap q ds)
    (hf : min cs.length ds.length ≤ fuel) :
    std_lexicographical_compare lt st fuel p q =
      .ret (lexSeq lt (cs.map Prod.snd) (ds.map Prod.snd)) st := by
  induction cs generalizing ds p q fuel with
  | nil =>
    have hp0 : p = .null := hp
    subst hp0
    cases ds with
    | nil =>
      have hq0 : q = .null := hq
      subst hq0
      unfold std_lexicographical_compare
      simp [end_, lexSeq]
    | cons d ds =>
      obtain ⟨hq0, _⟩ := hq
      subst hq0
      unfold std_lexicographical_compare
      simp [end_, lexSeq]
  | cons c cs ih =>
    obtain ⟨hp0, nx, hget, hrest⟩ := hp
    subst hp0
    cases ds with
    | nil =>
      have hq0 : q = .null := hq
      subst hq0
      unfold std_lexicographical_compare
      simp [end_, lexSeq]
    | cons d ds =>
      obtain ⟨hq0, nx2, hget2, hrest2⟩ := hq
      subst hq0
      cases fuel with
      | zero => simp at hf
      | succ f =>
        have hf2 : min cs.length ds.length ≤ f := by
          simp only [List.length_cons] at hf
          omega
        have hrec := ih ds nx nx2 f hrest hrest2 hf2
        unfold std_lexicographical_compare
        cases h1 : lt c.2 d.2 with
        | true => simp [end_, loadValue, hget, hget2, h1, lexSeq]
        | false =>
          cases h2 : lt d.2 c.2 with
          | true => simp [end_, loadValue, hget, hget2, h1, h2, lexSeq]
          | false => simp [end_, loadValue, loadNext, hget, hget2, h1, h2, lexSeq, hrec]

theorem operator_lt_owns {α : Type} (lt : α → α → Bool) (st : State α) (a b : Nat)
    (A B : List (Nat × α)) (hA : Owns st a A) (hB : Owns st b B) (fuel : Nat)
    (hfuel : min A.length B.length ≤ fuel) :
    operator_lt lt fuel st a b = .ret (lexSeq lt (A.map Prod.snd) (B.map Prod.snd)) st := by
  obtain ⟨p, hobjA, hcA, _⟩ := hA
  obtain ⟨q, hobjB, hcB, _⟩ := hB
  simp [operator_lt, hobjA, hobjB, lex_cells lt st A B p q fuel hcA hcB hfuel]

/-- The comparison loop decides the lexicographic order of two sequences when
the element `<` is irreflexive and any two distinct elements are comparable. -/
theorem lexSeq_iff {α : Type} (lt : α → α → Bool) (hirr : ∀ x, lt x x = false)
    (hconn : ∀ x y, x ≠ y → lt x y = true ∨ lt y x = true) (A B : List α) :
    lexSeq lt A B = true ↔
      (∃ (i : Nat) (x y : α), A.take i = B.take i ∧ A[i]? = some x ∧ B[i]? = some y ∧
        x ≠ y ∧ lt x y = true) ∨
      (∃ t, t ≠ [] ∧ B = A ++ t) := by
  induction A generalizing B with
  | nil =>
    cases B with
    | nil => simp [lexSeq]
    | cons y ys => simp [lexSeq]
  | cons x xs ih =>
    cases B with
    | nil => simp [lexSeq]
    | cons y ys =>
      by_cases hxy : x = y
      · subst hxy
        simp only [lexSeq, hirr, Bool.false_eq_true, if_false, ih ys]
        constructor
        · rintro (⟨i, u, v, htake, hu, hv, hne, hlt⟩ | ⟨t, ht, hB⟩)
          · exact Or.inl ⟨i + 1, u, v, by simp [htake], by simpa using hu, by simpa using hv,
              hne, hlt⟩
          · exact Or.inr ⟨t, ht, by simp [hB]⟩
        · rintro (⟨i, u, v, htake, hu, hv, hne, hlt⟩ | ⟨t, ht, hB⟩)
          · cases i with
            | zero =>
              simp at hu hv
              exact absurd (hu.symm.trans hv) hne
            | succ k =>
              simp at htake hu hv
              exact Or.inl ⟨k, u, v, htake, hu, hv, hne, hlt⟩
          · simp at hB
            exact Or.inr ⟨t, ht, hB⟩
      · have hno : ¬ ∃ t, t ≠ [] ∧ y :: ys = x :: xs ++ t := by
          rintro ⟨t, _, hB⟩
          simp at hB
          exact hxy hB.1.symm
        have hidx : ∀ (i : Nat) (u v : α), (x :: xs).take i = (y :: ys).take i →
            (x :: xs)[i]? = some u → (y :: ys)[i]? = some v → u = x ∧ v = y := by
          intro i u v htake hu hv
          cases i with
          | zero =>
            simp at hu hv
            exact ⟨hu.symm, hv.symm⟩
          | succ k =>
            simp at htake
            exact absurd htake.1 hxy
        cases h1 : lt x y with
        | true =>
          simp only [lexSeq, h1, if_true, true_iff]
          exact Or.inl ⟨0, x, y, by simp, by simp, by simp, hxy, h1⟩
        | false =>
          have h2 : lt y x = true := by
            rcases hconn x y hxy with h | h
            · rw [h1] at h; cases h
            · exact h
          simp only [lexSeq, h1, h2, Bool.false_eq_true, if_false, if_true, false_iff]
          rintro (⟨i, u, v, htake, hu, hv, _, hlt⟩ | hpre)
          · obtain ⟨rfl, rfl⟩ := hidx i u v htake hu hv
            rw [h1] at hlt
            cases hlt
          · exact hno hpre

/-- Without any assumption on the element `<`: the comparison loop returns
true exactly when at the first index where one element is less than the other
the left element is the smaller one, or no such index exists and the left
sequence is shorter. -/
theorem lexSeq_iff_general {α : Type} (lt : α → α → Bool) (A B : List α) :
    lexSeq lt A B = true ↔
      (∃ (i : Nat) (x y : α), A[i]? = some x ∧ B[i]? = some y ∧ lt x y = true ∧
        ∀ (j : Nat) (u v : α), j < i → A[j]? = some u → B[j]? = some v →
          lt u v = false ∧ lt v u = false) ∨
      (A.length < B.length ∧
        ∀ (j : Nat) (u v : α), A[j]? = some u → B[j]? = some v →
          lt u v = false ∧ lt v u = false) := by
  induction A generalizing B with
  | nil =>
    cases B with
    | nil => simp [lexSeq]
    | cons y ys => simp [lexSeq]
  | cons x xs ih =>
    cases B with
    | nil => simp [lexSeq]
    | cons y ys =>
      cases h1 : lt x y with
      | true =>
        simp only [lexSeq, h1, if_true, true_iff]
        exact Or.inl ⟨0, x, y, by simp, by simp, h1, fun j u v hj => absurd hj (Nat.not_lt_zero j)⟩
      | false =>
        cases h2 : lt y x with
        | true =>
          simp only [lexSeq, h1, h2, Bool.false_eq_true, if_false, if_true, false_iff]
          rintro (⟨i, u, v, hu, hv, hlt, hall⟩ | ⟨_, hall⟩)
          · cases i with
            | zero =>
              simp at hu hv
              subst hu hv
              rw [h1] at hlt
              cases hlt
            | succ k =>
              have := (hall 0 x y (Nat.succ_pos k) (by simp) (by simp)).2
              rw [h2] at this
              cases this
          · have := (hall 0 x y (by simp) (by simp)).2
            rw [h2] at this
            cases this
        | false =>
          simp only [lexSeq, h1, h2, Bool.false_eq_true, if_false, ih ys]
          constructor
          · rintro (⟨i, u, v, hu, hv, hlt, hall⟩ | ⟨hlen, hall⟩)
            · refine Or.inl ⟨i + 1, u, v, by simpa using hu, by simpa using hv, hlt, ?_⟩
              intro j a b hj ha hb
              cases j with
              | zero =>
                simp at ha hb
                subst ha hb
                exact ⟨h1, h2⟩
              | succ k =>
                exact hall k a b (by omega) (by simpa using ha) (by simpa using hb)
            · refine Or.inr ⟨by simpa using hlen, ?_⟩
              intro j a b ha hb
              cases j with
              | zero =>
                simp at ha hb
                subst ha hb
                exact ⟨h1, h2⟩
              | succ k => exact hall k a b (by simpa using ha) (by simpa using hb)
          · rintro (⟨i, u, v, hu, hv, hlt, hall⟩ | ⟨hlen, hall⟩)
            · cases i with
              | zero =>
                simp at hu hv
                subst hu hv
                rw [h1] at hlt
                cases hlt
              | succ k =>
                refine Or.inl ⟨k, u, v, by simpa using hu, by simpa using hv, hlt, ?_⟩
                intro j a b hj ha hb
                exact hall (j + 1) a b (by omega) (by simpa using ha) (by simpa using hb)
            · refine Or.inr ⟨by simpa using hlen, ?_⟩
              intro j a b ha hb
              exact hall (j + 1) a b (by simpa using ha) (by simpa using hb)

end SLL

namespace SLL

theorem lexSeq_append_left {α : Type} (lt : α → α → Bool) (hirr : ∀ x, lt x x = false)
    (B t : List α) : lexSeq lt (B ++ t) B = false := by
  induction B with
  | nil => cases t <;> simp [lexSeq]
  | cons y ys ih => simp [lexSeq, hirr, ih]

theorem demoState_owns0 : Owns demoState 0 [(0, 1), (1, 2)] :=
  ⟨.node 0, rfl, ⟨rfl, _, rfl, rfl, _, rfl, rfl⟩, by decide⟩

theorem demoState_owns1 : Owns demoState 1 [(2, 1), (3, 2), (4, 3)] :=
  ⟨.node 2, rfl, ⟨rfl, _, rfl, rfl, _, rfl, rfl, _, rfl, rfl⟩, by decide⟩

theorem demoState_owns2 : Owns demoState 2 [(5, 1), (6, 3)] :=
  ⟨.node 5, rfl, ⟨rfl, _, rfl, rfl, _, rfl, rfl⟩, by decide⟩

theorem natLt_irrefl : ∀ x, natLt x x = false := by
  intro x
  simp [natLt]

theorem natLt_conn : ∀ x y, x ≠ y → natLt x y = true ∨ natLt y x = true := by
  intro x y h
  simp only [natLt, decide_eq_true_eq]
  omega

/-- C4: for lists `a` and `b` with element sequences `A` and `B`, `operator<`
returns a boolean `r` that is the lexicographic order of the sequences.  For
any element `<`: `r` is true exactly when the left element is the smaller one
at the first index where one element is less than the other, or there is no
such index and `A` is shorter.  When the element `<` is irreflexive and any
two distinct elements are comparable: `r` is true exactly when `A`'s element
is less than `B`'s at the first index where the sequences differ, or `A` is a
strict prefix of `B`; and `r` is false when the sequences are equal or `B` is
a strict prefix of `A`. -/
theorem C4_operator_lt_is_lexicographic {α : Type} (lt : α → α → Bool) (st : State α)
    (a b : Nat) (A B : List (Nat × α)) (hA : Owns st a A) (hB : Owns st b B) (fuel : Nat)
    (hfuel : min A.length B.length ≤ fuel) :
    ∃ r : Bool, operator_lt lt fuel st a b = .ret r st ∧
      (r = true ↔
        (∃ (i : Nat) (x y : α), (A.map Prod.snd)[i]? = some x ∧ (B.map Prod.snd)[i]? = some y ∧
          lt x y = true ∧
          ∀ (j : Nat) (u v : α), j < i → (A.map Prod.snd)[j]? = some u →
            (B.map Prod.snd)[j]? = some v → lt u v = false ∧ lt v u = false) ∨
        ((A.map Prod.snd).length < (B.map Prod.snd).length ∧
          ∀ (j : Nat) (u v : α), (A.map Prod.snd)[j]? = some u →
            (B.map Prod.snd)[j]? = some v → lt u v = false ∧ lt v u = false)) ∧
      ((∀ x, lt x x = false) → (∀ x y, x ≠ y → lt x y = true ∨ lt y x = true) →
        (r = true ↔
          (∃ (i : Nat) (x y : α), (A.map Prod.snd).take i = (B.map Prod.snd).take i ∧
            (A.map Prod.snd)[i]? = some x ∧ (B.map Prod.snd)[i]? = some y ∧
            x ≠ y ∧ lt x y = true) ∨
          (∃ t, t ≠ [] ∧ B.map Prod.snd = A.map Prod.snd ++ t)) ∧
        (A.map Prod.snd = B.map Prod.snd → r = false) ∧
        ((∃ t, t ≠ [] ∧ A.map Prod.snd = B.map Prod.snd ++ t) → r = false)) := by
  refine ⟨lexSeq lt (A.map Prod.snd) (B.map Prod.snd),
    operator_lt_owns lt st a b A B hA hB fuel hfuel, lexSeq_iff_general lt _ _, ?_⟩
  intro hirr hconn
  refine ⟨lexSeq_iff lt hirr hconn _ _, ?_, ?_⟩
  · intro h
    rw [h]
    simpa using lexSeq_append_left lt hirr (B.map Prod.snd) []
  · rintro ⟨t, _, h⟩
    rw [h]
    exact lexSeq_append_left lt hirr _ t

/-- Witness for C4: in `demoState`, `{1, 2} < {1, 2, 3}` is true and
`{1, 2, 3} < {1, 3}` is true. -/
theorem C4_operator_lt_is_lexicographic_witness :
    Owns demoState 0 [(0, 1), (1, 2)] ∧ Owns demoState 1 [(2, 1), (3, 2), (4, 3)] ∧
    operator_lt natLt 3 demoState 0 1 = .ret true demoState ∧
    operator_lt natLt 3 demoState 1 2 = .ret true demoState ∧
    ∃ r : Bool, operator_lt natLt 3 demoState 0 1 = .ret r demoState ∧
      (r = true ↔
        (∃ (i : Nat) (x y : Nat), ([1, 2] : List Nat).take i = ([1, 2, 3] : List Nat).take i ∧
          ([1, 2] : List Nat)[i]? = some x ∧ ([1, 2, 3] : List Nat)[i]? = some y ∧
          x ≠ y ∧ natLt x y = true) ∨
        (∃ t, t ≠ [] ∧ ([1, 2, 3] : List Nat) = [1, 2] ++ t)) := by
  obtain ⟨r, h1, _, h3⟩ :=
    C4_operator_lt_is_lexicographic natLt demoState 0 1 _ _ demoState_owns0 demoState_owns1 3
      (by decide)
  exact ⟨demoState_owns0, demoState_owns1, by decide, by decide, r, h1,
    (h3 natLt_irrefl natLt_conn).1⟩

end SLL

namespace SLL

/-! ## C5: trichotomy -/

theorem trichotomy_seq {α : Type} (eq lt : α → α → Bool)
    (hasym : ∀ x y, lt x y = true → lt y x = false)
    (heq : ∀ x y, eq x y = true ↔ (lt x y = false ∧ lt y x = false)) (A B : List α) :
    (lexSeq lt A B = true ∧ lexSeq lt B A = false ∧
        ¬ List.Forall₂ (fun x y => eq x y = true) A B) ∨
    (lexSeq lt A B = false ∧ lexSeq lt B A = true ∧
        ¬ List.Forall₂ (fun x y => eq x y = true) A B) ∨
    (lexSeq lt A B = false ∧ lexSeq lt B A = false ∧
        List.Forall₂ (fun x y => eq x y = true) A B) := by
  induction A generalizing B with
  | nil =>
    cases B with
    | nil => simp [lexSeq]
    | cons y ys => simp [lexSeq]
  | cons x xs ih =>
    cases B with
    | nil => simp [lexSeq]
    | cons y ys =>
      cases h1 : lt x y with
      | true =>
        have h2 := hasym x y h1
        have h3 : ¬ eq x y = true := by
          intro h
          have := ((heq x y).1 h).1
          rw [h1] at this
          cases this
        simp [lexSeq, h1, h2, h3]
      | false =>
        cases h2 : lt y x with
        | true =>
          have h3 : ¬ eq x y = true := by
            intro h
            have := ((heq x y).1 h).2
            rw [h2] at this
            cases this
          simp [lexSeq, h1, h2, h3]
        | false =>
          have h3 : eq x y = true := (heq x y).2 ⟨h1, h2⟩
          simpa [lexSeq, h1, h2, h3] using ih ys

/-- C5 (trichotomy): when the element `<` is a strict order (irreflexive and
transitive, as every strict total order is) and the element `==` holds
exactly when neither element is less than the other, then for lists `a` and
`b` that satisfy the size invariant the three comparisons `a < b`, `b < a`
and `a == b` all return, and exactly one of them returns true. -/
theorem C5_trichotomy {α : Type} (eq lt : α → α → Bool)
    (hirr : ∀ x, lt x x = false)
    (htrans : ∀ x y z, lt x y = true → lt y z = true → lt x z = true)
    (heq : ∀ x y, eq x y = true ↔ (lt x y = false ∧ lt y x = false))
    (st : State α) (a b : Nat) (A B : List (Nat × α)) (hA : Owns st a A) (hB : Owns st b B)
    (fuel : Nat) (hfuel : min A.length B.length ≤ fuel) :
    ∃ r1 r2 r3 : Bool,
      operator_lt lt fuel st a b = .ret r1 st ∧
      operator_lt lt fuel st b a = .ret r2 st ∧
      operator_eq eq fuel st a b = .ret r3 st ∧
      ((r1 = true ∧ r2 = false ∧ r3 = false) ∨
       (r1 = false ∧ r2 = true ∧ r3 = false) ∨
       (r1 = false ∧ r2 = false ∧ r3 = true)) := by
  have hasym : ∀ x y, lt x y = true → lt y x = false := by
    intro x y hxy
    cases hyx : lt y x with
    | false => rfl
    | true =>
      have := htrans x y x hxy hyx
      rw [hirr] at this
      cases this
  obtain ⟨r3, hr3, hsame, hiff⟩ := operator_eq_spec eq st a b A B hA hB fuel hfuel
  refine ⟨_, _, r3, operator_lt_owns lt st a b A B hA hB fuel hfuel,
    operator_lt_owns lt st b a B A hB hA fuel (by rw [min_comm]; exact hfuel), hr3, ?_⟩
  by_cases hab : a = b
  · subst hab
    have hAB := Owns_functional hA hB
    subst hAB
    have h0 : lexSeq lt (A.map Prod.snd) (A.map Prod.snd) = false := by
      simpa using lexSeq_append_left lt hirr (A.map Prod.snd) []
    exact Or.inr (Or.inr ⟨h0, h0, hsame rfl⟩)
  · rcases trichotomy_seq eq lt hasym heq (A.map Prod.snd) (B.map Prod.snd) with
      ⟨h1, h2, h3⟩ | ⟨h1, h2, h3⟩ | ⟨h1, h2, h3⟩
    · refine Or.inl ⟨h1, h2, ?_⟩
      cases hr : r3 with
      | false => rfl
      | true => exact absurd ((hiff hab).1 hr) h3
    · refine Or.inr (Or.inl ⟨h1, h2, ?_⟩)
      cases hr : r3 with
      | false => rfl
      | true => exact absurd ((hiff hab).1 hr) h3
    · exact Or.inr (Or.inr ⟨h1, h2, (hiff hab).2 h3⟩)

theorem natLt_trans : ∀ x y z, natLt x y = true → natLt y z = true → natLt x z = true := by
  intro x y z
  simp only [natLt, decide_eq_true_eq]
  omega

theorem natEq_iff : ∀ x y, natEq x y = true ↔ (natLt x y = false ∧ natLt y x = false) := by
  intro x y
  simp only [natEq, natLt, decide_eq_true_eq, decide_eq_false_iff_not]
  omega

/-- Witness for C5: in `demoState`, of `{1, 2, 3} < {1, 3}`, `{1, 3} < {1, 2, 3}` and
`{1, 2, 3} == {1, 3}` exactly the first is true. -/
theorem C5_trichotomy_witness :
    Owns demoState 1 [(2, 1), (3, 2), (4, 3)] ∧ Owns demoState 2 [(5, 1), (6, 3)] ∧
    operator_lt natLt 2 demoState 1 2 = .ret true demoState ∧
    operator_lt natLt 2 demoState 2 1 = .ret false demoState ∧
    operator_eq natEq 2 demoState 1 2 = .ret false demoState ∧
    ∃ r1 r2 r3 : Bool,
      operator_lt natLt 2 demoState 1 2 = .ret r1 demoState ∧
      operator_lt natLt 2 demoState 2 1 = .ret r2 demoState ∧
      operator_eq natEq 2 demoState 1 2 = .ret r3 demoState ∧
      ((r1 = true ∧ r2 = false ∧ r3 = false) ∨
       (r1 = false ∧ r2 = true ∧ r3 = false) ∨
       (r1 = false ∧ r2 = false ∧ r3 = true)) :=
  ⟨demoState_owns1, demoState_owns2, by decide, by decide, by decide,
    C5_trichotomy natEq natLt natLt_irrefl natLt_trans natEq_iff demoState 1 2 _ _
      demoState_owns1 demoState_owns2 2 (by decide)⟩

end SLL

namespace SLL

/-! ## C6 and C7: insertion and removal after a position -/

theorem Owns_cell {α : Type} {st : State α} {l : Nat} {pre post : List (Nat × α)}
    {c : Nat × α} (hown : Owns st l (pre ++ c :: post)) :
    Store.get st.heap c.1 = some ⟨c.2, firstPtr post⟩ := by
  obtain ⟨p, _, hcells, _⟩ := hown
  obtain ⟨nx, _, hget, hpost⟩ := Cells_split hcells
  rw [hget, Cells_firstPtr hpost]

/-- C6: for a list `l` with nodes `cs` (element sequence `cs.map Prod.snd`), a
position with index `i` (`0` is the sentinel, `i ≥ 1` the `i`-th node) and a
value `v`, when the allocation of the new node succeeds with address `a` and
the new size is a `size_t`: `InsertAfter` returns; the new element sequence is
the old one with `v` inserted right after position `i`; `GetSize()` grows by
exactly 1; the returned iterator references the new node, which did not exist
before and sits at index `i + 1`; dereferencing it gives `v`; and advancing
it gives the former successor of the position, which is `end()` exactly when
the position was the last one. -/
theorem C6_InsertAfter_inserts_after_position {α : Type} (alloc : Allocator α)
    (hok : AllocOk alloc) (st : State α) (l : Nat) (cs : List (Nat × α)) (i : Nat) (v : α)
    (a : Nat) (hown : Owns st l cs) (hi : i ≤ cs.length) (ha : alloc st.heap = some a)
    (hroom : cs.length + 1 < SIZE_MOD) :
    ∃ st2 r succ, InsertAfter alloc st l (posAt l cs i) v = .ret r st2 ∧
      (∀ fuel, cs.length + 1 ≤ fuel →
        elements fuel st2 l =
          .ret ((cs.map Prod.snd).take i ++ v :: (cs.map Prod.snd).drop i) st2) ∧
      GetSize st l = some cs.length ∧ GetSize st2 l = some (cs.length + 1) ∧
      r = .node a ∧ Store.get st.heap a = none ∧
      Owns st2 l (cs.take i ++ (a, v) :: cs.drop i) ∧
      r = posAt l (cs.take i ++ (a, v) :: cs.drop i) (i + 1) ∧
      Iterator_deref st2 r = .ret v st2 ∧
      loadNext st (posAt l cs i) = some succ ∧
      Iterator_incr st2 r = .ret succ st2 ∧
      (succ = end_ ↔ i = cs.length) := by
  obtain ⟨st2, hret, hown2, _⟩ :=
    InsertAfter_at alloc st l cs i v a hown hi ha (hok _ _ ha) hroom
  have hcell := Owns_cell hown2
  have hlen : (cs.take i ++ (a, v) :: cs.drop i).length = cs.length + 1 := by
    simp only [List.length_append, List.length_take, List.length_cons, List.length_drop]
    omega
  refine ⟨st2, .node a, firstPtr (cs.drop i), hret, ?_, GetSize_owns hown, ?_, rfl,
    hok _ _ ha, hown2, ?_, ?_, loadNext_posAt hown i hi, ?_, ?_⟩
  · intro fuel hf
    rw [elements_owns hown2 fuel (by omega)]
    simp [List.map_take, List.map_drop]
  · rw [GetSize_owns hown2, hlen]
  · have hlt : i < (cs.take i ++ (a, v) :: cs.drop i).length := by omega
    rw [posAt_succ l _ i hlt]
    have : (cs.take i ++ (a, v) :: cs.drop i)[i] = (a, v) := by
      rw [List.getElem_append_right (by simp [hi])]
      simp [hi]
    rw [this]
  · simp [Iterator_deref, loadValue, hcell]
  · simp [Iterator_incr, loadNext, hcell]
  · constructor
    · intro h
      by_contra hne
      have hlt : i < cs.length := lt_of_le_of_ne hi hne
      rw [List.drop_eq_getElem_cons hlt] at h
      simp [firstPtr, end_] at h
    · intro h
      subst h
      simp [firstPtr, end_]

/-- Witness for C6: inserting `7` after the first node of the list `1, 2` of
`demoState` gives `1, 7, 2`. -/
theorem C6_InsertAfter_inserts_after_position_witness :
    AllocOk (bumpAlloc : Allocator Nat) ∧ Owns demoState 0 [(0, 1), (1, 2)] ∧
    (bumpAlloc : Allocator Nat) demoState.heap = some 7 ∧
    ∃ st2 r succ, InsertAfter bumpAlloc demoState 0 (.node 0) 7 = .ret r st2 ∧
      elements 3 st2 0 = .ret [1, 7, 2] st2 ∧ GetSize st2 0 = some 3 ∧
      Iterator_deref st2 r = .ret 7 st2 ∧ Iterator_incr st2 r = .ret succ st2 ∧
      succ = .node 1 := by
  obtain ⟨st2, r, succ, h1, h2, _, h4, _, _, _, _, h9, h10, h11, _⟩ :=
    C6_InsertAfter_inserts_after_position bumpAlloc bumpAlloc_ok demoState 0
      [(0, 1), (1, 2)] 1 7 7 demoState_owns0 (by decide) rfl (by decide)
  refine ⟨bumpAlloc_ok, demoState_owns0, rfl, st2, r, succ, h1, h2 3 (by decide), h4, h9,
    h11, ?_⟩
  have : loadNext demoState (posAt 0 [(0, 1), (1, 2)] 1) = some (.node 1) := by decide
  rw [this] at h10
  exact (Option.some.inj h10).symm

theorem firstPtr_drop_null {α : Type} (cs : List (Nat × α)) (k : Nat) :
    firstPtr (cs.drop k) = .null ↔ cs.length ≤ k := by
  constructor
  · intro h
    by_contra hne
    have hlt : k < cs.length := by omega
    rw [List.drop_eq_getElem_cons hlt] at h
    simp [firstPtr] at h
  · intro h
    rw [List.drop_eq_nil_of_le h]
    rfl

theorem posAt_eraseIdx {α : Type} (l : Nat) (cs : List (Nat × α)) (i : Nat) :
    posAt l (cs.eraseIdx i) i = posAt l cs i := by
  cases i with
  | zero => rfl
  | succ k => simp [posAt, List.getElem?_eraseIdx_of_lt]

/-- C7: for a list `l` with nodes `cs` and a position with index `i` (`0` is
the sentinel) that has a following node (`i < cs.length`): `EraseAfter`
returns; the new element sequence is the old one without the element that
followed the position, all others unchanged and in order; `GetSize()` shrinks
by exactly 1; and the returned iterator references the node that now follows
the position, which is `end()` exactly when the removed node was the last
one. -/
theorem C7_EraseAfter_removes_following {α : Type} (st : State α) (l : Nat)
    (cs : List (Nat × α)) (i : Nat) (hown : Owns st l cs) (hi : i < cs.length) :
    ∃ st2 r, EraseAfter st l (posAt l cs i) = .ret r st2 ∧
      (∀ fuel, cs.length - 1 ≤ fuel →
        elements fuel st2 l = .ret ((cs.map Prod.snd).eraseIdx i) st2) ∧
      GetSize st l = some cs.length ∧ GetSize st2 l = some (cs.length - 1) ∧
      Owns st2 l (cs.eraseIdx i) ∧
      loadNext st2 (posAt l cs i) = some r ∧
      r = firstPtr (cs.drop (i + 1)) ∧
      (r = end_ ↔ i + 1 = cs.length) := by
  obtain ⟨st2, hret, hown2, _⟩ := EraseAfter_at st l cs i hown hi
  have herase : cs.eraseIdx i = cs.take i ++ cs.drop (i + 1) :=
    List.eraseIdx_eq_take_drop_succ cs i
  rw [← herase] at hown2
  have hlen : (cs.eraseIdx i).length = cs.length - 1 := List.length_eraseIdx_of_lt hi
  refine ⟨st2, _, hret, ?_, GetSize_owns hown, ?_, hown2, ?_, rfl, ?_⟩
  · intro fuel hf
    rw [elements_owns hown2 fuel (by omega), herase, List.eraseIdx_eq_take_drop_succ]
    simp [List.map_take, List.map_drop]
  · rw [GetSize_owns hown2, hlen]
  · have h := loadNext_posAt hown2 i (by omega)
    rw [posAt_eraseIdx] at h
    rw [h, herase, List.drop_append_of_le_length (by simp [hi.le]),
      List.drop_eq_nil_of_le (by simp), List.nil_append]
  · rw [end_, firstPtr_drop_null]
    omega

/-- Witness for C7: erasing after the first node of the list `1, 2, 3` of
`demoState` removes `2` and returns an iterator to the node holding `3`. -/
theorem C7_EraseAfter_removes_following_witness :
    Owns demoState 1 [(2, 1), (3, 2), (4, 3)] ∧
    ∃ st2 r, EraseAfter demoState 1 (.node 2) = .ret r st2 ∧
      elements 2 st2 1 = .ret [1, 3] st2 ∧ GetSize st2 1 = some 2 ∧ r = .node 4 := by
  obtain ⟨st2, r, h1, h2, _, h4, _, _, h7, _⟩ :=
    C7_EraseAfter_removes_following demoState 1 [(2, 1), (3, 2), (4, 3)] 1 demoState_owns1
      (by decide)
  exact ⟨demoState_owns1, st2, r, h1, h2 2 (by decide), h4, h7⟩

end SLL

namespace SLL

/-! ## C8, C9, C10: the front of the list -/

/-- C8: for a list `l` with nodes `cs` and a value `v`, when the allocation of
the new node succeeds with address `a` and the new size is a `size_t`:
`PushFront` returns, the new element sequence is `v` followed by the old one,
and `GetSize()` grows by exactly 1. -/
theorem C8_PushFront_prepends {α : Type} (alloc : Allocator α) (hok : AllocOk alloc)
    (st : State α) (l : Nat) (cs : List (Nat × α)) (v : α) (a : Nat) (hown : Owns st l cs)
    (ha : alloc st.heap = some a) (hroom : cs.length + 1 < SIZE_MOD) :
    ∃ st2, PushFront alloc st l v = .ret () st2 ∧
      (∀ fuel, cs.length + 1 ≤ fuel →
        elements fuel st2 l = .ret (v :: cs.map Prod.snd) st2) ∧
      GetSize st l = some cs.length ∧ GetSize st2 l = some (cs.length + 1) ∧
      Owns st2 l ((a, v) :: cs) := by
  obtain ⟨st2, hret, hown2, _⟩ := PushFront_spec alloc st l cs v a hown ha (hok _ _ ha) hroom
  refine ⟨st2, hret, ?_, GetSize_owns hown, GetSize_owns hown2, hown2⟩
  intro fuel hf
  rw [elements_owns hown2 fuel (by simpa using hf)]
  rfl

/-- Witness for C8, the scenario of the specification: on an empty list
`PushFront(1)` gives `1`; `PushFront(2)` gives `2, 1`;
`InsertAfter(before_begin(), 3)` gives `3, 2, 1`; `EraseAfter(before_begin())`
gives `2, 1`. -/
theorem C8_PushFront_prepends_witness :
    AllocOk (bumpAlloc : Allocator Nat) ∧ Owns scen1 0 [(0, 1)] ∧
    scen0 = ctor_default ⟨[], []⟩ 0 ∧
    elements 0 scen0 0 = .ret [] scen0 ∧
    PushFront bumpAlloc scen0 0 1 = .ret () scen1 ∧ elements 1 scen1 0 = .ret [1] scen1 ∧
    PushFront bumpAlloc scen1 0 2 = .ret () scen2 ∧ elements 2 scen2 0 = .ret [2, 1] scen2 ∧
    InsertAfter bumpAlloc scen2 0 (before_begin 0) 3 = .ret (.node 2) scen3 ∧
    elements 3 scen3 0 = .ret [3, 2, 1] scen3 ∧
    EraseAfter scen3 0 (before_begin 0) = .ret (.node 1) scen2 ∧
    ∃ st2, PushFront bumpAlloc scen1 0 2 = .ret () st2 ∧
      elements 2 st2 0 = .ret [2, 1] st2 ∧ GetSize st2 0 = some 2 := by
  have hown : Owns scen1 0 [(0, 1)] := ⟨.node 0, rfl, ⟨rfl, _, rfl, rfl⟩, by decide⟩
  obtain ⟨st2, h1, h2, _, h4, _⟩ :=
    C8_PushFront_prepends bumpAlloc bumpAlloc_ok scen1 0 [(0, 1)] 2 1 hown rfl (by decide)
  exact ⟨bumpAlloc_ok, hown, by decide, by decide, by decide, by decide, by decide, by decide,
    by decide, by decide, by decide, st2, h1, h2 2 (by decide), h4⟩

/-- C9: for a list `l` that satisfies the size invariant and is not empty
(`IsEmpty()` is false): the assertion `size_ > 0` holds, the first node is not
null (`begin() != end()`), the element sequence is some `x` followed by
`rest`, and `PopFront` returns with the element sequence `rest` and with
`GetSize()` smaller by exactly 1. -/
theorem C9_PopFront_removes_first {α : Type} (st : State α) (l : Nat) (cs : List (Nat × α))
    (hown : Owns st l cs) (hne : IsEmpty st l = some false) :
    ∃ x rest n p st2, cs.map Prod.snd = x :: rest ∧
      GetSize st l = some n ∧ 0 < n ∧ n = rest.length + 1 ∧
      begin_ st l = some p ∧ p ≠ end_ ∧
      PopFront st l = .ret () st2 ∧
      (∀ fuel, rest.length ≤ fuel → elements fuel st2 l = .ret rest st2) ∧
      GetSize st2 l = some rest.length ∧ Owns st2 l cs.tail := by
  cases cs with
  | nil =>
    obtain ⟨p, hobj, _, _⟩ := hown
    simp [IsEmpty, hobj] at hne
  | cons c cs =>
    obtain ⟨st2, hret, hown2, _⟩ := PopFront_spec st l c cs hown
    refine ⟨c.2, cs.map Prod.snd, cs.length + 1, .node c.1, st2, rfl, GetSize_owns hown,
      Nat.succ_pos _, by simp, begin_owns hown, by simp [end_], hret, ?_, ?_, hown2⟩
    · intro fuel hf
      exact elements_owns hown2 fuel (by simpa using hf)
    · rw [GetSize_owns hown2]
      simp

/-- Witness for C9: `PopFront` on the list `2, 1` leaves `1`. -/
theorem C9_PopFront_removes_first_witness :
    Owns scen2 0 [(1, 2), (0, 1)] ∧ IsEmpty scen2 0 = some false ∧
    PopFront scen2 0 = .ret () ⟨[(0, ⟨1, .null⟩)], [(0, ⟨.node 0, 1⟩)]⟩ ∧
    ∃ x rest st2, [2, 1] = x :: rest ∧ PopFront scen2 0 = .ret () st2 ∧
      elements 1 st2 0 = .ret rest st2 ∧ GetSize st2 0 = some rest.length := by
  have hown : Owns scen2 0 [(1, 2), (0, 1)] :=
    ⟨.node 1, rfl, ⟨rfl, _, rfl, rfl, _, rfl, rfl⟩, by decide⟩
  obtain ⟨x, rest, n, p, st2, h1, _, _, hn, _, _, h7, h8, h9, _⟩ :=
    C9_PopFront_removes_first scen2 0 [(1, 2), (0, 1)] hown (by decide)
  have hlen : rest.length = 1 := by
    have := congrArg List.length h1
    simpa using this.symm
  exact ⟨hown, by decide, by decide, x, rest, st2, h1, h7, h8 1 (by omega), h9⟩

/-- C10 (round trip): for a list `l` with nodes `cs`, empty or not, and a
value `v`, when the allocation succeeds and the intermediate size is a
`size_t`: `PushFront(v)` followed by `PopFront()` both return and leave `l`
with the same nodes, the same element sequence and the same `GetSize()` as
before. -/
theorem C10_PushFront_PopFront_round_trip {α : Type} (alloc : Allocator α)
    (hok : AllocOk alloc) (st : State α) (l : Nat) (cs : List (Nat × α)) (v : α) (a : Nat)
    (hown : Owns st l cs) (ha : alloc st.heap = some a) (hroom : cs.length + 1 < SIZE_MOD) :
    ∃ st1 st2, PushFront alloc st l v = .ret () st1 ∧ PopFront st1 l = .ret () st2 ∧
      Owns st2 l cs ∧ GetSize st2 l = GetSize st l ∧
      ∀ fuel, cs.length ≤ fuel →
        elements fuel st l = .ret (cs.map Prod.snd) st ∧
        elements fuel st2 l = .ret (cs.map Prod.snd) st2 := by
  obtain ⟨st1, hret1, hown1, _⟩ := PushFront_spec alloc st l cs v a hown ha (hok _ _ ha) hroom
  obtain ⟨st2, hret2, hown2, _⟩ := PopFront_spec st1 l (a, v) cs hown1
  refine ⟨st1, st2, hret1, hret2, hown2, by rw [GetSize_owns hown2, GetSize_owns hown], ?_⟩
  intro fuel hf
  exact ⟨elements_owns hown fuel hf, elements_owns hown2 fuel hf⟩

/-- Witness for C10: `PushFront(9)` then `PopFront()` on the empty list and on
the list `2, 1`. -/
theorem C10_PushFront_PopFront_round_trip_witness :
    AllocOk (bumpAlloc : Allocator Nat) ∧ Owns scen2 0 [(1, 2), (0, 1)] ∧
    Owns scen0 0 ([] : List (Nat × Nat)) ∧
    (∃ st1 st2, PushFront bumpAlloc scen0 0 9 = .ret () st1 ∧ PopFront st1 0 = .ret () st2 ∧
      elements 0 st2 0 = .ret [] st2 ∧ GetSize st2 0 = some 0) ∧
    ∃ st1 st2, PushFront bumpAlloc scen2 0 9 = .ret () st1 ∧ PopFront st1 0 = .ret () st2 ∧
      elements 2 st2 0 = .ret [2, 1] st2 ∧ GetSize st2 0 = some 2 := by
  have hown : Owns scen2 0 [(1, 2), (0, 1)] :=
    ⟨.node 1, rfl, ⟨rfl, _, rfl, rfl, _, rfl, rfl⟩, by decide⟩
  have hown0 : Owns scen0 0 ([] : List (Nat × Nat)) := ⟨.null, rfl, rfl, by decide⟩
  obtain ⟨s1, s2, h1, h2, _, h4, h5⟩ :=
    C10_PushFront_PopFront_round_trip bumpAlloc bumpAlloc_ok scen0 0 [] 9 0 hown0 rfl
      (by decide)
  obtain ⟨t1, t2, g1, g2, _, g4, g5⟩ :=
    C10_PushFront_PopFront_round_trip bumpAlloc bumpAlloc_ok scen2 0 [(1, 2), (0, 1)] 9 2 hown
      rfl (by decide)
  exact ⟨bumpAlloc_ok, hown, hown0, ⟨s1, s2, h1, h2, (h5 0 le_rfl).2, h4⟩,
    t1, t2, g1, g2, (g5 2 le_rfl).2, g4⟩

end SLL

namespace SLL

/-! ## C11: insertion followed by removal at the same position -/

theorem posAt_insert {α : Type} (l : Nat) (cs : List (Nat × α)) (i : Nat) (c : Nat × α)
    (hi : i ≤ cs.length) : posAt l (cs.take i ++ c :: cs.drop i) i = posAt l cs i := by
  cases i with
  | zero => rfl
  | succ k =>
    have hk : k < (cs.take (k + 1)).length := by
      simp only [List.length_take]
      omega
    have h1 : (cs.take (k + 1) ++ c :: cs.drop (k + 1))[k]? = cs[k]? := by
      rw [List.getElem?_append_left hk, List.getElem?_take_of_lt (Nat.lt_succ_self k)]
    simp only [posAt, h1]

theorem drop_succ_append {α : Type} (pre post : List α) (x : α) :
    (pre ++ x :: post).drop (pre.length + 1) = post := by
  simp

/-- C11 (round trip): for a list `l` with nodes `cs`, a position with index
`i` (`0` is the sentinel) and a value `v`, when the allocation succeeds and
the intermediate size is a `size_t`: `InsertAfter(p, v)` followed by
`EraseAfter(p)` both return and leave `l` with the same nodes, the same
element sequence and the same `GetSize()` as before; the iterator returned by
`EraseAfter` references the node that followed `p` originally, which is
`end()` exactly when `p` was the last position. -/
theorem C11_InsertAfter_EraseAfter_round_trip {α : Type} (alloc : Allocator α)
    (hok : AllocOk alloc) (st : State α) (l : Nat) (cs : List (Nat × α)) (i : Nat) (v : α)
    (a : Nat) (hown : Owns st l cs) (hi : i ≤ cs.length) (ha : alloc st.heap = some a)
    (hroom : cs.length + 1 < SIZE_MOD) :
    ∃ st1 st2 r1 r2 succ, InsertAfter alloc st l (posAt l cs i) v = .ret r1 st1 ∧
      EraseAfter st1 l (posAt l cs i) = .ret r2 st2 ∧
      Owns st2 l cs ∧ GetSize st2 l = GetSize st l ∧
      (∀ fuel, cs.length ≤ fuel →
        elements fuel st l = .ret (cs.map Prod.snd) st ∧
        elements fuel st2 l = .ret (cs.map Prod.snd) st2) ∧
      loadNext st (posAt l cs i) = some succ ∧ r2 = succ ∧
      (succ = end_ ↔ i = cs.length) := by
  obtain ⟨st1, hret1, hown1, _⟩ :=
    InsertAfter_at alloc st l cs i v a hown hi ha (hok _ _ ha) hroom
  have hlen : (cs.take i).length = i := by simp [hi]
  have hi1 : i < (cs.take i ++ (a, v) :: cs.drop i).length := by
    simp only [List.length_append, List.length_cons, hlen]
    omega
  obtain ⟨st2, hret2, hown2, _⟩ := EraseAfter_at st1 l _ i hown1 hi1
  have htake : (cs.take i ++ (a, v) :: cs.drop i).take i = cs.take i := by
    have := List.take_left (cs.take i) ((a, v) :: cs.drop i)
    rwa [hlen] at this
  have hdrop : (cs.take i ++ (a, v) :: cs.drop i).drop (i + 1) = cs.drop i := by
    have := drop_succ_append (cs.take i) (cs.drop i) (a, v)
    rwa [hlen] at this
  rw [htake, hdrop, List.take_append_drop] at hown2
  rw [hdrop, posAt_insert l cs i (a, v) hi] at hret2
  refine ⟨st1, st2, _, _, firstPtr (cs.drop i), hret1, hret2, hown2,
    by rw [GetSize_owns hown2, GetSize_owns hown], ?_, loadNext_posAt hown i hi, rfl, ?_⟩
  · intro fuel hf
    exact ⟨elements_owns hown fuel hf, elements_owns hown2 fuel hf⟩
  · rw [end_, firstPtr_drop_null]
    omega

/-- Witness for C11: inserting `7` after the first node of the list `1, 2` of
`demoState` and erasing after the same node restores `1, 2`. -/
theorem C11_InsertAfter_EraseAfter_round_trip_witness :
    AllocOk (bumpAlloc : Allocator Nat) ∧ Owns demoState 0 [(0, 1), (1, 2)] ∧
    (bumpAlloc : Allocator Nat) demoState.heap = some 7 ∧
    ∃ st1 st2 r1 r2, InsertAfter bumpAlloc demoState 0 (.node 0) 7 = .ret r1 st1 ∧
      EraseAfter st1 0 (.node 0) = .ret r2 st2 ∧
      elements 2 st2 0 = .ret [1, 2] st2 ∧ GetSize st2 0 = some 2 ∧ r2 = .node 1 := by
  obtain ⟨st1, st2, r1, r2, succ, h1, h2, _, h4, h5, h6, h7, _⟩ :=
    C11_InsertAfter_EraseAfter_round_trip bumpAlloc bumpAlloc_ok demoState 0
      [(0, 1), (1, 2)] 1 7 7 demoState_owns0 (by decide) rfl (by decide)
  have hs : loadNext demoState (posAt 0 [(0, 1), (1, 2)] 1) = some (.node 1) := by decide
  rw [hs] at h6
  have hg : GetSize demoState 0 = some 2 := by decide
  exact ⟨bumpAlloc_ok, demoState_owns0, rfl, st1, st2, r1, r2, h1, h2, (h5 2 (by decide)).2,
    by rw [h4, hg], by rw [h7]; exact (Option.some.inj h6).symm⟩

end SLL

namespace SLL

/-! ## C14: swap -/

theorem Owns_obj {α : Type} {st : State α} {l : Nat} {cs : List (Nat × α)}
    (h : Owns st l cs) : Store.get st.objs l = some ⟨firstPtr cs, cs.length⟩ := by
  obtain ⟨p, hobj, hcells, _⟩ := h
  rw [hobj, Cells_firstPtr hcells]

theorem swap_owns {α : Type} (st : State α) (a b : Nat) (A B : List (Nat × α))
    (hA : Owns st a A) (hB : Owns st b B) :
    ∃ st2, swap st a b = .ret () st2 ∧ st2.heap = st.heap ∧ Owns st2 a B ∧ Owns st2 b A ∧
      ∀ x, x ≠ a → x ≠ b → Store.get st2.objs x = Store.get st.objs x := by
  obtain ⟨st2, hret, hheap, hga, hgb, hother⟩ :=
    swap_spec st a b _ _ (Owns_obj hA) (Owns_obj hB)
  refine ⟨st2, hret, hheap, ?_, ?_, hother⟩
  · exact Owns_transport hB (by rw [hga, Owns_obj hB]) (fun c _ => by rw [hheap])
  · exact Owns_transport hA (by rw [hgb, Owns_obj hA]) (fun c _ => by rw [hheap])

/-- C14: for lists `a` and `b` that satisfy the size invariant, with nodes `A`
and `B`: the member `swap` and the free function `swap` return; afterwards
`a` owns the nodes (element sequence and size) that `b` had and `b` those that
`a` had; the heap, so every node and every element value, is unchanged; and a
second `swap` restores both lists. -/
theorem C14_swap_exchanges_contents {α : Type} (st : State α) (a b : Nat)
    (A B : List (Nat × α)) (hA : Owns st a A) (hB : Owns st b B) :
    ∃ st2 st3, swap st a b = .ret () st2 ∧ swap_free st a b = .ret () st2 ∧
      st2.heap = st.heap ∧ Owns st2 a B ∧ Owns st2 b A ∧
      GetSize st2 a = GetSize st b ∧ GetSize st2 b = GetSize st a ∧
      (∀ fuel, A.length ≤ fuel → B.length ≤ fuel →
        elements fuel st2 a = .ret (B.map Prod.snd) st2 ∧
        elements fuel st b = .ret (B.map Prod.snd) st ∧
        elements fuel st2 b = .ret (A.map Prod.snd) st2 ∧
        elements fuel st a = .ret (A.map Prod.snd) st) ∧
      swap st2 a b = .ret () st3 ∧ st3.heap = st.heap ∧ Owns st3 a A ∧ Owns st3 b B := by
  obtain ⟨st2, hret, hheap, hA2, hB2, _⟩ := swap_owns st a b A B hA hB
  obtain ⟨st3, hret3, hheap3, hA3, hB3, _⟩ := swap_owns st2 a b B A hA2 hB2
  refine ⟨st2, st3, hret, hret, hheap, hA2, hB2,
    by rw [GetSize_owns hA2, GetSize_owns hB], by rw [GetSize_owns hB2, GetSize_owns hA],
    ?_, hret3, by rw [hheap3, hheap], hA3, hB3⟩
  intro fuel hfa hfb
  exact ⟨elements_owns hA2 fuel hfb, elements_owns hB fuel hfb, elements_owns hB2 fuel hfa,
    elements_owns hA fuel hfa⟩

/-- Witness for C14: swapping the lists `1, 2` and `1, 2, 3` of `demoState`. -/
theorem C14_swap_exchanges_contents_witness :
    Owns demoState 0 [(0, 1), (1, 2)] ∧ Owns demoState 1 [(2, 1), (3, 2), (4, 3)] ∧
    ∃ st2 st3, swap demoState 0 1 = .ret () st2 ∧ st2.heap = demoState.heap ∧
      elements 3 st2 0 = .ret [1, 2, 3] st2 ∧ elements 3 st2 1 = .ret [1, 2] st2 ∧
      GetSize st2 0 = some 3 ∧ GetSize st2 1 = some 2 ∧
      swap st2 0 1 = .ret () st3 ∧ Owns st3 0 [(0, 1), (1, 2)] := by
  obtain ⟨st2, st3, h1, _, h3, _, _, h6, h7, h8, h9, _, h11, _⟩ :=
    C14_swap_exchanges_contents demoState 0 1 _ _ demoState_owns0 demoState_owns1
  have hg0 : GetSize demoState 0 = some 2 := by decide
  have hg1 : GetSize demoState 1 = some 3 := by decide
  obtain ⟨e1, _, e3, _⟩ := h8 3 (by decide) (by decide)
  exact ⟨demoState_owns0, demoState_owns1, st2, st3, h1, h3, e1, e3, by rw [h6, hg1],
    by rw [h7, hg0], h9, h11⟩

/-! ## C17: the derived comparison operators -/

theorem mapRet_not_not {α : Type} (o : Outcome α Bool) :
    (o.mapRet (fun b => !b)).mapRet (fun b => !b) = o := by
  cases o <;> simp [Outcome.mapRet]

/-- C17: for all lists `a` and `b`, in every state and for every outcome of
the comparison, `a <= b` is the negation of `b < a`; `a > b` is the negation
of `a <= b` and therefore equals `b < a`; `a >= b` is the negation of `a < b`
and therefore equals `b <= a`. -/
theorem C17_derived_operators {α : Type} (lt : α → α → Bool) (fuel : Nat) (st : State α)
    (a b : Nat) :
    operator_le lt fuel st a b = (operator_lt lt fuel st b a).mapRet (fun r => !r) ∧
    operator_gt lt fuel st a b = (operator_le lt fuel st a b).mapRet (fun r => !r) ∧
    operator_gt lt fuel st a b = operator_lt lt fuel st b a ∧
    operator_ge lt fuel st a b = (operator_lt lt fuel st a b).mapRet (fun r => !r) ∧
    operator_ge lt fuel st a b = operator_le lt fuel st b a :=
  ⟨rfl, rfl, mapRet_not_not _, rfl, rfl⟩

/-- Witness for C17: in `demoState`, `{1, 3} > {1, 2, 3}` is true, and it is
the value of `{1, 2, 3} < {1, 3}`. -/
theorem C17_derived_operators_witness :
    operator_gt natLt 3 demoState 2 1 = .ret true demoState ∧
    operator_gt natLt 3 demoState 2 1 = operator_lt natLt 3 demoState 1 2 ∧
    operator_le natLt 3 demoState 2 1 = .ret false demoState ∧
    operator_ge natLt 3 demoState 2 1 = .ret true demoState :=
  ⟨by decide, (C17_derived_operators natLt 3 demoState 2 1).2.2.1, by decide, by decide⟩

/-! ## C20: the assertions of EraseAfter -/

/-- C20: for a list `l` that satisfies the size invariant (nodes `cs`) and a
position with index `i` of this list (`0` is the sentinel) whose next pointer
`nx` is not null, all three assertions of `EraseAfter` hold: the position is
not null, its next node is not null, and `size_ > 0`; so `EraseAfter` returns.
The third assertion follows from the first two and the invariant: a position
of the list with a next node is followed by a node of the list. -/
theorem C20_EraseAfter_assertions_hold {α : Type} (st : State α) (l : Nat)
    (cs : List (Nat × α)) (i : Nat) (nx : NodePtr) (hown : Owns st l cs) (hi : i ≤ cs.length)
    (hnext : loadNext st (posAt l cs i) = some nx) (hnx : nx ≠ .null) :
    posAt l cs i ≠ .null ∧
    (∃ o, Store.get st.objs l = some o ∧ 0 < o.size_) ∧
    i < cs.length ∧
    ∃ r st2, EraseAfter st l (posAt l cs i) = .ret r st2 := by
  have hlt : i < cs.length := by
    by_contra hge
    have hnull : firstPtr (cs.drop i) = .null := (firstPtr_drop_null cs i).2 (by omega)
    rw [loadNext_posAt hown i hi, hnull] at hnext
    exact hnx (Option.some.inj hnext).symm
  obtain ⟨st2, hret, _, _⟩ := EraseAfter_at st l cs i hown hlt
  have hpos : 0 < cs.length := by omega
  exact ⟨posAt_ne_null l cs i hi, ⟨_, Owns_obj hown, hpos⟩, hlt, _, st2, hret⟩

/-- Witness for C20: the sentinel of the list `1, 2` of `demoState`. -/
theorem C20_EraseAfter_assertions_hold_witness :
    Owns demoState 0 [(0, 1), (1, 2)] ∧
    loadNext demoState (posAt 0 [(0, 1), (1, 2)] 0) = some (.node 0) ∧
    ∃ r st2, EraseAfter demoState 0 (.head 0) = .ret r st2 :=
  ⟨demoState_owns0, by decide,
    (C20_EraseAfter_assertions_hold demoState 0 [(0, 1), (1, 2)] 0 (.node 0) demoState_owns0
      (by decide) (by decide) (by decide)).2.2.2⟩

end SLL

namespace SLL

/-! ## C15: Clear -/

theorem IsEmpty_owns {α : Type} {st : State α} {l : Nat} {cs : List (Nat × α)}
    (h : Owns st l cs) : IsEmpty st l = some (decide (cs.length = 0)) := by
  simp [IsEmpty, Owns_obj h]

theorem ClearTrace_of_owns {α : Type} (st : State α) (l : Nat) (cs : List (Nat × α))
    (hown : Owns st l cs) :
    ∃ st2, ClearLoop cs.length st l = .ret () st2 ∧ ClearTrace l cs.length st st2 ∧
      Owns st2 l [] := by
  induction cs generalizing st with
  | nil =>
    have he : IsEmpty st l = some true := by simpa using IsEmpty_owns hown
    exact ⟨st, by simp [ClearLoop, he], ClearTrace.done st he, hown⟩
  | cons c cs ih =>
    have he : IsEmpty st l = some false := by simpa using IsEmpty_owns hown
    obtain ⟨st1, hpop, hown1, _⟩ := PopFront_spec st l c cs hown
    obtain ⟨st2, hloop, htrace, hown2⟩ := ih st1 hown1
    refine ⟨st2, by simp [ClearLoop, he, hpop, hloop], ?_, hown2⟩
    exact ClearTrace.pop st st1 st2 cs.length he
      ⟨_, Owns_obj hown, by simp, by simp [firstPtr]⟩ hpop htrace

theorem ClearTrace_deterministic {α : Type} {l n m : Nat} {st s1 s2 : State α}
    (h1 : ClearTrace l n st s1) (h2 : ClearTrace l m st s2) : n = m ∧ s1 = s2 := by
  induction h1 generalizing m s2 with
  | done st he =>
    cases h2 with
    | done _ _ => exact ⟨rfl, rfl⟩
    | pop _ st1 _ k he2 _ _ _ =>
      rw [he] at he2
      cases he2
  | pop st st1 st2 k he _ hpop _ ih =>
    cases h2 with
    | done _ he2 =>
      rw [he] at he2
      cases he2
    | pop _ st1b _ k2 _ _ hpop2 htr2 =>
      rw [hpop] at hpop2
      injection hpop2 with _ hst
      subst hst
      obtain ⟨hk, hs⟩ := ih htr2
      exact ⟨by rw [hk], hs⟩

/-- C15: for a list `l` that satisfies the size invariant, `Clear()` returns
after a run of its loop with exactly `GetSize()` calls of `PopFront`, each
made with `size_ > 0` and a non-null first node (no run of the loop has any
other number of calls); afterwards the list is empty: `GetSize()` is 0,
`IsEmpty()` is true and `begin() == end()`. -/
theorem C15_Clear_pops_size_times {α : Type} (st : State α) (l : Nat) (cs : List (Nat × α))
    (hown : Owns st l cs) :
    ∃ st2, Clear st l = .ret () st2 ∧ GetSize st l = some cs.length ∧
      ClearTrace l cs.length st st2 ∧
      (∀ n s, ClearTrace l n st s → n = cs.length ∧ s = st2) ∧
      GetSize st2 l = some 0 ∧ IsEmpty st2 l = some true ∧ begin_ st2 l = some end_ ∧
      ∀ fuel, elements fuel st2 l = .ret [] st2 := by
  obtain ⟨st2, hloop, htrace, hown2⟩ := ClearTrace_of_owns st l cs hown
  refine ⟨st2, by simp [Clear, GetSize_owns hown, hloop], GetSize_owns hown, htrace, ?_,
    GetSize_owns hown2, by simpa using IsEmpty_owns hown2, begin_owns hown2, ?_⟩
  · intro n s h
    exact ClearTrace_deterministic h htrace
  · intro fuel
    exact elements_owns hown2 fuel (Nat.zero_le _)

/-- Witness for C15: `Clear()` on the list `1, 2, 3` of `demoState` makes
three calls of `PopFront`. -/
theorem C15_Clear_pops_size_times_witness :
    Owns demoState 1 [(2, 1), (3, 2), (4, 3)] ∧
    ∃ st2, Clear demoState 1 = .ret () st2 ∧ ClearTrace 1 3 demoState st2 ∧
      GetSize st2 1 = some 0 ∧ IsEmpty st2 1 = some true ∧ begin_ st2 1 = some end_ := by
  obtain ⟨st2, h1, _, h3, _, h5, h6, h7, _⟩ :=
    C15_Clear_pops_size_times demoState 1 [(2, 1), (3, 2), (4, 3)] demoState_owns1
  exact ⟨demoState_owns1, st2, h1, h3, h5, h6, h7⟩

/-! ## C16: emptiness -/

/-- C16: a default-constructed list is empty (`IsEmpty()` is true, `GetSize()`
is 0 and `begin() == end()`); and for every live list of every state reachable
through the public operations within their preconditions the three notions of
emptiness agree: `IsEmpty()` is true exactly when `GetSize()` is 0, exactly
when `begin() == end()`. -/
theorem C16_emptiness_notions_agree {α : Type} (alloc : Allocator α) :
    (∀ (st : State α) (l : Nat),
      IsEmpty (ctor_default st l) l = some true ∧ GetSize (ctor_default st l) l = some 0 ∧
      begin_ (ctor_default st l) l = some end_) ∧
    (AllocOk alloc → AllocInSpace alloc → ∀ (st : State α), Reachable alloc st →
      ∀ (l : Nat) (o : ListObj), Store.get st.objs l = some o →
      ∃ (e : Bool) (n : Nat) (p : NodePtr),
        IsEmpty st l = some e ∧ GetSize st l = some n ∧ begin_ st l = some p ∧
        (e = true ↔ n = 0) ∧ (n = 0 ↔ p = end_)) := by
  refine ⟨?_, ?_⟩
  · intro st l
    have h := Owns_ctor_default st l
    exact ⟨by simpa using IsEmpty_owns h, GetSize_owns h, begin_owns h⟩
  · intro hok hsp st hreach l o hlive
    obtain ⟨cs, hown⟩ := (hreach.all_wf hok hsp).2.1 l o hlive
    refine ⟨_, _, _, IsEmpty_owns hown, GetSize_owns hown, begin_owns hown, by simp, ?_⟩
    cases cs with
    | nil => simp [firstPtr, end_]
    | cons c cs => simp [firstPtr, end_]

/-- Witness for C16: the reachable state with the list `1, 2, 3`, which is
not empty under any of the three notions. -/
theorem C16_emptiness_notions_agree_witness :
    AllocOk (boundedAlloc 8 : Allocator Nat) ∧ AllocInSpace (boundedAlloc 8 : Allocator Nat) ∧
    Reachable (boundedAlloc 8)
      (⟨[(1, ⟨2, .node 2⟩), (2, ⟨3, .null⟩), (0, ⟨1, .node 1⟩)], [(0, ⟨.node 0, 3⟩)]⟩ :
        State Nat) ∧
    ∃ (e : Bool) (n : Nat) (p : NodePtr),
      IsEmpty (⟨[(1, ⟨2, .node 2⟩), (2, ⟨3, .null⟩), (0, ⟨1, .node 1⟩)], [(0, ⟨.node 0, 3⟩)]⟩ :
        State Nat) 0 = some e ∧ (e = true ↔ n = 0) ∧ (n = 0 ↔ p = end_) := by
  have hsp : AllocInSpace (boundedAlloc 8 : Allocator Nat) :=
    boundedAlloc_inSpace 8 (by decide)
  have hreach : Reachable (boundedAlloc 8)
      (⟨[(1, ⟨2, .node 2⟩), (2, ⟨3, .null⟩), (0, ⟨1, .node 1⟩)], [(0, ⟨.node 0, 3⟩)]⟩ :
        State Nat) :=
    Reachable.step _ _ Reachable.init (Step.ctor_init _ _ 0 [1, 2, 3] rfl)
  obtain ⟨e, n, p, h1, _, _, h4, h5⟩ :=
    (C16_emptiness_notions_agree (boundedAlloc 8)).2 (boundedAlloc_ok 8) hsp _ hreach 0
      ⟨.node 0, 3⟩ rfl
  exact ⟨boundedAlloc_ok 8, hsp, hreach, e, n, p, h1, h4, h5⟩

end SLL

namespace SLL

/-! ## Deallocation by Clear and the destructor -/

theorem SameContent.owns {α : Type} {st st2 : State α} (h : SameContent st st2) {x : Nat}
    {cs : List (Nat × α)} (hown : Owns st x cs) : Owns st2 x cs :=
  Owns_transport hown (h.1 x) (fun c _ => h.2 c.1)

theorem PopFront_frees {α : Type} {st st2 : State α} {l : Nat} {c : Nat × α}
    {cs : List (Nat × α)} (hown : Owns st l (c :: cs)) (hret : PopFront st l = .ret () st2) :
    Store.get st2.heap c.1 = none := by
  obtain ⟨p, hobj, hcells, hlt⟩ := hown
  obtain ⟨hp, nx, hget, hrest⟩ := hcells
  subst hp
  have hlt2 : cs.length + 1 < SIZE_MOD := by simpa using hlt
  have h : PopFront st l =
      .ret () ⟨Store.del st.heap c.1, Store.set st.objs l ⟨nx, cs.length⟩⟩ := by
    simp [PopFront, hobj, loadNext, hget, setSize, Store.get_set, deleteNode,
      sizeDec_succ hlt2, Store.set_set]
  rw [h] at hret
  injection hret with _ hst
  rw [← hst]
  simp [Store.get_del]

theorem ClearLoop_frees {α : Type} (st : State α) (l : Nat) (cs : List (Nat × α))
    (hown : Owns st l cs) (st2 : State α) (hret : ClearLoop cs.length st l = .ret () st2) :
    ∀ c ∈ cs, Store.get st2.heap c.1 = none := by
  induction cs generalizing st with
  | nil => intro c hc; cases hc
  | cons c cs ih =>
    have he : IsEmpty st l = some false := by simpa using IsEmpty_owns hown
    obtain ⟨st1, hpop, hown1, _⟩ := PopFront_spec st l c cs hown
    have hfree := PopFront_frees hown hpop
    have hloop : ClearLoop cs.length st1 l = .ret () st2 := by
      simpa [ClearLoop, he, hpop] using hret
    obtain ⟨st2b, hloop2, _, hmut⟩ := ClearLoop_spec st1 l cs hown1 cs.length le_rfl
    rw [hloop] at hloop2
    injection hloop2 with _ hst
    subst hst
    have hhead : Cells st.heap (.node c.1) (c :: cs) := by
      obtain ⟨p, _, hcells, _⟩ := hown
      have := hcells
      rw [hcells.1] at this
      exact this
    have hnd := Cells_head_not_mem hhead
    intro d hd
    rcases List.mem_cons.1 hd with rfl | hd
    · rw [hmut.heap_other d.1 (fun e he hed => hnd e he hed) (fun e he => by cases he)]
      exact hfree
    · exact ih st1 hown1 hloop d hd

theorem dtor_full {α : Type} (st : State α) (t : Nat) (cs : List (Nat × α))
    (hown : Owns st t cs) :
    ∃ st2, dtor st t = .ret () st2 ∧ Store.get st2.objs t = none ∧
      (∀ x, x ≠ t → Store.get st2.objs x = Store.get st.objs x) ∧
      (∀ b, (∀ c ∈ cs, c.1 ≠ b) → Store.get st2.heap b = Store.get st.heap b) ∧
      (∀ c ∈ cs, Store.get st2.heap c.1 = none) := by
  obtain ⟨st1, hloop, _, hmut⟩ := ClearLoop_spec st t cs hown cs.length le_rfl
  have hfree := ClearLoop_frees st t cs hown st1 hloop
  refine ⟨⟨st1.heap, Store.del st1.objs t⟩, by simp [dtor, Clear, GetSize_owns hown, hloop],
    by simp [Store.get_del], ?_, ?_, hfree⟩
  · intro x hx
    simp [Store.get_del, Ne.symm hx, hmut.objs_other x hx]
  · intro b hb
    exact hmut.heap_other b hb (fun c hc => by cases hc)

theorem Owns_nil_of_obj {α : Type} {st : State α} {l : Nat}
    (h : Store.get st.objs l = some ⟨.null, 0⟩) : Owns st l ([] : List (Nat × α)) :=
  ⟨.null, h, rfl, by simp [SIZE_MOD]⟩

theorem ConstructFinish_ret {α : Type} (l t : Nat) (hlt : l ≠ t) (s : State α) (r : NodePtr)
    (new : List (Nat × α)) (hl : Owns s l ([] : List (Nat × α))) (ht : Owns s t new) :
    ∃ st2, ConstructFinish l t (.ret r s) = .ret () st2 ∧ Owns st2 l new ∧
      Store.get st2.objs t = none ∧ (∀ b, Store.get st2.heap b = Store.get s.heap b) ∧
      ∀ x, x ≠ l → x ≠ t → Store.get st2.objs x = Store.get s.objs x := by
  obtain ⟨s1, hswap, hheap, hl1, ht1, hother⟩ := swap_owns s l t [] new hl ht
  obtain ⟨s2, hd, hgone, hobjs, hkeep, _⟩ := dtor_full s1 t [] ht1
  have hheap2 : ∀ b, Store.get s2.heap b = Store.get s1.heap b :=
    fun b => hkeep b (fun c hc => by cases hc)
  refine ⟨s2, by simp [ConstructFinish, hswap, hd], ?_, hgone, ?_, ?_⟩
  · exact Owns_transport hl1 (hobjs l hlt) (fun c _ => hheap2 c.1)
  · intro b
    rw [hheap2 b, hheap]
  · intro x hxl hxt
    rw [hobjs x hxt, hother x hxl hxt]

theorem ConstructFinish_throw {α : Type} (l t : Nat) (s : State α) (part : List (Nat × α))
    (ht : Owns s t part) :
    ∃ st2, ConstructFinish l t (.bad_alloc s) = .bad_alloc st2 ∧
      Store.get st2.objs t = none ∧
      (∀ x, x ≠ t → Store.get st2.objs x = Store.get s.objs x) ∧
      (∀ b, (∀ c ∈ part, c.1 ≠ b) → Store.get st2.heap b = Store.get s.heap b) ∧
      (∀ c ∈ part, Store.get st2.heap c.1 = none) := by
  obtain ⟨s2, hd, hgone, hobjs, hkeep, hfree⟩ := dtor_full s t part ht
  exact ⟨s2, by simp [ConstructFinish, unwind, hd], hgone, hobjs, hkeep, hfree⟩

end SLL

namespace SLL

/-! ## The two exits of Construct -/

theorem Construct_exit_ret {α : Type} (st s : State α) (l t : Nat) (r : NodePtr)
    (new : List (Nat × α)) (hl : Owns st l ([] : List (Nat × α)))
    (hfresh : Store.get st.objs t = none) (hown : Owns s t new)
    (hmut : Mut (ctor_default st t) s t [] new) :
    ∃ st2, ConstructFinish l t (.ret r s) = .ret () st2 ∧ Owns st2 l new ∧
      Mut st st2 l [] new := by
  have hlt : l ≠ t := by
    intro h
    rw [← h, Owns_obj hl] at hfresh
    cases hfresh
  have hl0 : Owns (ctor_default st t) l ([] : List (Nat × α)) :=
    Owns_transport hl (by simp [ctor_default, Store.get_set, Ne.symm hlt]) (fun _ _ => rfl)
  have hl1 : Owns s l ([] : List (Nat × α)) :=
    hmut.owns_other hlt hl0 (fun c hc => by cases hc)
  obtain ⟨st2, hret, hown2, hgone, hheap, hobjs⟩ := ConstructFinish_ret l t hlt s r new hl1 hown
  refine ⟨st2, hret, hown2, ?_, ?_, ?_, ?_⟩
  · intro x hxl
    by_cases hxt : x = t
    · rw [hxt, hgone, hfresh]
    · rw [hobjs x hxl hxt, hmut.objs_other x hxt]
      simp [ctor_default, Store.get_set, Ne.symm hxt]
  · intro b _ hb
    rw [hheap b, hmut.heap_other b (fun c hc => by cases hc) hb]
    rfl
  · intro c hc
    rcases hmut.fresh_new c hc with ⟨d, hd, _⟩ | hfree
    · cases hd
    · exact Or.inr hfree
  · intro b hb
    rw [hheap b] at hb
    exact hmut.heap_dom b hb

theorem Construct_exit_throw {α : Type} (st s : State α) (l t : Nat) (part : List (Nat × α))
    (hfresh : Store.get st.objs t = none) (hown : Owns s t part)
    (hmut : Mut (ctor_default st t) s t [] part) :
    ∃ st2, ConstructFinish l t (.bad_alloc s) = .bad_alloc st2 ∧ SameContent st st2 := by
  obtain ⟨st2, hret, hgone, hobjs, hkeep, hfree⟩ := ConstructFinish_throw l t s part hown
  refine ⟨st2, hret, ?_, ?_⟩
  · intro x
    by_cases hxt : x = t
    · rw [hxt, hgone, hfresh]
    · rw [hobjs x hxt, hmut.objs_other x hxt]
      simp [ctor_default, Store.get_set, Ne.symm hxt]
  · intro b
    by_cases hin : ∃ c ∈ part, c.1 = b
    · obtain ⟨c, hc, hcb⟩ := hin
      rw [← hcb, hfree c hc]
      rcases hmut.fresh_new c hc with ⟨d, hd, _⟩ | hf
      · cases hd
      · exact hf.symm
    · have hb : ∀ c ∈ part, c.1 ≠ b := fun c hc hcb => hin ⟨c, hc, hcb⟩
      rw [hkeep b hb, hmut.heap_other b (fun c hc => by cases hc) hb]
      rfl

/-- Construction from an initializer list, with the footprint of both exits:
a normal return leaves the new nodes in `l` and touches nothing else; a
propagated `std::bad_alloc` leaves the state as it was. -/
theorem Construct_full {α : Type} (alloc : Allocator α) (hok : AllocOk alloc)
    (st : State α) (l : Nat) (S : List α) (hS : S.length < SIZE_MOD)
    (hl : Owns st l ([] : List (Nat × α))) :
    (∃ st2 new, Construct alloc st l S = .ret () st2 ∧ new.map Prod.snd = S ∧
        Owns st2 l new ∧ Mut st st2 l [] new) ∨
    (∃ st2, Construct alloc st l S = .bad_alloc st2 ∧ (∃ h, alloc h = none) ∧
        SameContent st st2) := by
  have hfr : Store.get st.objs (Store.fresh st.objs) = none := Store.get_fresh _
  have hroom : ([] : List (Nat × α)).length + S.length < SIZE_MOD := by simpa using hS
  rcases ConstructLoop_spec alloc hok S (ctor_default st (Store.fresh st.objs))
      (Store.fresh st.objs) [] (Owns_ctor_default st _) hroom with
    ⟨s, new, hret, hvals, hown, hmut⟩ | ⟨s, part, hret, hnone, hown, hmut⟩
  · left
    simp only [List.nil_append] at hret hown hmut
    have hret2 : ConstructLoop alloc S (ctor_default st (Store.fresh st.objs))
        (Store.fresh st.objs) (.head (Store.fresh st.objs)) = .ret _ s := hret
    obtain ⟨st2, hfin, hown2, hmut2⟩ :=
      Construct_exit_ret st s l _ (posAt (Store.fresh st.objs) new new.length) new hl hfr hown
        hmut
    exact ⟨st2, new, by simp [Construct, before_begin, hret2, hfin], hvals, hown2, hmut2⟩
  · right
    simp only [List.nil_append] at hown hmut
    have hret2 : ConstructLoop alloc S (ctor_default st (Store.fresh st.objs))
        (Store.fresh st.objs) (.head (Store.fresh st.objs)) = .bad_alloc s := hret
    obtain ⟨st2, hfin, hsame⟩ := Construct_exit_throw st s l _ part hfr hown hmut
    exact ⟨st2, by simp [Construct, before_begin, hret2, hfin], ⟨_, hnone⟩, hsame⟩

end SLL

namespace SLL

/-! ## Construction from another list -/

theorem ConstructFromLoop_spec {α : Type} (alloc : Allocator α) (hok : AllocOk alloc)
    (t other : Nat) (hto : other ≠ t) (rest : List (Nat × α)) (fuel : Nat) (st : State α)
    (new done : List (Nat × α)) (hsrc : Owns st other (done ++ rest)) (hown : Owns st t new)
    (hdisj : ∀ c ∈ new, ∀ d ∈ done ++ rest, c.1 ≠ d.1)
    (hroom : new.length + rest.length < SIZE_MOD) (hfuel : rest.length ≤ fuel) :
    (∃ st2 new2, ConstructFromLoop alloc fuel st t (posAt t new new.length) (firstPtr rest) =
        .ret (posAt t (new ++ new2) (new ++ new2).length) st2 ∧
        new2.map Prod.snd = rest.map Prod.snd ∧
        Owns st2 t (new ++ new2) ∧ Mut st st2 t new (new ++ new2)) ∨
    (∃ st2 new2, ConstructFromLoop alloc fuel st t (posAt t new new.length) (firstPtr rest) =
        .bad_alloc st2 ∧ alloc st2.heap = none ∧
        Owns st2 t (new ++ new2) ∧ Mut st st2 t new (new ++ new2)) := by
  induction rest generalizing fuel st new done with
  | nil =>
    left
    refine ⟨st, [], ?_, rfl, by simpa using hown, by simpa using Mut.refl st t new⟩
    unfold ConstructFromLoop
    simp [firstPtr, end_]
  | cons d rest ih =>
    cases fuel with
    | zero => simp at hfuel
    | succ f =>
      have hcell := Owns_cell hsrc
      have hderef : Iterator_deref st (.node d.1) = .ret d.2 st := by
        simp [Iterator_deref, loadValue, hcell]
      cases ha : alloc st.heap with
      | none =>
        right
        refine ⟨st, [], ?_, ha, by simpa using hown, by simpa using Mut.refl st t new⟩
        unfold ConstructFromLoop
        simp [firstPtr, end_, hderef,
          InsertAfter_fail alloc st t new new.length d.2 hown le_rfl ha]
      | some a =>
        have hroom1 : new.length + 1 < SIZE_MOD := by
          simp only [List.length_cons] at hroom
          omega
        obtain ⟨st1, hins, hown1, hmut1⟩ :=
          InsertAfter_at alloc st t new new.length d.2 a hown le_rfl ha (hok _ _ ha) hroom1
        simp only [List.take_length, List.drop_length] at hown1 hmut1
        have hsrc1 : Owns st1 other (done ++ d :: rest) :=
          hmut1.owns_other hto hsrc hdisj
        have hcell1 := Owns_cell hsrc1
        have hincr : Iterator_incr st1 (.node d.1) = .ret (firstPtr rest) st1 := by
          simp [Iterator_incr, loadNext, hcell1]
        have hstep : ConstructFromLoop alloc (f + 1) st t (posAt t new new.length)
              (firstPtr (d :: rest)) =
            ConstructFromLoop alloc f st1 t
              (posAt t (new ++ [(a, d.2)]) (new ++ [(a, d.2)]).length) (firstPtr rest) := by
          rw [posAt_last_snoc]
          conv_lhs => unfold ConstructFromLoop
          simp [firstPtr, end_, hderef, hins, hincr]
        have hsrc2 : Owns st1 other ((done ++ [d]) ++ rest) := by
          simpa using hsrc1
        have hdisj2 : ∀ c ∈ new ++ [(a, d.2)], ∀ e ∈ (done ++ [d]) ++ rest, c.1 ≠ e.1 := by
          intro c hc e he
          have he2 : e ∈ done ++ d :: rest := by simpa using he
          rcases List.mem_append.1 hc with hc | hc
          · exact hdisj c hc e he2
          · have hca : c = (a, d.2) := by simpa using hc
            subst hca
            intro hae
            have := Owns_mem_get hsrc he2
            rw [← hae] at this
            exact this (hok _ _ ha)
        have hroom2 : (new ++ [(a, d.2)]).length + rest.length < SIZE_MOD := by
          simp only [List.length_cons, List.length_append, List.length_nil] at hroom ⊢
          omega
        have hmid : ∀ new2 : List (Nat × α), ∀ c ∈ new ++ [(a, d.2)],
            (∃ e ∈ new, e.1 = c.1) ∨ (∃ e ∈ new ++ (a, d.2) :: new2, e.1 = c.1) := by
          intro new2 c hc
          right
          refine ⟨c, ?_, rfl⟩
          rcases List.mem_append.1 hc with hc | hc
          · simp [hc]
          · simp at hc
            simp [hc]
        rcases ih f st1 (new ++ [(a, d.2)]) (done ++ [d]) hsrc2 hown1 hdisj2 hroom2
            (by simpa using hfuel) with
          ⟨st2, new2, hret, hvals, hown2, hmut2⟩ | ⟨st2, new2, hret, hnone, hown2, hmut2⟩
        · left
          rw [List.append_assoc] at hret hown2 hmut2
          refine ⟨st2, (a, d.2) :: new2, ?_, by simp [hvals], hown2, ?_⟩
          · rw [hstep]; exact hret
          · exact Mut.trans hmut1 hmut2 (fun e he => Owns_mem_get hown he) (hmid new2)
        · right
          rw [List.append_assoc] at hown2 hmut2
          refine ⟨st2, (a, d.2) :: new2, ?_, hnone, hown2, ?_⟩
          · rw [hstep]; exact hret
          · exact Mut.trans hmut1 hmut2 (fun e he => Owns_mem_get hown he) (hmid new2)

end SLL

namespace SLL

theorem ne_of_live_of_dead {α : Type} {st : State α} {x t : Nat} {cs : List (Nat × α)}
    (hx : Owns st x cs) (ht : Store.get st.objs t = none) : x ≠ t := by
  intro h
  rw [← h, Owns_obj hx] at ht
  cases ht

/-- Construction from another list, with the footprint of both exits. -/
theorem ConstructFrom_full {α : Type} (alloc : Allocator α) (hok : AllocOk alloc)
    (fuel : Nat) (st : State α) (l other : Nat) (src : List (Nat × α))
    (hl : Owns st l ([] : List (Nat × α))) (hsrc : Owns st other src)
    (hfuel : src.length ≤ fuel) :
    (∃ st2 new, ConstructFrom alloc fuel st l other = .ret () st2 ∧
        new.map Prod.snd = src.map Prod.snd ∧ Owns st2 l new ∧ Mut st st2 l [] new) ∨
    (∃ st2, ConstructFrom alloc fuel st l other = .bad_alloc st2 ∧ (∃ h, alloc h = none) ∧
        SameContent st st2) := by
  have hfr : Store.get st.objs (Store.fresh st.objs) = none := Store.get_fresh _
  have hto : other ≠ Store.fresh st.objs := ne_of_live_of_dead hsrc hfr
  have hsrc0 : Owns (ctor_default st (Store.fresh st.objs)) other src :=
    Owns_transport hsrc (by simp [ctor_default, Store.get_set, Ne.symm hto]) (fun _ _ => rfl)
  have hbegin : begin_ (ctor_default st (Store.fresh st.objs)) other = some (firstPtr src) :=
    begin_owns hsrc0
  have hroom : ([] : List (Nat × α)).length + src.length < SIZE_MOD := by
    obtain ⟨_, _, _, hlt⟩ := hsrc
    simpa using hlt
  rcases ConstructFromLoop_spec alloc hok (Store.fresh st.objs) other hto src fuel
      (ctor_default st (Store.fresh st.objs)) [] [] (by simpa using hsrc0)
      (Owns_ctor_default st _) (fun c hc => by cases hc) hroom hfuel with
    ⟨s, new, hret, hvals, hown, hmut⟩ | ⟨s, part, hret, hnone, hown, hmut⟩
  · left
    simp only [List.nil_append] at hret hown hmut
    have hret2 : ConstructFromLoop alloc fuel (ctor_default st (Store.fresh st.objs))
        (Store.fresh st.objs) (.head (Store.fresh st.objs)) (firstPtr src) = .ret _ s := hret
    obtain ⟨st2, hfin, hown2, hmut2⟩ :=
      Construct_exit_ret st s l _ (posAt (Store.fresh st.objs) new new.length) new hl hfr hown
        hmut
    exact ⟨st2, new, by simp [ConstructFrom, hbegin, before_begin, hret2, hfin], hvals, hown2,
      hmut2⟩
  · right
    simp only [List.nil_append] at hown hmut
    have hret2 : ConstructFromLoop alloc fuel (ctor_default st (Store.fresh st.objs))
        (Store.fresh st.objs) (.head (Store.fresh st.objs)) (firstPtr src) =
        .bad_alloc s := hret
    obtain ⟨st2, hfin, hsame⟩ := Construct_exit_throw st s l _ part hfr hown hmut
    exact ⟨st2, by simp [ConstructFrom, hbegin, before_begin, hret2, hfin], ⟨_, hnone⟩, hsame⟩

theorem Mut_of_ctor_default {α : Type} {st st2 : State α} {l : Nat} {new : List (Nat × α)}
    (h : Mut (ctor_default st l) st2 l [] new) : Mut st st2 l [] new := by
  refine ⟨?_, h.heap_other, h.fresh_new, h.heap_dom⟩
  intro x hx
  rw [h.objs_other x hx]
  simp [ctor_default, Store.get_set, Ne.symm hx]

theorem SameContent_ctorExit {α : Type} {st s : State α} {l : Nat}
    (hdead : Store.get st.objs l = none) (h : SameContent (ctor_default st l) s) :
    SameContent st (⟨s.heap, Store.del s.objs l⟩ : State α) := by
  refine ⟨?_, h.2⟩
  intro x
  by_cases hx : l = x
  · subst hx
    simp [Store.get_del, hdead]
  · simp only [Store.get_del, hx, if_false]
    rw [h.1 x]
    simp [ctor_default, Store.get_set, hx]

/-- The constructor from an initializer list on fresh storage `l`, with the
footprint of both exits. -/
theorem ctor_init_full {α : Type} (alloc : Allocator α) (hok : AllocOk alloc)
    (st : State α) (l : Nat) (S : List α) (hS : S.length < SIZE_MOD)
    (hdead : Store.get st.objs l = none) :
    (∃ st2 new, ctor_init alloc st l S = .ret () st2 ∧ new.map Prod.snd = S ∧
        Owns st2 l new ∧ Mut st st2 l [] new) ∨
    (∃ st2, ctor_init alloc st l S = .bad_alloc st2 ∧ (∃ h, alloc h = none) ∧
        SameContent st st2) := by
  rcases Construct_full alloc hok (ctor_default st l) l S hS (Owns_ctor_default st l) with
    ⟨st2, new, hret, hvals, hown, hmut⟩ | ⟨s, hret, hnone, hsame⟩
  · exact Or.inl ⟨st2, new, by simp [ctor_init, hret, ctorExit], hvals, hown,
      Mut_of_ctor_default hmut⟩
  · exact Or.inr ⟨⟨s.heap, Store.del s.objs l⟩, by simp [ctor_init, hret, ctorExit], hnone,
      SameContent_ctorExit hdead hsame⟩

/-- The copy constructor on fresh storage `l`, with the footprint of both
exits. -/
theorem ctor_copy_full {α : Type} (alloc : Allocator α) (hok : AllocOk alloc)
    (fuel : Nat) (st : State α) (l other : Nat) (src : List (Nat × α))
    (hdead : Store.get st.objs l = none) (hsrc : Owns st other src)
    (hfuel : src.length ≤ fuel) :
    (∃ st2 new, ctor_copy alloc fuel st l other = .ret () st2 ∧
        new.map Prod.snd = src.map Prod.snd ∧ Owns st2 l new ∧ Mut st st2 l [] new) ∨
    (∃ st2, ctor_copy alloc fuel st l other = .bad_alloc st2 ∧ (∃ h, alloc h = none) ∧
        SameContent st st2) := by
  have hol : other ≠ l := ne_of_live_of_dead hsrc hdead
  have hsrc0 : Owns (ctor_default st l) other src :=
    Owns_transport hsrc (by simp [ctor_default, Store.get_set, Ne.symm hol]) (fun _ _ => rfl)
  rcases ConstructFrom_full alloc hok fuel (ctor_default st l) l other src
      (Owns_ctor_default st l) hsrc0 hfuel with
    ⟨st2, new, hret, hvals, hown, hmut⟩ | ⟨s, hret, hnone, hsame⟩
  · exact Or.inl ⟨st2, new, by simp [ctor_copy, hret, ctorExit], hvals, hown,
      Mut_of_ctor_default hmut⟩
  · exact Or.inr ⟨⟨s.heap, Store.del s.objs l⟩, by simp [ctor_copy, hret, ctorExit], hnone,
      SameContent_ctorExit hdead hsame⟩

theorem Mut.fresh_disjoint {α : Type} {st st2 : State α} {l x : Nat}
    {new ds : List (Nat × α)} (hm : Mut st st2 l [] new) (hx : Owns st x ds) :
    ∀ c ∈ new, ∀ d ∈ ds, c.1 ≠ d.1 := by
  intro c hc d hd hcd
  rcases hm.fresh_new c hc with ⟨e, he, _⟩ | hfree
  · cases he
  · rw [hcd] at hfree
    exact Owns_mem_get hx hd hfree

/-- The copy assignment `l = r`, with the footprint of both exits: after a
normal return `l` owns fresh nodes holding the values of `r`, and every other
list whose nodes were disjoint from those of `l` is untouched; a propagated
`std::bad_alloc` leaves the state as it was. -/
theorem operator_assign_full {α : Type} (alloc : Allocator α) (hok : AllocOk alloc)
    (fuel : Nat) (st : State α) (l r : Nat) (A B : List (Nat × α))
    (hA : Owns st l A) (hB : Owns st r B) (hfuel : B.length ≤ fuel) :
    (∃ st2 new, operator_assign alloc fuel st l r = .ret () st2 ∧
        new.map Prod.snd = B.map Prod.snd ∧ Owns st2 l new ∧
        (∀ c ∈ new, Store.get st.heap c.1 = none) ∧
        (∀ x ds, x ≠ l → Owns st x ds → (∀ c ∈ A, ∀ d ∈ ds, c.1 ≠ d.1) → Owns st2 x ds)) ∨
    (∃ st2, operator_assign alloc fuel st l r = .bad_alloc st2 ∧ (∃ h, alloc h = none) ∧
        SameContent st st2) := by
  have hfr : Store.get st.objs (Store.fresh st.objs) = none := Store.get_fresh _
  have hlt : l ≠ Store.fresh st.objs := ne_of_live_of_dead hA hfr
  rcases ctor_copy_full alloc hok fuel st (Store.fresh st.objs) r B hfr hB hfuel with
    ⟨st1, new, hret, hvals, hown, hmut⟩ | ⟨st1, hret, hnone, hsame⟩
  · left
    have hA1 : Owns st1 l A := hmut.owns_other hlt hA (fun c hc => by cases hc)
    obtain ⟨st2, hswap, hheap, hl2, ht2, hother⟩ := swap_owns st1 l _ A new hA1 hown
    obtain ⟨st3, hd, _, hobjs, hkeep, _⟩ := dtor_full st2 _ A ht2
    have hnewA : ∀ c ∈ new, ∀ d ∈ A, c.1 ≠ d.1 := hmut.fresh_disjoint hA
    refine ⟨st3, new, by simp [operator_assign, hret, hswap, hd], hvals, ?_, ?_, ?_⟩
    · refine Owns_transport hl2 (hobjs l hlt) ?_
      intro c hc
      exact hkeep c.1 (fun d hd hdc => hnewA c hc d hd hdc.symm)
    · intro c hc
      rcases hmut.fresh_new c hc with ⟨e, he, _⟩ | hfree
      · cases he
      · exact hfree
    · intro x ds hxl hx hdisj
      have hxt : x ≠ Store.fresh st.objs := ne_of_live_of_dead hx hfr
      have hx1 : Owns st1 x ds := hmut.owns_other hxt hx (fun c hc => by cases hc)
      have hx2 : Owns st2 x ds :=
        Owns_transport hx1 (hother x hxl hxt) (fun c _ => by rw [hheap])
      refine Owns_transport hx2 (hobjs x hxt) ?_
      intro d hd
      exact hkeep d.1 (fun c hc hcd => hdisj c hc d hd hcd)
  · right
    exact ⟨st1, by simp [operator_assign, hret], hnone, hsame⟩

end SLL

namespace SLL

/-! ## C13: copy assignment -/

/-- C13: for lists `l` and `r` that satisfy the size invariant, with nodes `A`
and `B` (disjoint when `l` and `r` are distinct objects), the copy assignment
`l = r` either returns or propagates `std::bad_alloc` (which needs a failing
allocation, and then leaves both lists as they were).  When it returns, the
element sequence and the size of `l` are those `r` had before, and `r` has the
same element sequence and size as before (when `r` is another object, the very
same nodes).  This includes the aliased case: the self-assignment `l = l`
leaves the sequence and size of `l` unchanged.  With an allocator that never
fails the assignment returns. -/
theorem C13_copy_assignment {α : Type} (alloc : Allocator α) (hok : AllocOk alloc)
    (fuel : Nat) (st : State α) (l r : Nat) (A B : List (Nat × α))
    (hA : Owns st l A) (hB : Owns st r B)
    (hdisj : l ≠ r → ∀ c ∈ A, ∀ d ∈ B, c.1 ≠ d.1) (hfuel : B.length ≤ fuel) :
    ((∃ st2, operator_assign alloc fuel st l r = .ret () st2 ∧
        GetSize st2 l = some B.length ∧ GetSize st2 r = some B.length ∧
        GetSize st r = some B.length ∧
        (∀ f, B.length ≤ f →
          elements f st r = .ret (B.map Prod.snd) st ∧
          elements f st2 l = .ret (B.map Prod.snd) st2 ∧
          elements f st2 r = .ret (B.map Prod.snd) st2) ∧
        (l ≠ r → Owns st2 r B) ∧
        (l = r → GetSize st2 l = GetSize st l ∧
          ∀ f, A.length ≤ f →
            elements f st l = .ret (A.map Prod.snd) st ∧
            elements f st2 l = .ret (A.map Prod.snd) st2)) ∨
      (∃ st2, operator_assign alloc fuel st l r = .bad_alloc st2 ∧ (∃ h, alloc h = none) ∧
        Owns st2 l A ∧ Owns st2 r B)) ∧
    (AllocTotal alloc → ∃ st2, operator_assign alloc fuel st l r = .ret () st2 ∧
        GetSize st2 l = some B.length ∧
        ∀ f, B.length ≤ f → elements f st2 l = .ret (B.map Prod.snd) st2) := by
  have key : (∃ st2 new, operator_assign alloc fuel st l r = .ret () st2 ∧
        new.map Prod.snd = B.map Prod.snd ∧ Owns st2 l new ∧ (l ≠ r → Owns st2 r B)) ∨
      (∃ st2, operator_assign alloc fuel st l r = .bad_alloc st2 ∧ (∃ h, alloc h = none) ∧
        Owns st2 l A ∧ Owns st2 r B) := by
    rcases operator_assign_full alloc hok fuel st l r A B hA hB hfuel with
      ⟨st2, new, hret, hvals, hown, _, hframe⟩ | ⟨st2, hret, hnone, hsame⟩
    · exact Or.inl ⟨st2, new, hret, hvals, hown,
        fun hlr => hframe r B (Ne.symm hlr) hB (hdisj hlr)⟩
    · exact Or.inr ⟨st2, hret, hnone, hsame.owns hA, hsame.owns hB⟩
  have hlenOf : ∀ new : List (Nat × α), new.map Prod.snd = B.map Prod.snd →
      new.length = B.length := by
    intro new h
    have := congrArg List.length h
    simpa using this
  refine ⟨?_, ?_⟩
  · rcases key with ⟨st2, new, hret, hvals, hown, hr⟩ | hbad
    · left
      have hlen := hlenOf new hvals
      have hel : ∀ f, B.length ≤ f → elements f st2 l = .ret (B.map Prod.snd) st2 := by
        intro f hf
        rw [elements_owns hown f (by omega), hvals]
      have hsz : GetSize st2 l = some B.length := by rw [GetSize_owns hown, hlen]
      by_cases hlr : l = r
      · subst hlr
        have hAB := Owns_functional hA hB
        subst hAB
        exact ⟨st2, hret, hsz, hsz, GetSize_owns hA,
          fun f hf => ⟨elements_owns hA f hf, hel f hf, hel f hf⟩,
          fun h => absurd rfl h,
          fun _ => ⟨by rw [hsz, GetSize_owns hA],
            fun f hf => ⟨elements_owns hA f hf, hel f hf⟩⟩⟩
      · have hr2 := hr hlr
        exact ⟨st2, hret, hsz, GetSize_owns hr2, GetSize_owns hB,
          fun f hf => ⟨elements_owns hB f hf, hel f hf, elements_owns hr2 f hf⟩,
          fun _ => hr2, fun h => absurd h hlr⟩
    · exact Or.inr hbad
  · intro htot
    rcases key with ⟨st2, new, hret, hvals, hown, _⟩ | ⟨_, _, ⟨h, hnone⟩, _⟩
    · have hlen := hlenOf new hvals
      refine ⟨st2, hret, by rw [GetSize_owns hown, hlen], ?_⟩
      intro f hf
      rw [elements_owns hown f (by omega), hvals]
    · exact absurd hnone (htot h)

/-- Witness for C13: in `demoState` the assignment of the list `1, 2, 3` to
the list `1, 2`, and the self-assignment of the list `1, 2`. -/
theorem C13_copy_assignment_witness :
    AllocOk (bumpAlloc : Allocator Nat) ∧
    Owns demoState 0 [(0, 1), (1, 2)] ∧ Owns demoState 1 [(2, 1), (3, 2), (4, 3)] ∧
    (∃ st2, operator_assign bumpAlloc 3 demoState 0 1 = .ret () st2 ∧
      GetSize st2 0 = some 3 ∧ elements 3 st2 0 = .ret [1, 2, 3] st2) ∧
    ∃ st2, operator_assign bumpAlloc 3 demoState 0 0 = .ret () st2 ∧
      GetSize st2 0 = some 2 ∧ elements 3 st2 0 = .ret [1, 2] st2 := by
  obtain ⟨st2, h1, h2, h3⟩ :=
    (C13_copy_assignment bumpAlloc bumpAlloc_ok 3 demoState 0 1 _ _ demoState_owns0
      demoState_owns1 (by decide) (by decide)).2 bumpAlloc_total
  obtain ⟨st3, g1, g2, g3⟩ :=
    (C13_copy_assignment bumpAlloc bumpAlloc_ok 3 demoState 0 0 _ _ demoState_owns0
      demoState_owns0 (fun h => absurd rfl h) (by decide)).2 bumpAlloc_total
  exact ⟨bumpAlloc_ok, demoState_owns0, demoState_owns1, ⟨st2, h1, h2, h3 3 (by decide)⟩,
    st3, g1, g2, g3 3 (by decide)⟩

end SLL

namespace SLL

/-! ## C12: the copy is independent of the original -/

theorem PushFront_mut {α : Type} {alloc : Allocator α} (hok : AllocOk alloc)
    (hsp : AllocInSpace alloc) {st st1 : State α} (hwf : WF st) (c : Nat) (v : α)
    (hf : (PushFront alloc st c v).final = some st1) :
    ∃ cc cc2, Owns st c cc ∧ Mut st st1 c cc cc2 := by
  cases hobj : Store.get st.objs c with
  | none => simp [PushFront, hobj, Outcome.final] at hf
  | some o =>
    obtain ⟨cc, hown⟩ := hwf.2.1 c o hobj
    cases ha : alloc st.heap with
    | none =>
      simp [PushFront, hobj, ha, Outcome.final] at hf
      rw [← hf]
      exact ⟨cc, cc, hown, Mut.refl st c cc⟩
    | some a =>
      obtain ⟨s, hret, _, hmut⟩ :=
        PushFront_spec alloc st c cc v a hown ha (hok _ _ ha) (hwf.room hown hok hsp ha)
      rw [final_ret hret hf]
      exact ⟨cc, _, hown, hmut⟩

theorem InsertAfter_mut {α : Type} {alloc : Allocator α} (hok : AllocOk alloc)
    (hsp : AllocInSpace alloc) {st st1 : State α} (hwf : WF st) {c : Nat} {pos : NodePtr}
    (hpos : OwnPos st c pos) (v : α)
    (hf : (InsertAfter alloc st c pos v).final = some st1) :
    ∃ cc cc2, Owns st c cc ∧ Mut st st1 c cc cc2 := by
  obtain ⟨cc, i, hown, hi, rfl⟩ := hpos
  cases ha : alloc st.heap with
  | none =>
    rw [InsertAfter_fail alloc st c cc i v hown hi ha] at hf
    have : st = st1 := by simpa [Outcome.final] using hf
    rw [← this]
    exact ⟨cc, cc, hown, Mut.refl st c cc⟩
  | some a =>
    obtain ⟨s, hret, _, hmut⟩ :=
      InsertAfter_at alloc st c cc i v a hown hi ha (hok _ _ ha) (hwf.room hown hok hsp ha)
    rw [final_ret hret hf]
    exact ⟨cc, _, hown, hmut⟩

theorem PopFront_mut {α : Type} {st st1 : State α} (hwf : WF st) (c : Nat)
    (hf : (PopFront st c).final = some st1) :
    ∃ cc cc2, Owns st c cc ∧ Mut st st1 c cc cc2 := by
  cases hobj : Store.get st.objs c with
  | none => simp [PopFront, hobj, Outcome.final] at hf
  | some o =>
    obtain ⟨cc, hown⟩ := hwf.2.1 c o hobj
    cases cc with
    | nil =>
      simp [PopFront, Owns_obj hown, Outcome.final] at hf
    | cons d cc =>
      obtain ⟨s, hret, _, hmut⟩ := PopFront_spec st c d cc hown
      rw [final_ret hret hf]
      exact ⟨_, _, hown, hmut⟩

theorem EraseAfter_mut {α : Type} {st st1 : State α} {c : Nat} {pos : NodePtr}
    (hpos : OwnPos st c pos) (hf : (EraseAfter st c pos).final = some st1) :
    ∃ cc cc2, Owns st c cc ∧ Mut st st1 c cc cc2 := by
  obtain ⟨cc, i, hown, hi, rfl⟩ := hpos
  rcases Nat.lt_or_ge i cc.length with hlt | hge
  · obtain ⟨s, hret, _, hmut⟩ := EraseAfter_at st c cc i hown hlt
    rw [final_ret hret hf]
    exact ⟨_, _, hown, hmut⟩
  · have hil : i = cc.length := le_antisymm hi hge
    subst hil
    rw [EraseAfter_last hown] at hf
    cases hf

theorem Clear_mut {α : Type} {st st1 : State α} (hwf : WF st) (c : Nat)
    (hf : (Clear st c).final = some st1) :
    ∃ cc cc2, Owns st c cc ∧ Mut st st1 c cc cc2 := by
  cases hobj : Store.get st.objs c with
  | none => simp [Clear, GetSize, hobj, Outcome.final] at hf
  | some o =>
    obtain ⟨cc, hown⟩ := hwf.2.1 c o hobj
    obtain ⟨s, hret, _, hmut⟩ := Clear_spec st c cc hown
    rw [final_ret hret hf]
    exact ⟨_, _, hown, hmut⟩

theorem WF.frame {α : Type} {st st1 : State α} (hwf : WF st) {c L : Nat}
    {cc cc2 cs : List (Nat × α)} (hc : Owns st c cc) (hm : Mut st st1 c cc cc2)
    (hL : Owns st L cs) (hne : L ≠ c) : Owns st1 L cs :=
  hm.owns_other hne hL (hwf.2.2 c L cc cs (Ne.symm hne) hc hL)

theorem MutatesOnly_frame {α : Type} {alloc : Allocator α} (hok : AllocOk alloc)
    (hsp : AllocInSpace alloc) {c L : Nat} (hne : L ≠ c) {cs : List (Nat × α)}
    {st st2 : State α} (hm : MutatesOnly alloc c st st2) (hwf : WF st) (hL : Owns st L cs) :
    WF st2 ∧ Owns st2 L cs := by
  induction hm with
  | refl st => exact ⟨hwf, hL⟩
  | PushFront st st1 st2 v hf _ ih =>
    obtain ⟨cc, cc2, hc, hmut⟩ := PushFront_mut hok hsp hwf c v hf
    exact ih (PushFront_wf hok hsp hwf c v hf) (hwf.frame hc hmut hL hne)
  | PopFront st st1 st2 hf _ ih =>
    obtain ⟨cc, cc2, hc, hmut⟩ := PopFront_mut hwf c hf
    exact ih (PopFront_wf hwf c hf) (hwf.frame hc hmut hL hne)
  | InsertAfter st st1 st2 pos v hpos hf _ ih =>
    obtain ⟨cc, cc2, hc, hmut⟩ := InsertAfter_mut hok hsp hwf hpos v hf
    exact ih (InsertAfter_wf hok hsp hwf hpos v hf) (hwf.frame hc hmut hL hne)
  | EraseAfter st st1 st2 pos hpos hf _ ih =>
    obtain ⟨cc, cc2, hc, hmut⟩ := EraseAfter_mut hpos hf
    exact ih (EraseAfter_wf hwf hpos hf) (hwf.frame hc hmut hL hne)
  | Clear st st1 st2 hf _ ih =>
    obtain ⟨cc, cc2, hc, hmut⟩ := Clear_mut hwf c hf
    exact ih (Clear_wf hwf c hf).1 (hwf.frame hc hmut hL hne)

/-- C12: in a well-formed state, for a list `L` with nodes `cs`, the copy
constructor run on fresh storage `c` either returns or propagates
`std::bad_alloc` (which needs a failing allocation and leaves `L` as it was).
When it returns, the copy `c` has the element sequence and the size of `L`,
its nodes are fresh and none of them is a node of `L`, `L` still owns its
nodes, and after any finite sequence of `PushFront`, `PopFront`,
`InsertAfter`, `EraseAfter` and `Clear` calls on `c` (with positions of `c`)
the list `L` owns the same nodes, with the same element sequence and
`GetSize()` as before the copy. -/
theorem C12_copy_is_independent {α : Type} (alloc : Allocator α) (hok : AllocOk alloc)
    (hsp : AllocInSpace alloc) (fuel : Nat) (st : State α) (L c : Nat)
    (cs : List (Nat × α)) (hwf : WF st) (hL : Owns st L cs)
    (hdead : Store.get st.objs c = none) (hfuel : cs.length ≤ fuel) :
    (∃ st2 new, ctor_copy alloc fuel st c L = .ret () st2 ∧
        Owns st2 c new ∧ new.map Prod.snd = cs.map Prod.snd ∧
        GetSize st2 c = some cs.length ∧ GetSize st L = some cs.length ∧
        (∀ f, cs.length ≤ f →
          elements f st L = .ret (cs.map Prod.snd) st ∧
          elements f st2 c = .ret (cs.map Prod.snd) st2) ∧
        (∀ x ∈ new, Store.get st.heap x.1 = none ∧ ∀ y ∈ cs, x.1 ≠ y.1) ∧
        Owns st2 L cs ∧
        ∀ st3, MutatesOnly alloc c st2 st3 →
          Owns st3 L cs ∧ GetSize st3 L = some cs.length ∧
          ∀ f, cs.length ≤ f → elements f st3 L = .ret (cs.map Prod.snd) st3) ∨
    (∃ st2, ctor_copy alloc fuel st c L = .bad_alloc st2 ∧ (∃ h, alloc h = none) ∧
        Owns st2 L cs) := by
  have hLc : L ≠ c := ne_of_live_of_dead hL hdead
  rcases ctor_copy_full alloc hok fuel st c L cs hdead hL hfuel with
    ⟨st2, new, hret, hvals, hown, hmut⟩ | ⟨st2, hret, hnone, hsame⟩
  · left
    have hlen : new.length = cs.length := by
      have := congrArg List.length hvals
      simpa using this
    have hL2 : Owns st2 L cs := hmut.owns_other hLc hL (fun x hx => by cases hx)
    have hwf2 : WF st2 := ctor_copy_wf hok hsp hwf fuel c L (by rw [hret]; rfl)
    refine ⟨st2, new, hret, hown, hvals, by rw [GetSize_owns hown, hlen], GetSize_owns hL,
      ?_, ?_, hL2, ?_⟩
    · intro f hf
      refine ⟨elements_owns hL f hf, ?_⟩
      rw [elements_owns hown f (by omega), hvals]
    · intro x hx
      refine ⟨?_, hmut.fresh_disjoint hL x hx⟩
      rcases hmut.fresh_new x hx with ⟨e, he, _⟩ | hfree
      · cases he
      · exact hfree
    · intro st3 hm
      obtain ⟨_, hL3⟩ := MutatesOnly_frame hok hsp hLc hm hwf2 hL2
      exact ⟨hL3, GetSize_owns hL3, fun f hf => elements_owns hL3 f hf⟩
  · exact Or.inr ⟨st2, hret, hnone, hsame.owns hL⟩

end SLL

namespace SLL

theorem oneList_reachable : Reachable (boundedAlloc 8) oneList :=
  Reachable.step _ _ Reachable.init (Step.ctor_init _ _ 0 [1, 2, 3] rfl)

theorem oneList_owns : Owns oneList 0 [(0, 1), (1, 2), (2, 3)] :=
  ⟨.node 0, rfl, ⟨rfl, _, rfl, rfl, _, rfl, rfl, _, rfl, rfl⟩, by decide⟩

/-- Witness for C12: the copy of the list `1, 2, 3` of `oneList` into object 1;
whatever is then done to the copy, the original still iterates as `1, 2, 3`. -/
theorem C12_copy_is_independent_witness :
    AllocOk (boundedAlloc 8 : Allocator Nat) ∧ AllocInSpace (boundedAlloc 8 : Allocator Nat) ∧
    WF oneList ∧ Owns oneList 0 [(0, 1), (1, 2), (2, 3)] ∧
    Store.get oneList.objs 1 = none ∧
    ∃ st2, ctor_copy (boundedAlloc 8) 3 oneList 1 0 = .ret () st2 ∧
      elements 3 st2 1 = .ret [1, 2, 3] st2 ∧ GetSize st2 1 = some 3 ∧
      ∀ st3, MutatesOnly (boundedAlloc 8) 1 st2 st3 →
        GetSize st3 0 = some 3 ∧ elements 3 st3 0 = .ret [1, 2, 3] st3 := by
  have hok : AllocOk (boundedAlloc 8 : Allocator Nat) := boundedAlloc_ok 8
  have hsp : AllocInSpace (boundedAlloc 8 : Allocator Nat) :=
    boundedAlloc_inSpace 8 (by decide)
  have hwf : WF oneList := oneList_reachable.all_wf hok hsp
  have hrun : ctor_copy (boundedAlloc 8) 3 oneList 1 0 =
      .ret () ⟨[(4, ⟨2, .node 5⟩), (5, ⟨3, .null⟩), (3, ⟨1, .node 4⟩),
                (1, ⟨2, .node 2⟩), (2, ⟨3, .null⟩), (0, ⟨1, .node 1⟩)],
               [(1, ⟨.node 3, 3⟩), (0, ⟨.node 0, 3⟩)]⟩ := by decide
  refine ⟨hok, hsp, hwf, oneList_owns, rfl, ?_⟩
  rcases C12_copy_is_independent (boundedAlloc 8) hok hsp 3 oneList 0 1 _ hwf oneList_owns rfl
      (by decide) with
    ⟨st2, new, h1, _, _, h4, _, h6, _, _, h9⟩ | ⟨st2, hbad, _, _⟩
  · refine ⟨st2, h1, (h6 3 (by decide)).2, h4, ?_⟩
    intro st3 hm
    obtain ⟨_, g2, g3⟩ := h9 st3 hm
    exact ⟨g2, g3 3 (by decide)⟩
  · rw [hrun] at hbad
    cases hbad

end SLL

namespace SLL

/-! ## C19: allocation failure -/

theorem PushFront_throw {α : Type} {alloc : Allocator α} {st st2 : State α} {l : Nat} {v : α}
    (hf : PushFront alloc st l v = .bad_alloc st2) : st2 = st := by
  unfold PushFront at hf
  split at hf
  · cases hf
  · split at hf
    · injection hf with h; exact h.symm
    · cases hf

theorem InsertAfter_throw_alloc {α : Type} {alloc : Allocator α} {st st2 : State α} {l : Nat}
    {pos : NodePtr} {v : α} (hf : InsertAfter alloc st l pos v = .bad_alloc st2) :
    alloc st.heap = none := by
  cases h2 : alloc st.heap with
  | none => rfl
  | some n =>
    exfalso
    unfold InsertAfter at hf
    by_cases hp : pos = .null
    · simp [hp] at hf
    · cases h1 : loadNext st pos with
      | none => simp [hp, h1] at hf
      | some nx =>
        cases h3 : storeNext ⟨Store.set st.heap n ⟨v, nx⟩, st.objs⟩ pos (.node n) with
        | none => simp [hp, h1, h2, h3] at hf
        | some s2 =>
          cases h4 : setSize s2 l sizeInc with
          | none => simp [hp, h1, h2, h3, h4] at hf
          | some s3 =>
            cases h5 : loadNext s3 pos with
            | none => simp [hp, h1, h2, h3, h4, h5] at hf
            | some r2 => simp [hp, h1, h2, h3, h4, h5] at hf

/-- The build loop over `xs ++ ys` is the build loop over `ys`, started where
the loop over `xs` returns. -/
theorem ConstructLoop_append {α : Type} (alloc : Allocator α) (xs ys : List α)
    (st s1 : State α) (t : Nat) (it it1 : NodePtr)
    (h : ConstructLoop alloc xs st t it = .ret it1 s1) :
    ConstructLoop alloc (xs ++ ys) st t it = ConstructLoop alloc ys s1 t it1 := by
  induction xs generalizing st it with
  | nil =>
    simp only [ConstructLoop, Outcome.ret.injEq] at h
    obtain ⟨h1, h2⟩ := h
    subst h1 h2
    rfl
  | cons x xs ih =>
    cases hi : InsertAfter alloc st t it x with
    | ret it2 st2 =>
      have h2 : ConstructLoop alloc xs st2 t it2 = .ret it1 s1 := by
        simpa [ConstructLoop, hi] using h
      simp [ConstructLoop, hi, ih st2 it2 h2]
    | bad_alloc s => simp [ConstructLoop, hi] at h
    | assert_fail => simp [ConstructLoop, hi] at h
    | undefined => simp [ConstructLoop, hi] at h
    | out_of_fuel => simp [ConstructLoop, hi] at h

/-- The first `k` iterations of the build loop: the loop over `vs` continues
with the remaining values from the state the first `k` iterations reach. -/
theorem ConstructLoop_take {α : Type} (alloc : Allocator α) (vs : List α) (k : Nat)
    (st s1 : State α) (t : Nat) (it it1 : NodePtr)
    (h : ConstructLoop alloc (vs.take k) st t it = .ret it1 s1) :
    ConstructLoop alloc vs st t it = ConstructLoop alloc (vs.drop k) s1 t it1 := by
  have := ConstructLoop_append alloc (vs.take k) (vs.drop k) st s1 t it it1 h
  rwa [List.take_append_drop] at this

/-- A `std::bad_alloc` out of the build loop comes from the allocation of some
iteration `k`: the first `k` iterations return and reach the state the
exception leaves behind, in which the allocator has nothing to hand out. -/
theorem ConstructLoop_throw_prefix {α : Type} (alloc : Allocator α) (vs : List α)
    (st s : State α) (t : Nat) (it : NodePtr)
    (h : ConstructLoop alloc vs st t it = .bad_alloc s) :
    ∃ k it1, k < vs.length ∧ ConstructLoop alloc (vs.take k) st t it = .ret it1 s ∧
      alloc s.heap = none := by
  induction vs generalizing st it with
  | nil => simp [ConstructLoop] at h
  | cons v rest ih =>
    cases hi : InsertAfter alloc st t it v with
    | ret it2 st2 =>
      have h2 : ConstructLoop alloc rest st2 t it2 = .bad_alloc s := by
        simpa [ConstructLoop, hi] using h
      obtain ⟨k, it1, hk, hrun, hnone⟩ := ih st2 it2 h2
      exact ⟨k + 1, it1, by simpa using hk, by simp [ConstructLoop, hi, hrun], hnone⟩
    | bad_alloc s2 =>
      have hs : s2 = s := by simpa [ConstructLoop, hi] using h
      subst hs
      have hst := InsertAfter_throw hi
      subst hst
      exact ⟨0, it, by simp, by simp [ConstructLoop], InsertAfter_throw_alloc hi⟩
    | assert_fail => simp [ConstructLoop, hi] at h
    | undefined => simp [ConstructLoop, hi] at h
    | out_of_fuel => simp [ConstructLoop, hi] at h

/-- A failing allocation at iteration `k` of the build loop ends the loop by
`std::bad_alloc`, in the state the first `k` iterations reached, in which the
local list owns the nodes built so far. -/
theorem ConstructLoop_fail_at {α : Type} (alloc : Allocator α) (hok : AllocOk alloc)
    (vs : List α) (k : Nat) (st s : State α) (t : Nat) (it : NodePtr) (cs : List (Nat × α))
    (hown : Owns st t cs) (hroom : cs.length + vs.length < SIZE_MOD) (hk : k < vs.length)
    (hrun : ConstructLoop alloc (vs.take k) st t (posAt t cs cs.length) = .ret it s)
    (hnone : alloc s.heap = none) :
    ∃ part, ConstructLoop alloc vs st t (posAt t cs cs.length) = .bad_alloc s ∧
      Owns s t (cs ++ part) ∧ Mut st s t cs (cs ++ part) := by
  have hroom1 : cs.length + (vs.take k).length < SIZE_MOD := by
    have := List.length_take_le k vs
    omega
  obtain ⟨v, rest, hdrop⟩ : ∃ v rest, vs.drop k = v :: rest := by
    cases hd : vs.drop k with
    | nil =>
      have := congrArg List.length hd
      simp at this
      omega
    | cons v rest => exact ⟨v, rest, rfl⟩
  rcases ConstructLoop_spec alloc hok (vs.take k) st t cs hown hroom1 with
    ⟨s1, new, hret, _, hown1, hmut1⟩ | ⟨s1, new, hret, _, _, _⟩
  · rw [hrun] at hret
    simp only [Outcome.ret.injEq] at hret
    obtain ⟨hit, hs⟩ := hret
    subst hs
    refine ⟨new, ?_, hown1, hmut1⟩
    rw [ConstructLoop_take alloc vs k st s t _ it hrun, hdrop, hit]
    have hf := InsertAfter_fail alloc s t (cs ++ new) (cs ++ new).length v hown1 le_rfl hnone
    simp only [ConstructLoop, hf]
  · rw [hrun] at hret
    cases hret

/-- The build loop over another list is the build loop over the element
sequence of that list. -/
theorem ConstructFromLoop_eq_ConstructLoop {α : Type} (alloc : Allocator α)
    (hok : AllocOk alloc) (t other : Nat) (hto : other ≠ t) (rest : List (Nat × α))
    (fuel : Nat) (st : State α) (new done : List (Nat × α))
    (hsrc : Owns st other (done ++ rest)) (hown : Owns st t new)
    (hdisj : ∀ c ∈ new, ∀ d ∈ done ++ rest, c.1 ≠ d.1)
    (hroom : new.length + rest.length < SIZE_MOD) (hfuel : rest.length ≤ fuel) :
    ConstructFromLoop alloc fuel st t (posAt t new new.length) (firstPtr rest) =
      ConstructLoop alloc (rest.map Prod.snd) st t (posAt t new new.length) := by
  induction rest generalizing fuel st new done with
  | nil =>
    unfold ConstructFromLoop
    simp [firstPtr, end_, ConstructLoop]
  | cons d rest ih =>
    cases fuel with
    | zero => simp at hfuel
    | succ f =>
      have hcell := Owns_cell hsrc
      have hderef : Iterator_deref st (.node d.1) = .ret d.2 st := by
        simp [Iterator_deref, loadValue, hcell]
      cases ha : alloc st.heap with
      | none =>
        have hfail := InsertAfter_fail alloc st t new new.length d.2 hown le_rfl ha
        conv_lhs => unfold ConstructFromLoop
        simp [firstPtr, end_, hderef, hfail, ConstructLoop]
      | some a =>
        have hroom1 : new.length + 1 < SIZE_MOD := by
          simp only [List.length_cons] at hroom
          omega
        obtain ⟨st1, hins, hown1, hmut1⟩ :=
          InsertAfter_at alloc st t new new.length d.2 a hown le_rfl ha (hok _ _ ha) hroom1
        simp only [List.take_length, List.drop_length] at hown1 hmut1
        have hsrc1 : Owns st1 other (done ++ d :: rest) :=
          hmut1.owns_other hto hsrc hdisj
        have hcell1 := Owns_cell hsrc1
        have hincr : Iterator_incr st1 (.node d.1) = .ret (firstPtr rest) st1 := by
          simp [Iterator_incr, loadNext, hcell1]
        have hstep : ConstructFromLoop alloc (f + 1) st t (posAt t new new.length)
              (firstPtr (d :: rest)) =
            ConstructFromLoop alloc f st1 t
              (posAt t (new ++ [(a, d.2)]) (new ++ [(a, d.2)]).length) (firstPtr rest) := by
          rw [posAt_last_snoc]
          conv_lhs => unfold ConstructFromLoop
          simp [firstPtr, end_, hderef, hins, hincr]
        have hstep2 : ConstructLoop alloc ((d :: rest).map Prod.snd) st t
              (posAt t new new.length) =
            ConstructLoop alloc (rest.map Prod.snd) st1 t
              (posAt t (new ++ [(a, d.2)]) (new ++ [(a, d.2)]).length) := by
          rw [posAt_last_snoc]
          simp [ConstructLoop, hins]
        have hsrc2 : Owns st1 other ((done ++ [d]) ++ rest) := by
          simpa using hsrc1
        have hdisj2 : ∀ c ∈ new ++ [(a, d.2)], ∀ e ∈ (done ++ [d]) ++ rest, c.1 ≠ e.1 := by
          intro c hc e he
          have he2 : e ∈ done ++ d :: rest := by simpa using he
          rcases List.mem_append.1 hc with hc | hc
          · exact hdisj c hc e he2
          · have hca : c = (a, d.2) := by simpa using hc
            subst hca
            intro hae
            have := Owns_mem_get hsrc he2
            rw [← hae] at this
            exact this (hok _ _ ha)
        have hroom2 : (new ++ [(a, d.2)]).length + rest.length < SIZE_MOD := by
          simp only [List.length_cons, List.length_append, List.length_nil] at hroom ⊢
          omega
        rw [hstep, hstep2]
        exact ih f st1 (new ++ [(a, d.2)]) (done ++ [d]) hsrc2 hown1 hdisj2 hroom2
          (by simpa using hfuel)

/-- A failing allocation at iteration `k` of the build loop of `Construct` is
propagated out of `Construct`, and the state is as before the call. -/
theorem Construct_fail_at {α : Type} (alloc : Allocator α) (hok : AllocOk alloc)
    (st : State α) (l : Nat) (S : List α) (hS : S.length < SIZE_MOD) (k : Nat)
    (hk : k < S.length) (it : NodePtr) (s : State α)
    (hrun : ConstructLoop alloc (S.take k) (ctor_default st (Store.fresh st.objs))
      (Store.fresh st.objs) (before_begin (Store.fresh st.objs)) = .ret it s)
    (hnone : alloc s.heap = none) :
    ∃ st2, Construct alloc st l S = .bad_alloc st2 ∧ SameContent st st2 := by
  have hfr : Store.get st.objs (Store.fresh st.objs) = none := Store.get_fresh _
  have hroom : ([] : List (Nat × α)).length + S.length < SIZE_MOD := by simpa using hS
  obtain ⟨part, hloop, hown, hmut⟩ :=
    ConstructLoop_fail_at alloc hok S k (ctor_default st (Store.fresh st.objs)) s
      (Store.fresh st.objs) it [] (Owns_ctor_default st _) hroom hk hrun hnone
  simp only [List.nil_append] at hown hmut
  have hloop2 : ConstructLoop alloc S (ctor_default st (Store.fresh st.objs))
      (Store.fresh st.objs) (.head (Store.fresh st.objs)) = .bad_alloc s := hloop
  obtain ⟨st2, hfin, hsame⟩ := Construct_exit_throw st s l _ part hfr hown hmut
  exact ⟨st2, by simp [Construct, before_begin, hloop2, hfin], hsame⟩

/-- The two exits of `Construct`: it returns with the whole sequence built, or
it propagates the `std::bad_alloc` of the failing allocation of some iteration
`k` and leaves the state as it was. -/
theorem Construct_exact {α : Type} (alloc : Allocator α) (hok : AllocOk alloc)
    (st : State α) (l : Nat) (S : List α) (hS : S.length < SIZE_MOD)
    (hl : Owns st l ([] : List (Nat × α))) :
    (∃ st2 new, Construct alloc st l S = .ret () st2 ∧ new.map Prod.snd = S ∧
        Owns st2 l new ∧ Mut st st2 l [] new) ∨
    (∃ st2 k it s, Construct alloc st l S = .bad_alloc st2 ∧ k < S.length ∧
        ConstructLoop alloc (S.take k) (ctor_default st (Store.fresh st.objs))
          (Store.fresh st.objs) (before_begin (Store.fresh st.objs)) = .ret it s ∧
        alloc s.heap = none ∧ SameContent st st2) := by
  have hfr : Store.get st.objs (Store.fresh st.objs) = none := Store.get_fresh _
  have hroom : ([] : List (Nat × α)).length + S.length < SIZE_MOD := by simpa using hS
  rcases ConstructLoop_spec alloc hok S (ctor_default st (Store.fresh st.objs))
      (Store.fresh st.objs) [] (Owns_ctor_default st _) hroom with
    ⟨s, new, hret, hvals, hown, hmut⟩ | ⟨s, part, hret, _, _, _⟩
  · left
    simp only [List.nil_append] at hret hown hmut
    have hret2 : ConstructLoop alloc S (ctor_default st (Store.fresh st.objs))
        (Store.fresh st.objs) (.head (Store.fresh st.objs)) = .ret _ s := hret
    obtain ⟨st2, hfin, hown2, hmut2⟩ :=
      Construct_exit_ret st s l _ (posAt (Store.fresh st.objs) new new.length) new hl hfr hown
        hmut
    exact ⟨st2, new, by simp [Construct, before_begin, hret2, hfin], hvals, hown2, hmut2⟩
  · right
    have hret2 : ConstructLoop alloc S (ctor_default st (Store.fresh st.objs))
        (Store.fresh st.objs) (before_begin (Store.fresh st.objs)) = .bad_alloc s := hret
    obtain ⟨k, it, hk, hrun, hnone⟩ := ConstructLoop_throw_prefix alloc S _ s _ _ hret2
    obtain ⟨st2, hfin, hsame⟩ := Construct_fail_at alloc hok st l S hS k hk it s hrun hnone
    exact ⟨st2, k, it, s, hfin, hk, hrun, hnone, hsame⟩

/-- A failing allocation at any iteration of the build loop is propagated out
of the constructor from an initializer list, and the state is as before. -/
theorem ctor_init_fail_at {α : Type} (alloc : Allocator α) (hok : AllocOk alloc)
    (st : State α) (l : Nat) (S : List α) (hS : S.length < SIZE_MOD)
    (hdead : Store.get st.objs l = none) (k : Nat) (hfail : AllocFailsAt alloc st l S k) :
    ∃ st2, ctor_init alloc st l S = .bad_alloc st2 ∧ SameContent st st2 := by
  obtain ⟨hk, it, s, hrun, hnone⟩ := hfail
  obtain ⟨s2, hret, hsame⟩ :=
    Construct_fail_at alloc hok (ctor_default st l) l S hS k hk it s hrun hnone
  exact ⟨⟨s2.heap, Store.del s2.objs l⟩, by simp [ctor_init, hret, ctorExit],
    SameContent_ctorExit hdead hsame⟩

/-- The two exits of the constructor from an initializer list. -/
theorem ctor_init_exact {α : Type} (alloc : Allocator α) (hok : AllocOk alloc)
    (st : State α) (l : Nat) (S : List α) (hS : S.length < SIZE_MOD)
    (hdead : Store.get st.objs l = none) :
    (∃ st2 new, ctor_init alloc st l S = .ret () st2 ∧ new.map Prod.snd = S ∧
        Owns st2 l new ∧ Mut st st2 l [] new) ∨
    (∃ st2 k, ctor_init alloc st l S = .bad_alloc st2 ∧ AllocFailsAt alloc st l S k ∧
        SameContent st st2) := by
  rcases Construct_exact alloc hok (ctor_default st l) l S hS (Owns_ctor_default st l) with
    ⟨st2, new, hret, hvals, hown, hmut⟩ | ⟨s2, k, it, s, hret, hk, hrun, hnone, hsame⟩
  · exact Or.inl ⟨st2, new, by simp [ctor_init, hret, ctorExit], hvals, hown,
      Mut_of_ctor_default hmut⟩
  · exact Or.inr ⟨⟨s2.heap, Store.del s2.objs l⟩, k, by simp [ctor_init, hret, ctorExit],
      ⟨hk, it, s, hrun, hnone⟩, SameContent_ctorExit hdead hsame⟩

/-- Construction from another list is construction from the element sequence
of that list. -/
theorem ConstructFrom_eq_Construct {α : Type} (alloc : Allocator α) (hok : AllocOk alloc)
    (fuel : Nat) (st : State α) (l other : Nat) (src : List (Nat × α))
    (hsrc : Owns st other src) (hfuel : src.length ≤ fuel) :
    ConstructFrom alloc fuel st l other = Construct alloc st l (src.map Prod.snd) := by
  have hfr : Store.get st.objs (Store.fresh st.objs) = none := Store.get_fresh _
  have hto : other ≠ Store.fresh st.objs := ne_of_live_of_dead hsrc hfr
  have hsrc0 : Owns (ctor_default st (Store.fresh st.objs)) other src :=
    Owns_transport hsrc (by simp [ctor_default, Store.get_set, Ne.symm hto]) (fun _ _ => rfl)
  have hbegin : begin_ (ctor_default st (Store.fresh st.objs)) other = some (firstPtr src) :=
    begin_owns hsrc0
  have hroom : ([] : List (Nat × α)).length + src.length < SIZE_MOD := by
    obtain ⟨_, _, _, hlt⟩ := hsrc
    simpa using hlt
  have hloop := ConstructFromLoop_eq_ConstructLoop alloc hok (Store.fresh st.objs) other hto
    src fuel (ctor_default st (Store.fresh st.objs)) [] [] (by simpa using hsrc0)
    (Owns_ctor_default st _) (fun c hc => by cases hc) hroom hfuel
  have hloop2 : ConstructFromLoop alloc fuel (ctor_default st (Store.fresh st.objs))
      (Store.fresh st.objs) (.head (Store.fresh st.objs)) (firstPtr src) =
      ConstructLoop alloc (src.map Prod.snd) (ctor_default st (Store.fresh st.objs))
        (Store.fresh st.objs) (.head (Store.fresh st.objs)) := hloop
  simp [ConstructFrom, Construct, hbegin, before_begin, hloop2]

/-- The copy constructor from the list `other` has the outcome of the
constructor from the element sequence of `other`. -/
theorem ctor_copy_eq_ctor_init {α : Type} (alloc : Allocator α) (hok : AllocOk alloc)
    (fuel : Nat) (st : State α) (l other : Nat) (src : List (Nat × α))
    (hdead : Store.get st.objs l = none) (hsrc : Owns st other src)
    (hfuel : src.length ≤ fuel) :
    ctor_copy alloc fuel st l other = ctor_init alloc st l (src.map Prod.snd) := by
  have hol : other ≠ l := ne_of_live_of_dead hsrc hdead
  have hsrc0 : Owns (ctor_default st l) other src :=
    Owns_transport hsrc (by simp [ctor_default, Store.get_set, Ne.symm hol]) (fun _ _ => rfl)
  simp [ctor_copy, ctor_init,
    ConstructFrom_eq_Construct alloc hok fuel (ctor_default st l) l other src hsrc0 hfuel]

theorem Owns_length_lt {α : Type} {st : State α} {l : Nat} {cs : List (Nat × α)}
    (h : Owns st l cs) : (cs.map Prod.snd).length < SIZE_MOD := by
  obtain ⟨_, _, _, hlt⟩ := h
  simpa using hlt

/-- A failing allocation at any iteration of the build loop of the temporary
copy is propagated out of the copy assignment, and the state is as before. -/
theorem operator_assign_fail_at {α : Type} (alloc : Allocator α) (hok : AllocOk alloc)
    (fuel : Nat) (st : State α) (l r : Nat) (B : List (Nat × α))
    (hB : Owns st r B) (hfuel : B.length ≤ fuel) (k : Nat)
    (hfail : AllocFailsAt alloc st (Store.fresh st.objs) (B.map Prod.snd) k) :
    ∃ st2, operator_assign alloc fuel st l r = .bad_alloc st2 ∧ SameContent st st2 := by
  have hfr : Store.get st.objs (Store.fresh st.objs) = none := Store.get_fresh _
  obtain ⟨st2, hret, hsame⟩ :=
    ctor_init_fail_at alloc hok st (Store.fresh st.objs) (B.map Prod.snd) (Owns_length_lt hB)
      hfr k hfail
  rw [← ctor_copy_eq_ctor_init alloc hok fuel st _ r B hfr hB hfuel] at hret
  exact ⟨st2, by simp [operator_assign, hret], hsame⟩

/-- The two exits of the copy assignment `l = r`. -/
theorem operator_assign_exact {α : Type} (alloc : Allocator α) (hok : AllocOk alloc)
    (fuel : Nat) (st : State α) (l r : Nat) (A B : List (Nat × α))
    (hA : Owns st l A) (hB : Owns st r B) (hfuel : B.length ≤ fuel) :
    (∃ st2 new, operator_assign alloc fuel st l r = .ret () st2 ∧
        new.map Prod.snd = B.map Prod.snd ∧ Owns st2 l new ∧
        (∀ c ∈ new, Store.get st.heap c.1 = none) ∧
        (∀ x ds, x ≠ l → Owns st x ds → (∀ c ∈ A, ∀ d ∈ ds, c.1 ≠ d.1) → Owns st2 x ds)) ∨
    (∃ st2 k, operator_assign alloc fuel st l r = .bad_alloc st2 ∧
        AllocFailsAt alloc st (Store.fresh st.objs) (B.map Prod.snd) k ∧
        SameContent st st2) := by
  have hfr : Store.get st.objs (Store.fresh st.objs) = none := Store.get_fresh _
  rcases operator_assign_full alloc hok fuel st l r A B hA hB hfuel with
    ⟨st2, new, hret, hrest⟩ | ⟨st2, hbad, _, _⟩
  · exact Or.inl ⟨st2, new, hret, hrest⟩
  · right
    rcases ctor_init_exact alloc hok st (Store.fresh st.objs) (B.map Prod.snd)
        (Owns_length_lt hB) hfr with
      ⟨st1, new, hret, _, hown, hmut⟩ | ⟨st1, k, hret, hfail, hsame⟩
    · exfalso
      rw [← ctor_copy_eq_ctor_init alloc hok fuel st _ r B hfr hB hfuel] at hret
      have hlt : l ≠ Store.fresh st.objs := ne_of_live_of_dead hA hfr
      have hA1 : Owns st1 l A := hmut.owns_other hlt hA (fun c hc => by cases hc)
      obtain ⟨s2, hswap, _, _, ht2, _⟩ := swap_owns st1 l _ A new hA1 hown
      obtain ⟨s3, hd, _⟩ := dtor_full s2 _ A ht2
      have hret3 : operator_assign alloc fuel st l r = .ret () s3 := by
        simp [operator_assign, hret, hswap, hd]
      rw [hbad] at hret3
      cases hret3
    · rw [← ctor_copy_eq_ctor_init alloc hok fuel st _ r B hfr hB hfuel] at hret
      have hbad2 : operator_assign alloc fuel st l r = .bad_alloc st1 := by
        simp [operator_assign, hret]
      exact ⟨st1, k, hbad2, hfail, hsame⟩

/-- At the first iteration the build loop is in a state with the heap of the
state before the call: a constructor of a non-empty sequence whose first
allocation fails is a failure at iteration 0. -/
theorem AllocFailsAt_zero {α : Type} (alloc : Allocator α) (st : State α) (l : Nat)
    (v : α) (rest : List α) (hnone : alloc st.heap = none) :
    AllocFailsAt alloc st l (v :: rest) 0 :=
  ⟨by simp, _, _, rfl, hnone⟩

/-- C19 (atomicity on allocation failure), for an allocator that hands out
free addresses and any state `st`.
`PushFront` and `InsertAfter`: a failing allocation is propagated as
`std::bad_alloc`, and whenever they propagate it the state is exactly the
state before the call.
The build loops: an iteration whose `InsertAfter` throws ends the loop over an
initializer list and the loop over another list with that exception, from any
state; and the loop over `vs` is the loop over the remaining values started
where its first `k` iterations arrive.
Construction from a sequence and copy construction (both on fresh storage)
and copy assignment: if the allocation of any iteration `k` of the build loop
fails, the call propagates `std::bad_alloc` and the state holds the same list
objects and the same heap cells as before the call; the call has exactly two
exits, a normal return with the whole sequence built in fresh nodes and
nothing else touched, or a propagated `std::bad_alloc` caused by the failing
allocation of some iteration with the state as before the call.  Copy
construction from a list has the outcome of construction from the element
sequence of that list, which is how its iterations are counted.
A state with the same content gives every list (the target and the source
included) the same nodes, element sequence and size. -/
theorem C19_allocation_failure_is_atomic {α : Type} (alloc : Allocator α)
    (hok : AllocOk alloc) (st : State α) :
    (∀ l v st2, PushFront alloc st l v = .bad_alloc st2 → st2 = st) ∧
    (∀ l v o, Store.get st.objs l = some o → alloc st.heap = none →
      PushFront alloc st l v = .bad_alloc st) ∧
    (∀ l pos v st2, InsertAfter alloc st l pos v = .bad_alloc st2 → st2 = st) ∧
    (∀ l cs i v, Owns st l cs → i ≤ cs.length → alloc st.heap = none →
      InsertAfter alloc st l (posAt l cs i) v = .bad_alloc st) ∧
    (∀ v rest s s2 t it, InsertAfter alloc s t it v = .bad_alloc s2 →
      ConstructLoop alloc (v :: rest) s t it = .bad_alloc s2) ∧
    (∀ f s s1 s2 t it jt v, jt ≠ end_ → Iterator_deref s jt = .ret v s1 →
      InsertAfter alloc s t it v = .bad_alloc s2 →
      ConstructFromLoop alloc (f + 1) s t it jt = .bad_alloc s2) ∧
    (∀ vs k s0 t it0 it s, ConstructLoop alloc (vs.take k) s0 t it0 = .ret it s →
      ConstructLoop alloc vs s0 t it0 = ConstructLoop alloc (vs.drop k) s t it) ∧
    (∀ l v rest, alloc st.heap = none → AllocFailsAt alloc st l (v :: rest) 0) ∧
    (∀ l S, Store.get st.objs l = none → S.length < SIZE_MOD →
      (∀ k, AllocFailsAt alloc st l S k →
        ∃ st2, ctor_init alloc st l S = .bad_alloc st2 ∧ SameContent st st2) ∧
      ((∃ st2 new, ctor_init alloc st l S = .ret () st2 ∧ new.map Prod.snd = S ∧
          Owns st2 l new ∧ Mut st st2 l [] new) ∨
       (∃ st2 k, ctor_init alloc st l S = .bad_alloc st2 ∧ AllocFailsAt alloc st l S k ∧
          SameContent st st2))) ∧
    (∀ fuel l other src, Store.get st.objs l = none → Owns st other src →
      src.length ≤ fuel →
      ctor_copy alloc fuel st l other = ctor_init alloc st l (src.map Prod.snd) ∧
      (∀ k, AllocFailsAt alloc st l (src.map Prod.snd) k →
        ∃ st2, ctor_copy alloc fuel st l other = .bad_alloc st2 ∧ SameContent st st2) ∧
      ((∃ st2 new, ctor_copy alloc fuel st l other = .ret () st2 ∧
          new.map Prod.snd = src.map Prod.snd ∧ Owns st2 l new ∧ Mut st st2 l [] new) ∨
       (∃ st2 k, ctor_copy alloc fuel st l other = .bad_alloc st2 ∧
          AllocFailsAt alloc st l (src.map Prod.snd) k ∧ SameContent st st2))) ∧
    (∀ fuel l r A B, Owns st l A → Owns st r B → B.length ≤ fuel →
      (∀ k, AllocFailsAt alloc st (Store.fresh st.objs) (B.map Prod.snd) k →
        ∃ st2, operator_assign alloc fuel st l r = .bad_alloc st2 ∧ SameContent st st2) ∧
      ((∃ st2 new, operator_assign alloc fuel st l r = .ret () st2 ∧
          new.map Prod.snd = B.map Prod.snd ∧ Owns st2 l new ∧
          (∀ c ∈ new, Store.get st.heap c.1 = none) ∧
          (∀ x ds, x ≠ l → Owns st x ds → (∀ c ∈ A, ∀ d ∈ ds, c.1 ≠ d.1) →
            Owns st2 x ds)) ∨
       (∃ st2 k, operator_assign alloc fuel st l r = .bad_alloc st2 ∧
          AllocFailsAt alloc st (Store.fresh st.objs) (B.map Prod.snd) k ∧
          SameContent st st2))) ∧
    (∀ st2, SameContent st st2 → ∀ x cs, Owns st x cs →
      Owns st2 x cs ∧ GetSize st2 x = GetSize st x ∧
      ∀ f, cs.length ≤ f →
        elements f st x = .ret (cs.map Prod.snd) st ∧
        elements f st2 x = .ret (cs.map Prod.snd) st2) := by
  refine ⟨fun l v st2 h => PushFront_throw h, ?_, fun l pos v st2 h => InsertAfter_throw h,
    ?_, ?_, ?_, ?_, ?_, ?_, ?_, ?_, ?_⟩
  · intro l v o ho ha
    simp [PushFront, ho, ha]
  · intro l cs i v hown hi ha
    exact InsertAfter_fail alloc st l cs i v hown hi ha
  · intro v rest s s2 t it hins
    simp [ConstructLoop, hins]
  · intro f s s1 s2 t it jt v hjt hderef hins
    unfold ConstructFromLoop
    simp [hjt, hderef, hins]
  · intro vs k s0 t it0 it s hrun
    exact ConstructLoop_take alloc vs k s0 s t it0 it hrun
  · intro l v rest hnone
    exact AllocFailsAt_zero alloc st l v rest hnone
  · intro l S hdead hS
    exact ⟨fun k hfail => ctor_init_fail_at alloc hok st l S hS hdead k hfail,
      ctor_init_exact alloc hok st l S hS hdead⟩
  · intro fuel l other src hdead hsrc hfuel
    have heq := ctor_copy_eq_ctor_init alloc hok fuel st l other src hdead hsrc hfuel
    refine ⟨heq, ?_, ?_⟩
    · intro k hfail
      rw [heq]
      exact ctor_init_fail_at alloc hok st l _ (Owns_length_lt hsrc) hdead k hfail
    · rw [heq]
      exact ctor_init_exact alloc hok st l _ (Owns_length_lt hsrc) hdead
  · intro fuel l r A B hA hB hfuel
    exact ⟨fun k hfail => operator_assign_fail_at alloc hok fuel st l r B hB hfuel k hfail,
      operator_assign_exact alloc hok fuel st l r A B hA hB hfuel⟩
  · intro st2 hsame x cs hown
    have hown2 := hsame.owns hown
    exact ⟨hown2, by rw [GetSize_owns hown2, GetSize_owns hown],
      fun f hf => ⟨elements_owns hown f hf, elements_owns hown2 f hf⟩⟩

/-- Witness for C19: with an allocator for eight node slots, the assignment of
the list `1, 2, 3` to the list `1, 2` in `demoState` (seven slots in use)
builds one node and fails at the allocation of iteration 1; the exception is
propagated and both lists are as before.  Construction of `1, 2, 3` with two
slots fails at the allocation of iteration 2 and leaves the empty state. -/
theorem C19_allocation_failure_is_atomic_witness :
    AllocOk (boundedAlloc 8 : Allocator Nat) ∧
    Owns demoState 0 [(0, 1), (1, 2)] ∧ Owns demoState 1 [(2, 1), (3, 2), (4, 3)] ∧
    AllocFailsAt (boundedAlloc 8) demoState 3 [1, 2, 3] 1 ∧
    AllocFailsAt (boundedAlloc 2) (⟨[], []⟩ : State Nat) 0 [1, 2, 3] 2 ∧
    ctor_init (boundedAlloc 2) (⟨[], []⟩ : State Nat) 0 [1, 2, 3] = .bad_alloc ⟨[], []⟩ ∧
    operator_assign (boundedAlloc 8) 3 demoState 0 1 = .bad_alloc demoState ∧
    ∃ st2, operator_assign (boundedAlloc 8) 3 demoState 0 1 = .bad_alloc st2 ∧
      SameContent demoState st2 ∧
      elements 3 st2 0 = .ret [1, 2] st2 ∧ GetSize st2 0 = some 2 ∧
      elements 3 st2 1 = .ret [1, 2, 3] st2 ∧ GetSize st2 1 = some 3 := by
  have hok : AllocOk (boundedAlloc 8 : Allocator Nat) := boundedAlloc_ok 8
  have hfail : AllocFailsAt (boundedAlloc 8) demoState 3 [1, 2, 3] 1 :=
    ⟨by decide, _, _, rfl, by decide⟩
  have hfail2 : AllocFailsAt (boundedAlloc 2) (⟨[], []⟩ : State Nat) 0 [1, 2, 3] 2 :=
    ⟨by decide, _, _, rfl, by decide⟩
  obtain ⟨_, _, _, _, _, _, _, _, _, _, h11, h12⟩ :=
    C19_allocation_failure_is_atomic (boundedAlloc 8) hok demoState
  refine ⟨hok, demoState_owns0, demoState_owns1, hfail, hfail2, by decide, by decide, ?_⟩
  obtain ⟨st2, hbad, hsame⟩ :=
    (h11 3 0 1 _ _ demoState_owns0 demoState_owns1 (by decide)).1 1 hfail
  obtain ⟨_, g0, e0⟩ := h12 st2 hsame 0 _ demoState_owns0
  obtain ⟨_, g1, e1⟩ := h12 st2 hsame 1 _ demoState_owns1
  have hg0 : GetSize demoState 0 = some 2 := by decide
  have hg1 : GetSize demoState 1 = some 3 := by decide
  exact ⟨st2, hbad, hsame, (e0 3 (by decide)).2, by rw [g0, hg0], (e1 3 (by decide)).2,
    by rw [g1, hg1]⟩

end SLL

namespace SLL

/-! ## C18: a position of another list -/

theorem InsertAfter_ret_inv {α : Type} {alloc : Allocator α} {st s : State α} {l : Nat}
    {pos r : NodePtr} {v : α} (h : InsertAfter alloc st l pos v = .ret r s) :
    ∃ nx n st2, pos ≠ .null ∧ loadNext st pos = some nx ∧ alloc st.heap = some n ∧
      storeNext ⟨Store.set st.heap n ⟨v, nx⟩, st.objs⟩ pos (.node n) = some st2 ∧
      setSize st2 l sizeInc = some s ∧ loadNext s pos = some r := by
  unfold InsertAfter at h
  by_cases hp : pos = .null
  · simp [hp] at h
  · cases h1 : loadNext st pos with
    | none => simp [hp, h1] at h
    | some nx =>
      cases h2 : alloc st.heap with
      | none => simp [hp, h1, h2] at h
      | some n =>
        cases h3 : storeNext ⟨Store.set st.heap n ⟨v, nx⟩, st.objs⟩ pos (.node n) with
        | none => simp [hp, h1, h2, h3] at h
        | some st2 =>
          cases h4 : setSize st2 l sizeInc with
          | none => simp [hp, h1, h2, h3, h4] at h
          | some st3 =>
            cases h5 : loadNext st3 pos with
            | none => simp [hp, h1, h2, h3, h4, h5] at h
            | some r2 =>
              simp [hp, h1, h2, h3, h4, h5] at h
              obtain ⟨hr, hs⟩ := h
              subst hr hs
              exact ⟨nx, n, st2, hp, rfl, rfl, h3, h4, h5⟩

theorem storeNext_objs {α : Type} {s s2 : State α} {pos q : NodePtr} {a : Nat}
    (h : storeNext s pos q = some s2) (hpos : pos ≠ .head a) :
    Store.get s2.objs a = Store.get s.objs a := by
  cases pos with
  | null => simp [storeNext] at h
  | head l2 =>
    have hl : l2 ≠ a := fun e => hpos (by rw [e])
    cases ho : Store.get s.objs l2 with
    | none => simp [storeNext, ho] at h
    | some o =>
      simp [storeNext, ho] at h
      rw [← h]
      simp [Store.get_set, hl]
  | node c =>
    cases hn : Store.get s.heap c with
    | none => simp [storeNext, hn] at h
    | some n =>
      simp [storeNext, hn] at h
      rw [← h]

theorem storeNext_size {α : Type} {s s2 : State α} {pos q : NodePtr}
    (h : storeNext s pos q = some s2) (x : Nat) : GetSize s2 x = GetSize s x := by
  cases pos with
  | null => simp [storeNext] at h
  | head l2 =>
    cases ho : Store.get s.objs l2 with
    | none => simp [storeNext, ho] at h
    | some o =>
      simp [storeNext, ho] at h
      rw [← h]
      by_cases hl : l2 = x
      · subst hl
        simp [GetSize, Store.get_set, ho]
      · simp [GetSize, Store.get_set, hl]
  | node c =>
    cases hn : Store.get s.heap c with
    | none => simp [storeNext, hn] at h
    | some n =>
      simp [storeNext, hn] at h
      rw [← h]
      rfl

theorem setSize_eq {α : Type} {s : State α} {x : Nat} {o : ListObj} (f : Nat → Nat)
    (ho : Store.get s.objs x = some o) :
    setSize s x f = some ⟨s.heap, Store.set s.objs x ⟨o.head_next, f o.size_⟩⟩ := by
  simp [setSize, ho]

theorem setSize_inv {α : Type} {s s3 : State α} {x : Nat} {f : Nat → Nat}
    (h : setSize s x f = some s3) :
    ∃ o, Store.get s.objs x = some o ∧
      s3 = ⟨s.heap, Store.set s.objs x ⟨o.head_next, f o.size_⟩⟩ := by
  cases ho : Store.get s.objs x with
  | none => simp [setSize, ho] at h
  | some o =>
    simp [setSize, ho] at h
    exact ⟨o, rfl, h.symm⟩

theorem loadNext_setSize {α : Type} {s : State α} {x : Nat} {o : ListObj} (n : Nat)
    (ho : Store.get s.objs x = some o) (pos : NodePtr) :
    loadNext (⟨s.heap, Store.set s.objs x ⟨o.head_next, n⟩⟩ : State α) pos =
      loadNext s pos := by
  cases pos with
  | null => rfl
  | head l2 =>
    by_cases hl : x = l2
    · subst hl
      simp [loadNext, Store.get_set, ho]
    · simp [loadNext, Store.get_set, hl]
  | node c => rfl

theorem begin_setSize {α : Type} {s : State α} {x : Nat} {o : ListObj} (n : Nat)
    (ho : Store.get s.objs x = some o) (y : Nat) :
    begin_ (⟨s.heap, Store.set s.objs x ⟨o.head_next, n⟩⟩ : State α) y = begin_ s y :=
  loadNext_setSize n ho (.head y)

/-- The call `a.InsertAfter(pos, v)` with a position that is not the sentinel
of `a`, compared with the call `b.InsertAfter(pos, v)` in the same state: when
the latter returns, so does the former, with the same iterator and the same
heap; it increments the size counter of `a` and leaves that of `b` alone. -/
theorem InsertAfter_other_this {α : Type} {alloc : Allocator α} {st sb : State α}
    {a b : Nat} (hab : a ≠ b) {pos r : NodePtr} {v : α} {oa : ListObj}
    (hoa : Store.get st.objs a = some oa) (hpos : pos ≠ .head a)
    (hb : InsertAfter alloc st b pos v = .ret r sb) :
    ∃ sa, InsertAfter alloc st a pos v = .ret r sa ∧ sa.heap = sb.heap ∧
      Store.get sa.objs a = some ⟨oa.head_next, sizeInc oa.size_⟩ ∧
      begin_ sa b = begin_ sb b ∧ GetSize sa b = GetSize st b := by
  obtain ⟨nx, n, st2, hp, h1, h2, h3, h4, h5⟩ := InsertAfter_ret_inv hb
  obtain ⟨ob2, hob2, hsb⟩ := setSize_inv h4
  have hoa2 : Store.get st2.objs a = some oa := by
    rw [storeNext_objs h3 hpos]
    exact hoa
  have hr : loadNext st2 pos = some r := by
    rw [hsb, loadNext_setSize _ hob2] at h5
    exact h5
  refine ⟨⟨st2.heap, Store.set st2.objs a ⟨oa.head_next, sizeInc oa.size_⟩⟩, ?_, ?_, ?_, ?_, ?_⟩
  · simp [InsertAfter, hp, h1, h2, h3, setSize_eq sizeInc hoa2, loadNext_setSize _ hoa2, hr]
  · rw [hsb]
  · simp [Store.get_set]
  · rw [hsb, begin_setSize _ hoa2, begin_setSize _ hob2]
  · have : GetSize st2 b = GetSize st b := storeNext_size h3 b
    rw [← this]
    simp [GetSize, Store.get_set, hab]

end SLL

namespace SLL

theorem EraseAfter_ret_inv {α : Type} {st s : State α} {l : Nat} {pos r : NodePtr}
    (h : EraseAfter st l pos = .ret r s) :
    ∃ nx o nn st1 st2, pos ≠ .null ∧ loadNext st pos = some nx ∧ nx ≠ .null ∧
      Store.get st.objs l = some o ∧ o.size_ ≠ 0 ∧ loadNext st nx = some nn ∧
      storeNext st pos nn = some st1 ∧ deleteNode st1 nx = some st2 ∧
      setSize st2 l sizeDec = some s ∧ loadNext s pos = some r := by
  unfold EraseAfter at h
  by_cases hp : pos = .null
  · simp [hp] at h
  · cases h1 : loadNext st pos with
    | none => simp [hp, h1] at h
    | some nx =>
      by_cases hnx : nx = .null
      · simp [hp, h1, hnx] at h
      · cases h2 : Store.get st.objs l with
        | none => simp [hp, h1, hnx, h2] at h
        | some o =>
          by_cases hz : o.size_ = 0
          · simp [hp, h1, hnx, h2, hz] at h
          · cases h3 : loadNext st nx with
            | none => simp [hp, h1, hnx, h2, hz, h3] at h
            | some nn =>
              cases h4 : storeNext st pos nn with
              | none => simp [hp, h1, hnx, h2, hz, h3, h4] at h
              | some st1 =>
                cases h5 : deleteNode st1 nx with
                | none => simp [hp, h1, hnx, h2, hz, h3, h4, h5] at h
                | some st2 =>
                  cases h6 : setSize st2 l sizeDec with
                  | none => simp [hp, h1, hnx, h2, hz, h3, h4, h5, h6] at h
                  | some st3 =>
                    cases h7 : loadNext st3 pos with
                    | none => simp [hp, h1, hnx, h2, hz, h3, h4, h5, h6, h7] at h
                    | some r2 =>
                      simp [hp, h1, hnx, h2, hz, h3, h4, h5, h6, h7] at h
                      obtain ⟨hr, hs⟩ := h
                      subst hr hs
                      exact ⟨nx, o, nn, st1, st2, hp, rfl, hnx, rfl, hz, h3, h4, h5, h6, h7⟩

theorem deleteNode_objs {α : Type} {s s2 : State α} {p : NodePtr}
    (h : deleteNode s p = some s2) : s2.objs = s.objs := by
  cases p with
  | null =>
    simp [deleteNode] at h
    rw [← h]
  | head l2 => simp [deleteNode] at h
  | node c =>
    cases hn : Store.get s.heap c with
    | none => simp [deleteNode, hn] at h
    | some n =>
      simp [deleteNode, hn] at h
      rw [← h]

/-- The call `a.EraseAfter(pos)` with a position that is not the sentinel of
`a`, compared with the call `b.EraseAfter(pos)` in the same state, when the
latter returns: if `size_` of `a` is not zero the former returns too, with the
same iterator and heap, decrementing the size counter of `a` and leaving that
of `b` alone; if `size_` of `a` is zero the third assertion fails. -/
theorem EraseAfter_other_this {α : Type} {st sb : State α} {a b : Nat} (hab : a ≠ b)
    {pos r : NodePtr} {oa : ListObj} (hoa : Store.get st.objs a = some oa)
    (hpos : pos ≠ .head a) (hb : EraseAfter st b pos = .ret r sb) :
    (oa.size_ = 0 → EraseAfter st a pos = .assert_fail) ∧
    (oa.size_ ≠ 0 → ∃ sa, EraseAfter st a pos = .ret r sa ∧ sa.heap = sb.heap ∧
      Store.get sa.objs a = some ⟨oa.head_next, sizeDec oa.size_⟩ ∧
      begin_ sa b = begin_ sb b ∧ GetSize sa b = GetSize st b) := by
  obtain ⟨nx, o, nn, st1, st2, hp, h1, hnx, _, _, h3, h4, h5, h6, h7⟩ := EraseAfter_ret_inv hb
  obtain ⟨ob2, hob2, hsb⟩ := setSize_inv h6
  have hobjs2 := deleteNode_objs h5
  have hoa2 : Store.get st2.objs a = some oa := by
    rw [hobjs2, storeNext_objs h4 hpos]
    exact hoa
  have hr : loadNext st2 pos = some r := by
    rw [hsb, loadNext_setSize _ hob2] at h7
    exact h7
  refine ⟨?_, ?_⟩
  · intro hz
    simp [EraseAfter, hp, h1, hnx, hoa, hz]
  · intro hz
    refine ⟨⟨st2.heap, Store.set st2.objs a ⟨oa.head_next, sizeDec oa.size_⟩⟩, ?_, ?_, ?_, ?_,
      ?_⟩
    · simp [EraseAfter, hp, h1, hnx, hoa, hz, h3, h4, h5, setSize_eq sizeDec hoa2,
        loadNext_setSize _ hoa2, hr]
    · rw [hsb]
    · simp [Store.get_set]
    · rw [hsb, begin_setSize _ hoa2, begin_setSize _ hob2]
    · have h1s : GetSize st1 b = GetSize st b := storeNext_size h4 b
      have h2s : GetSize st2 b = GetSize st1 b := by simp [GetSize, hobjs2]
      rw [← h1s, ← h2s]
      simp [GetSize, Store.get_set, hab]

theorem posAt_ne_head {α : Type} {a b : Nat} (hab : a ≠ b) (B : List (Nat × α)) (i : Nat)
    (hi : i ≤ B.length) : posAt b B i ≠ .head a := by
  cases i with
  | zero =>
    intro h
    have : b = a := by simpa [posAt] using h
    exact hab this.symm
  | succ k =>
    rw [posAt_succ b B k hi]
    simp

end SLL

namespace SLL

/-- Counterexample to C18 as stated: in `demoState` the node at address 2 is
the first node of list 1 (`1, 2, 3`) and no node of list 0 (`1, 2`).  The call
`InsertAfter` on list 0 with that position passes the assertion and returns
normally, with the size counter of list 0 changed from 2 to 3 (the chain of
list 1 now has four nodes while its counter still says 3); the call
`EraseAfter` on list 0 with that position passes all three assertions and
returns normally, with the size counter of list 0 changed from 2 to 1. -/
theorem C18_foreign_position_counterexample :
    Owns demoState 0 [(0, 1), (1, 2)] ∧ Owns demoState 1 [(2, 1), (3, 2), (4, 3)] ∧
    GetSize demoState 0 = some 2 ∧
    (∃ st2, InsertAfter bumpAlloc demoState 0 (.node 2) 9 = .ret (.node 7) st2 ∧
      GetSize st2 0 = some 3 ∧ GetSize st2 1 = some 3 ∧
      elements 4 st2 1 = .ret [1, 9, 2, 3] st2) ∧
    (∃ st2, EraseAfter demoState 0 (.node 2) = .ret (.node 4) st2 ∧
      GetSize st2 0 = some 1 ∧ GetSize st2 1 = some 3 ∧
      elements 4 st2 1 = .ret [1, 3] st2) := by
  refine ⟨demoState_owns0, demoState_owns1, by decide, ?_, ?_⟩
  · exact ⟨⟨[(2, ⟨1, .node 7⟩), (7, ⟨9, .node 3⟩), (0, ⟨1, .node 1⟩), (1, ⟨2, .null⟩),
        (3, ⟨2, .node 4⟩), (4, ⟨3, .null⟩), (5, ⟨1, .node 6⟩), (6, ⟨3, .null⟩)],
      [(0, ⟨.node 0, 3⟩), (1, ⟨.node 2, 3⟩), (2, ⟨.node 5, 2⟩)]⟩,
      by decide, by decide, by decide, by decide⟩
  · exact ⟨⟨[(2, ⟨1, .node 4⟩), (0, ⟨1, .node 1⟩), (1, ⟨2, .null⟩), (4, ⟨3, .null⟩),
        (5, ⟨1, .node 6⟩), (6, ⟨3, .null⟩)],
      [(0, ⟨.node 0, 1⟩), (1, ⟨.node 2, 3⟩), (2, ⟨.node 5, 2⟩)]⟩,
      by decide, by decide, by decide, by decide⟩

/-- C18, amended: the assertions do not detect a position of another list.
For distinct lists `a` and `b` that satisfy the size invariant and share no
node (nodes `A` and `B`), and the position of `b` with index `i` (`0` is the
sentinel of `b`):
`a.InsertAfter` passes its only assertion (the position is not null) and,
when the allocation succeeds and the new sizes are `size_t` values, returns
normally; the new node is linked after the position in the chain of `b`, the
size counter of `a` is incremented and the size counter of `b` is not.
`a.EraseAfter` fails an assertion only when the position has no next node or
`a` is empty; otherwise it returns normally, the node after the position is
removed from the chain of `b`, the size counter of `a` is decremented and the
size counter of `b` is not. -/
theorem C18_foreign_position_not_detected {α : Type} (alloc : Allocator α)
    (hok : AllocOk alloc) (st : State α) (a b : Nat) (A B : List (Nat × α)) (i : Nat) (v : α)
    (n : Nat) (hab : a ≠ b) (hA : Owns st a A) (hB : Owns st b B)
    (hdisj : ∀ c ∈ A, ∀ d ∈ B, c.1 ≠ d.1) (hi : i ≤ B.length)
    (ha : alloc st.heap = some n) (hroomA : A.length + 1 < SIZE_MOD)
    (hroomB : B.length + 1 < SIZE_MOD) :
    (∃ st2, InsertAfter alloc st a (posAt b B i) v = .ret (.node n) st2 ∧
      GetSize st2 a = some (A.length + 1) ∧ GetSize st2 b = some B.length ∧
      (∃ q, begin_ st2 b = some q ∧ Cells st2.heap q (B.take i ++ (n, v) :: B.drop i)) ∧
      (∃ p, begin_ st2 a = some p ∧ Cells st2.heap p A)) ∧
    (i < B.length → A ≠ [] →
      ∃ st2, EraseAfter st a (posAt b B i) = .ret (firstPtr (B.drop (i + 1))) st2 ∧
        GetSize st2 a = some (A.length - 1) ∧ GetSize st2 b = some B.length ∧
        (∃ q, begin_ st2 b = some q ∧ Cells st2.heap q (B.eraseIdx i)) ∧
        (∃ p, begin_ st2 a = some p ∧ Cells st2.heap p A)) ∧
    (i < B.length → A = [] → EraseAfter st a (posAt b B i) = .assert_fail) ∧
    (i = B.length → EraseAfter st a (posAt b B i) = .assert_fail) := by
  have hpos := posAt_ne_head hab B i hi
  have hoa := Owns_obj hA
  have hdisj2 : ∀ d ∈ B, ∀ c ∈ A, d.1 ≠ c.1 := fun d hd c hc h => hdisj c hc d hd h.symm
  refine ⟨?_, ?_, ?_, ?_⟩
  · obtain ⟨sb, hret, hownB, hmut⟩ :=
      InsertAfter_at alloc st b B i v n hB hi ha (hok _ _ ha) hroomB
    have hA2 : Owns sb a A := hmut.owns_other hab hA hdisj2
    obtain ⟨sa, hra, hheap, hga, hbeg, hsz⟩ := InsertAfter_other_this hab hoa hpos hret
    refine ⟨sa, hra, ?_, by rw [hsz, GetSize_owns hB], ?_, ?_⟩
    · simp [GetSize, hga, sizeInc_eq hroomA]
    · obtain ⟨q, hobj, hcells, _⟩ := hownB
      refine ⟨q, by rw [hbeg]; simp [begin_, hobj], by rw [hheap]; exact hcells⟩
    · obtain ⟨p, hobj, hcells, _⟩ := hA2
      refine ⟨firstPtr A, by simp [begin_, hga], ?_⟩
      rw [hheap, ← Cells_firstPtr hcells]
      exact hcells
  · intro hlt hne
    obtain ⟨sb, hret, hownB, hmut⟩ := EraseAfter_at st b B i hB hlt
    rw [← List.eraseIdx_eq_take_drop_succ] at hownB hmut
    have hA2 : Owns sb a A := hmut.owns_other hab hA hdisj2
    have hnz : (⟨firstPtr A, A.length⟩ : ListObj).size_ ≠ 0 := by
      cases A with
      | nil => exact absurd rfl hne
      | cons c cs => simp
    obtain ⟨sa, hra, hheap, hga, hbeg, hsz⟩ := (EraseAfter_other_this hab hoa hpos hret).2 hnz
    refine ⟨sa, hra, ?_, by rw [hsz, GetSize_owns hB], ?_, ?_⟩
    · cases A with
      | nil => exact absurd rfl hne
      | cons c cs =>
        have hr : cs.length + 1 < SIZE_MOD := by
          obtain ⟨_, _, _, hlt2⟩ := hA
          simpa using hlt2
        simp [GetSize, hga, sizeDec_succ hr]
    · obtain ⟨q, hobj, hcells, _⟩ := hownB
      refine ⟨q, by rw [hbeg]; simp [begin_, hobj], by rw [hheap]; exact hcells⟩
    · obtain ⟨p, hobj, hcells, _⟩ := hA2
      refine ⟨firstPtr A, by simp [begin_, hga], ?_⟩
      rw [hheap, ← Cells_firstPtr hcells]
      exact hcells
  · intro hlt hnil
    obtain ⟨sb, hret, _, _⟩ := EraseAfter_at st b B i hB hlt
    subst hnil
    exact (EraseAfter_other_this hab hoa hpos hret).1 rfl
  · intro hil
    subst hil
    simp [EraseAfter, posAt_ne_null b B B.length le_rfl, loadNext_posAt hB B.length le_rfl,
      firstPtr]

/-- Witness for the amended C18: list 0 (`1, 2`) of `demoState` called with the
position of the first node of list 1 (`1, 2, 3`). -/
theorem C18_foreign_position_not_detected_witness :
    AllocOk (bumpAlloc : Allocator Nat) ∧
    Owns demoState 0 [(0, 1), (1, 2)] ∧ Owns demoState 1 [(2, 1), (3, 2), (4, 3)] ∧
    (bumpAlloc : Allocator Nat) demoState.heap = some 7 ∧
    (∃ st2, InsertAfter bumpAlloc demoState 0 (.node 2) 9 = .ret (.node 7) st2 ∧
      GetSize st2 0 = some 3 ∧ GetSize st2 1 = some 3) ∧
    ∃ st2, EraseAfter demoState 0 (.node 2) = .ret (.node 4) st2 ∧
      GetSize st2 0 = some 1 ∧ GetSize st2 1 = some 3 := by
  obtain ⟨⟨s1, h1, h2, h3, _⟩, hE, _, _⟩ :=
    C18_foreign_position_not_detected bumpAlloc bumpAlloc_ok demoState 0 1
      [(0, 1), (1, 2)] [(2, 1), (3, 2), (4, 3)] 1 9 7 (by decide) demoState_owns0
      demoState_owns1 (by decide) (by decide) rfl (by decide) (by decide)
  obtain ⟨s2, g1, g2, g3, _⟩ := hE (by decide) (by decide)
  exact ⟨bumpAlloc_ok, demoState_owns0, demoState_owns1, rfl, ⟨s1, h1, h2, h3⟩,
    s2, g1, g2, g3⟩

end SLL
